import Mathlib

/-!
# DynamicPatcher foundation: allocators and symbol table

A shallow embedding of `src/dpFoundation.cpp`.

* Addresses and `size_t` values are natural numbers below `2 ^ 64`; every sum,
  difference and product the C++ code takes in `size_t` is reduced modulo `2 ^ 64`
  here (`wadd`, `wsub`, `wmul`).
* A pointer is its address, `0` is `NULL` / `nullptr`.
* The intrusive free lists live in memory. For the TrampolineAllocator `mem a` is the
  `Block::next` word stored at the block address `a`; the memory of the BlockAllocator is
  byte-addressed, a link being the eight bytes at its address.
* Calls that leave the program (`::VirtualAlloc`, `malloc`) are oracles supplied by the
  caller of the model.
* The two retry loops of §4.1 may not terminate; they take a fuel argument and return
  `none` when it runs out.
-/

/-! ## Machine arithmetic -/

/-- The `size_t` sum `a + b` (64-bit build). -/
def wadd (a b : Nat) : Nat := (a + b) % 2 ^ 64

/-- The `size_t` difference `a - b`. -/
def wsub (a b : Nat) : Nat := (a + (2 ^ 64 - b % 2 ^ 64)) % 2 ^ 64

/-- The `size_t` product `a * b`. -/
def wmul (a b : Nat) : Nat := (a * b) % 2 ^ 64

/-- The `size_t` complement `~a`. -/
def wnot (a : Nat) : Nat := 2 ^ 64 - 1 - a % 2 ^ 64

/-! ## 4.1 NearAddressReservation (`dpAllocateForward`, `dpAllocateBackward`) -/

/-- The OS call `::VirtualAlloc(addr, size, MEM_COMMIT|MEM_RESERVE, PAGE_EXECUTE_READWRITE)`
as an oracle: the returned pointer, `0` for `NULL`. -/
abbrev VirtualAllocFn := Nat → Nat → Nat

/-- The oracle of an OS that reserves exactly where it is asked, on the addresses
`ok` accepts, and fails everywhere else. -/
def exactOS (ok : Nat → Bool) : VirtualAllocFn := fun addr _ => if ok addr then addr else 0

/-- The probing distance `step = 0x10000` (64 KiB) of both reservation loops. -/
def step : Nat := 0x10000

/-- The loop `for(size_t i=0; ret==NULL; ++i) ret = VirtualAlloc(base+(step*i), size, ..)`
of `dpAllocateForward`, entered with counter `i`; `none` when `fuel` iterations did not
produce a non-null `ret`. -/
def forwardLoop (os : VirtualAllocFn) (base size : Nat) : Nat → Nat → Option Nat
  | 0, _ => none
  | fuel + 1, i =>
    let ret := os (wadd base (wmul step i)) size
    if ret ≠ 0 then some ret else forwardLoop os base size fuel (wadd i 1)

/-- The loop `for(size_t i=0; ret==NULL; ++i) ret = VirtualAlloc(base-(step*i), size, ..)`
of `dpAllocateBackward`, entered with counter `i`. -/
def backwardLoop (os : VirtualAllocFn) (base size : Nat) : Nat → Nat → Option Nat
  | 0, _ => none
  | fuel + 1, i =>
    let ret := os (wsub base (wmul step i)) size
    if ret ≠ 0 then some ret else backwardLoop os base size fuel (wadd i 1)

/-- Function `dpAllocateForward(size, location)`. The function-local
`static size_t base = (size_t)location;` is the explicit state `static_base`: `none`
until control first passes the declaration, from then on the value it was given there.
Returns the pointer and the new value of the static; `none` when the loop is out of fuel. -/
def dpAllocateForward (os : VirtualAllocFn) (fuel : Nat) (static_base : Option Nat)
    (size location : Nat) : Option (Nat × Option Nat) :=
  if size = 0 then some (0, static_base)
  else
    let base := static_base.getD location
    match forwardLoop os base size fuel 0 with
    | none => none
    | some ret => some (ret, some base)

/-- Function `dpAllocateBackward(size, location)`, with its own function-local static. -/
def dpAllocateBackward (os : VirtualAllocFn) (fuel : Nat) (static_base : Option Nat)
    (size location : Nat) : Option (Nat × Option Nat) :=
  if size = 0 then some (0, static_base)
  else
    let base := static_base.getD location
    match backwardLoop os base size fuel 0 with
    | none => none
    | some ret => some (ret, some base)

/-- Modelled from the spec: `dpFind(container, pred)` is declared in `dpInternal.h`, which
is not part of the sources; the spec describes its uses as searching the pages (or symbols)
in order for one for which the predicate holds. This is the position of the first such
element, `none` standing for `end()`. -/
def dpFind {α : Type} (f : α → Bool) : List α → Option Nat
  | [] => none
  | a :: l => if f a then some 0 else (dpFind f l).map (· + 1)

/-! ## 4.2 SectionAllocator -/

/-- Class `dpSectionAllocator`: the window `(m_data, m_size)` and the cursor `m_used`. -/
structure dpSectionAllocator where
  m_data : Nat
  m_size : Nat
  m_used : Nat
deriving DecidableEq, Repr

namespace dpSectionAllocator

/-- Constructor `dpSectionAllocator(data, size)`. -/
def mk0 (data size : Nat) : dpSectionAllocator := ⟨data, size, 0⟩

/-- The value `aligned = (base + m_used + mask) & ~mask` with `mask = align - 1`. -/
def alignedPos (a : dpSectionAllocator) (align : Nat) : Nat :=
  let mask := wsub align 1
  (wadd (wadd a.m_data a.m_used) mask) &&& (wnot mask)

/-- Method `allocate(size, align)`: the returned pointer and the allocator afterwards. -/
def allocate (a : dpSectionAllocator) (size align : Nat) : Nat × dpSectionAllocator :=
  let base := a.m_data
  let aligned := a.alignedPos align
  if wadd aligned size ≤ wadd base a.m_size then
    (if a.m_data = 0 then 0 else aligned, { a with m_used := wsub (wadd aligned size) base })
  else
    (0, a)

/-- Method `getUsed()`. -/
def getUsed (a : dpSectionAllocator) : Nat := a.m_used

/-- A request `allocate(size, align)`. -/
structure Request where
  size : Nat
  align : Nat
deriving DecidableEq, Repr

/-- A served request: the pointer returned and the size asked for. -/
structure Served where
  ptr : Nat
  size : Nat
  align : Nat
deriving DecidableEq, Repr

/-- Runs a sequence of `allocate` calls; the results in call order and the final allocator. -/
def run (a : dpSectionAllocator) : List Request → List Served × dpSectionAllocator
  | [] => ([], a)
  | r :: rs =>
    let res := a.allocate r.size r.align
    let rest := run res.2 rs
    (⟨res.1, r.size, r.align⟩ :: rest.1, rest.2)

/-- The allocator reached after a sequence of calls. -/
def after (a : dpSectionAllocator) (rs : List Request) : dpSectionAllocator := (run a rs).2

/-- Byte ranges `[p, p+s)` and `[q, t)` share no address. -/
def rangesDisjoint (p s q t : Nat) : Prop := p + s ≤ q ∨ q + t ≤ p

/-- A power of two that fits a `size_t`. -/
def IsPow2 (align : Nat) : Prop := ∃ k, k < 64 ∧ align = 2 ^ k

/-- No address computation of a request wraps around in the window `(b, S)`. -/
def NoWrap (b S : Nat) (r : Request) : Prop := b + S + r.align + r.size < 2 ^ 64

instance (align : Nat) : Decidable (IsPow2 align) := by
  unfold IsPow2; infer_instance

instance (b S : Nat) (r : Request) : Decidable (NoWrap b S r) := by
  unfold NoWrap; infer_instance

instance (p s q t : Nat) : Decidable (rangesDisjoint p s q t) := by
  unfold rangesDisjoint; infer_instance

/-- The requests of the worked example: `(5, 16)`, `(3, 1)`, `(8, 8)` and a last one that
no longer fits. -/
def exampleRequests : List Request := [⟨5, 16⟩, ⟨3, 1⟩, ⟨8, 8⟩, ⟨0x1000, 1⟩]

end dpSectionAllocator

/-! ## 4.4 TrampolineAllocator

`page_size` and `block_size` are constants of the class declaration in `dpInternal.h`,
which is not part of the sources; they are parameters here. `sizeof(Block)` is taken to be
`block_size` (a block size that is a multiple of the pointer size). -/

namespace dpTrampolineAllocator

/-- The jump-range threshold of `Page::isInsideJumpRange`. -/
def jump_range : Nat := 0x7fff0000

/-- Class `dpTrampolineAllocator::Page`: `m_data` and the head `m_freelist` of the free list. -/
structure Page where
  m_data : Nat
  m_freelist : Nat
deriving DecidableEq, Repr

/-- Everything `dpTrampolineAllocator` reads and writes: its vector `m_pages`, the memory
holding the `Block::next` links, and the function-local static of `dpAllocateBackward`. -/
structure State where
  m_pages : List Page
  mem : Nat → Nat
  static_base : Option Nat

/-- The allocator after its constructor (no pages), in a program that has not yet passed
the static of `dpAllocateBackward`. -/
def State.init : State := ⟨[], fun _ => 0, none⟩

/-- The body of the `Page` constructor after the reservation: with `n = page_size / block_size`,
`m_freelist[i].next = m_freelist+i+1` for `i < n-1`, then `m_freelist[n-1].next = nullptr`. -/
def linkBlocks (page_size block_size data : Nat) (mem : Nat → Nat) : Nat → Nat :=
  let n := page_size / block_size
  let mem1 := (List.range (wsub n 1)).foldl
    (fun m i => Function.update m (wadd data (wmul i block_size))
      (wadd data (wmul (wadd i 1) block_size))) mem
  Function.update mem1 (wadd data (wmul (wsub n 1) block_size)) 0

/-- Constructor `Page(base)`: reserves with `dpAllocateBackward(page_size, base)` and
threads the free list. Returns the page, the memory and the static afterwards. -/
def Page.create (page_size block_size : Nat) (os : VirtualAllocFn) (fuel : Nat)
    (static_base : Option Nat) (mem : Nat → Nat) (base : Nat) :
    Option (Page × (Nat → Nat) × Option Nat) :=
  match dpAllocateBackward os fuel static_base page_size base with
  | none => none
  | some (data, sb) => some (⟨data, data⟩, linkBlocks page_size block_size data mem, sb)

/-- Method `Page::allocate()`: the returned pointer and the page afterwards. -/
def Page.allocate (p : Page) (mem : Nat → Nat) : Nat × Page :=
  if p.m_freelist ≠ 0 then (p.m_freelist, { p with m_freelist := mem p.m_freelist })
  else (0, p)

/-- Method `Page::isInsideMemory(p)`. -/
def Page.isInsideMemory (page_size : Nat) (p : Page) (loc : Nat) : Bool :=
  decide (loc ≥ p.m_data ∧ loc < wadd p.m_data page_size)

/-- Method `Page::isInsideJumpRange(p)`. -/
def Page.isInsideJumpRange (p : Page) (loc : Nat) : Bool :=
  let base := p.m_data
  let dist := if base < loc then wsub loc base else wsub base loc
  decide (dist < 0x7fff0000)

/-- Method `Page::deallocate(v)`: the result, the memory and the page afterwards. -/
def Page.deallocate (page_size : Nat) (p : Page) (mem : Nat → Nat) (v : Nat) :
    Bool × (Nat → Nat) × Page :=
  if v = 0 then (false, mem, p)
  else if p.isInsideMemory page_size v then
    (true, Function.update mem v p.m_freelist, { p with m_freelist := v })
  else (false, mem, p)

/-- Method `findOwnerPage(location)`: the position in `m_pages`, `none` for `nullptr`. -/
def findOwnerPage (page_size : Nat) (st : State) (location : Nat) : Option Nat :=
  dpFind (fun p => p.isInsideMemory page_size location) st.m_pages

/-- Method `findCandidatePage(location)`: the position in `m_pages`, `none` for `nullptr`. -/
def findCandidatePage (st : State) (location : Nat) : Option Nat :=
  dpFind (fun p => p.isInsideJumpRange location) st.m_pages

/-- The call `page->allocate()` on the page at position `i` of `m_pages`. -/
def allocateAt (st : State) (i : Nat) : Nat × State :=
  match st.m_pages.get? i with
  | none => (0, st)
  | some p => ((p.allocate st.mem).1, { st with m_pages := st.m_pages.set i (p.allocate st.mem).2 })

/-- Method `createPage(location)`: the position of the new page and the state afterwards. -/
def createPage (page_size block_size : Nat) (os : VirtualAllocFn) (fuel : Nat) (st : State)
    (location : Nat) : Option (Nat × State) :=
  match Page.create page_size block_size os fuel st.static_base st.mem location with
  | none => none
  | some (p, mem, sb) => some (st.m_pages.length, ⟨st.m_pages ++ [p], mem, sb⟩)

/-- Method `dpTrampolineAllocator::allocate(location)`. -/
def allocate (page_size block_size : Nat) (os : VirtualAllocFn) (fuel : Nat) (st : State)
    (location : Nat) : Option (Nat × State) :=
  let r :=
    match findCandidatePage st location with
    | some i => allocateAt st i
    | none => (0, st)
  if r.1 ≠ 0 then some r
  else
    match createPage page_size block_size os fuel r.2 location with
    | none => none
    | some (i, st2) => some (allocateAt st2 i)

/-- A sequence of `allocate(location)` calls, each paired with the OS as it answers during
that call: the blocks returned, in call order, and the state afterwards. -/
def allocateSeq (page_size block_size fuel : Nat) :
    State → List (VirtualAllocFn × Nat) → Option (List Nat × State)
  | st, [] => some ([], st)
  | st, c :: cs =>
    match allocate page_size block_size c.1 fuel st c.2 with
    | none => none
    | some r =>
      (allocateSeq page_size block_size fuel r.2 cs).map (fun x => (r.1 :: x.1, x.2))

/-- Method `dpTrampolineAllocator::deallocate(v)`. -/
def deallocate (page_size : Nat) (st : State) (v : Nat) : Bool × State :=
  match findOwnerPage page_size st v with
  | none => (false, st)
  | some i =>
    match st.m_pages.get? i with
    | none => (false, st)
    | some p =>
      let r := p.deallocate page_size st.mem v
      (r.1, { st with m_pages := st.m_pages.set i r.2.2, mem := r.2.1 })

end dpTrampolineAllocator

/-! ## 4.3 BlockAllocator(PageSize, BlockSize)

The template parameters are parameters of every definition. The memory of this allocator
is byte-addressed: `mem a` is the byte at address `a`, and a `Block::next` link is the
eight bytes `a .. a+7`, least significant first (`load64`, `store64`), so that a store
through a pointer that is not a block address overlaps its neighbours as it does on the
machine. Blocks are `sizeof(Block)` bytes apart (`sizeofBlock`), which is `BlockSize` only
for a block size that is a multiple of the pointer size, as in the one instantiation
`dpBlockAllocator<1024*256, sizeof(dpSymbol)>`. -/

namespace dpBlockAllocator

/-- The size `sizeof(Block)` of the block type
`struct Block { union { char data[block_size]; Block *next; }; }` on the 64-bit build: the
larger of `BlockSize` and the 8 bytes of the pointer, rounded up to the 8-byte alignment of
the pointer. -/
def sizeofBlock (BlockSize : Nat) : Nat := 8 * ((max BlockSize 8 + 7) / 8)

/-- The byte at offset `i` of address `a`. -/
def byteAt (mem : Nat → Nat) (a i : Nat) : Nat := mem (wadd a i) % 256

/-- Reading a pointer at address `a`: the eight bytes `a .. a+7`, least significant first. -/
def load64 (mem : Nat → Nat) (a : Nat) : Nat :=
  byteAt mem a 0 + 256 * (byteAt mem a 1 + 256 * (byteAt mem a 2 + 256 * (byteAt mem a 3
    + 256 * (byteAt mem a 4 + 256 * (byteAt mem a 5 + 256 * (byteAt mem a 6
    + 256 * byteAt mem a 7))))))

/-- Storing the pointer `v` at address `a`: the eight bytes `a .. a+7` receive the bytes
of `v`, least significant first; every other byte is kept. -/
def store64 (mem : Nat → Nat) (a v : Nat) : Nat → Nat :=
  fun x => if x < 2 ^ 64 ∧ wsub x a < 8 then v / 256 ^ (wsub x a) % 256 else mem x

/-- Class `dpBlockAllocator::Page`. -/
structure Page where
  m_data : Nat
  m_freelist : Nat
deriving DecidableEq, Repr

/-- What `dpBlockAllocator` reads and writes: `m_pages` and the bytes of memory. -/
structure State where
  m_pages : List Page
  mem : Nat → Nat

/-- The allocator after its constructor. -/
def State.init : State := ⟨[], fun _ => 0⟩

/-- The free-list threading of the `Page` constructor: with `n = page_size / block_size`,
`m_freelist[i].next = m_freelist+i+1` for `i < n-1`, then `m_freelist[n-1].next = nullptr`.
The pointer `m_freelist+i` is `sizeof(Block)*i` bytes above `m_data`. -/
def linkBlocks (PageSize BlockSize data : Nat) (mem : Nat → Nat) : Nat → Nat :=
  let n := PageSize / BlockSize
  let mem1 := (List.range (wsub n 1)).foldl
    (fun m i => store64 m (wadd data (wmul i (sizeofBlock BlockSize)))
      (wadd data (wmul (wadd i 1) (sizeofBlock BlockSize)))) mem
  store64 mem1 (wadd data (wmul (wsub n 1) (sizeofBlock BlockSize))) 0

/-- Constructor `Page()`; `malloc_ret` is what `malloc(page_size)` returns. -/
def Page.create (PageSize BlockSize malloc_ret : Nat) (mem : Nat → Nat) : Page × (Nat → Nat) :=
  (⟨malloc_ret, malloc_ret⟩, linkBlocks PageSize BlockSize malloc_ret mem)

/-- Method `Page::allocate()`: `ret = m_freelist; m_freelist = m_freelist->next;`. -/
def Page.allocate (p : Page) (mem : Nat → Nat) : Nat × Page :=
  if p.m_freelist ≠ 0 then (p.m_freelist, { p with m_freelist := load64 mem p.m_freelist })
  else (0, p)

/-- Method `Page::isInsideMemory(p)`. -/
def Page.isInsideMemory (PageSize : Nat) (p : Page) (loc : Nat) : Bool :=
  decide (loc ≥ p.m_data ∧ loc < wadd p.m_data PageSize)

/-- Method `Page::deallocate(v)`: `b->next = m_freelist; m_freelist = b;` for a `v` inside
the page, an eight-byte store at `v` whatever its offset in the page. -/
def Page.deallocate (PageSize : Nat) (p : Page) (mem : Nat → Nat) (v : Nat) :
    Bool × (Nat → Nat) × Page :=
  if v = 0 then (false, mem, p)
  else if p.isInsideMemory PageSize v then
    (true, store64 mem v p.m_freelist, { p with m_freelist := v })
  else (false, mem, p)

/-- The loop `for(i..) if(void *ret=m_pages[i]->allocate()) return ret;` over the pages
from some position on: the block and the pages afterwards, `none` when the loop falls through. -/
def allocateScan (mem : Nat → Nat) : List Page → Option (Nat × List Page)
  | [] => none
  | p :: ps =>
    if (p.allocate mem).1 ≠ 0 then some ((p.allocate mem).1, (p.allocate mem).2 :: ps)
    else (allocateScan mem ps).map (fun r => (r.1, (p.allocate mem).2 :: r.2))

/-- Method `dpBlockAllocator::allocate()`; `malloc_ret` is what `malloc` returns if a new
page has to be made. -/
def allocate (PageSize BlockSize malloc_ret : Nat) (st : State) : Nat × State :=
  match allocateScan st.mem st.m_pages with
  | some r => (r.1, { st with m_pages := r.2 })
  | none =>
    let pm := Page.create PageSize BlockSize malloc_ret st.mem
    ((pm.1.allocate pm.2).1, ⟨st.m_pages ++ [(pm.1.allocate pm.2).2], pm.2⟩)

/-- The call `(*p)->deallocate(v)` on the first page of the list that `isInsideMemory(v)`
holds for: the memory and pages afterwards, `none` when `dpFind` reaches `end()`. -/
def deallocateScan (PageSize : Nat) (mem : Nat → Nat) (v : Nat) :
    List Page → Option ((Nat → Nat) × List Page)
  | [] => none
  | p :: ps =>
    if p.isInsideMemory PageSize v then
      some ((p.deallocate PageSize mem v).2.1, (p.deallocate PageSize mem v).2.2 :: ps)
    else (deallocateScan PageSize mem v ps).map (fun r => (r.1, p :: r.2))

/-- Method `dpBlockAllocator::deallocate(v)`. -/
def deallocate (PageSize : Nat) (st : State) (v : Nat) : Bool × State :=
  match deallocateScan PageSize st.mem v st.m_pages with
  | some r => (true, ⟨r.2, r.1⟩)
  | none => (false, st)

/-- A call on the allocator. -/
inductive Op where
  | alloc (malloc_ret : Nat)
  | dealloc (v : Nat)
deriving DecidableEq, Repr

/-- The allocator together with the list of live blocks: the pointers returned by
`allocate` and not passed to `deallocate` since. -/
structure Tracked where
  st : State
  live : List Nat

/-- One call, with the bookkeeping of live blocks. -/
def stepOp (PageSize BlockSize : Nat) (t : Tracked) : Op → Tracked
  | .alloc m =>
    let r := allocate PageSize BlockSize m t.st
    ⟨r.2, r.1 :: t.live⟩
  | .dealloc v =>
    let r := deallocate PageSize t.st v
    ⟨r.2, t.live.filter (fun x => x != v)⟩

/-- A sequence of calls. -/
def runOps (PageSize BlockSize : Nat) (t : Tracked) (ops : List Op) : Tracked :=
  ops.foldl (stepOp PageSize BlockSize) t

/-- The block returned by an `allocate()` made after the calls `ops`. -/
def nextBlock (PageSize BlockSize : Nat) (ops : List Op) (malloc_ret : Nat) : Nat :=
  (allocate PageSize BlockSize malloc_ret (runOps PageSize BlockSize ⟨State.init, []⟩ ops).st).1

end dpBlockAllocator

/-! ## 4.5 Symbol / SymbolTable

A symbol name is a C string: the list of its bytes, without the terminating NUL. The table
holds pointers; `heap p` is the `dpSymbol` object at address `p`. -/

/-- The bytes of an ASCII string literal. -/
def cstr (s : String) : List Nat := s.toList.map Char.toNat

/-- The C library function `strcmp` on two C strings: negative, zero or positive as the
first is below, equal to or above the second in byte-wise lexicographic order. -/
def strcmp : List Nat → List Nat → Int
  | [], [] => 0
  | [], _ :: _ => -1
  | _ :: _, [] => 1
  | a :: as, b :: bs => if a < b then -1 else if b < a then 1 else strcmp as bs

/-- Struct `dpSymbol`: name, address, flags, section index and owning binary. -/
structure dpSymbol where
  name : List Nat
  address : Nat
  flags : Int
  sect : Int
  binary : Nat
deriving DecidableEq, Repr

/-- The objects that symbol pointers point to. -/
abbrev SymbolHeap := Nat → dpSymbol

/-- Modelled from the spec: `operator<(const dpSymbol&, const dpSymbol&)` is declared in
`dpInternal.h`, which is not part of the sources. The spec orders symbols by name. -/
def dpSymbol.lt (a b : dpSymbol) : Bool := decide (strcmp a.name b.name < 0)

/-- Modelled from the spec: `operator==(const dpSymbol&, const dpSymbol&)`, missing with
`dpInternal.h`; equality of names, as the spec's duplicate removal by name. -/
def dpSymbol.eq (a b : dpSymbol) : Bool := decide (strcmp a.name b.name = 0)

/-- Modelled from the spec: `operator<(const dpSymbol&, const char*)`, missing with
`dpInternal.h`; the name ordering used by the lookup. -/
def dpSymbol.ltName (a : dpSymbol) (name : List Nat) : Bool := decide (strcmp a.name name < 0)

/-- Modelled from the spec: `operator==(const dpSymbol&, const char*)`, missing with
`dpInternal.h`. -/
def dpSymbol.eqName (a : dpSymbol) (name : List Nat) : Bool := decide (strcmp a.name name = 0)

/-- Modelled from the spec: the functor `dpLTPtr<dpSymbol>` of `dpInternal.h` (not part of
the sources) compares the pointed-to symbols with `<`. -/
def dpLTPtr (heap : SymbolHeap) (a b : Nat) : Bool := (heap a).lt (heap b)

/-- Modelled from the spec: the functor `dpEQPtr<dpSymbol>` of `dpInternal.h` (not part of
the sources) compares the pointed-to symbols with `==`. -/
def dpEQPtr (heap : SymbolHeap) (a b : Nat) : Bool := (heap a).eq (heap b)

/-- Modelled from the spec: `std::sort(first, last, comp)` of the C++ standard library; the
spec says `sort()` "stable-sorts by name ascending". Insertion sort, each element going in
front of the first element that is not below it. The library itself does not promise a
stable sort: the general results on `sort()` below use only that the outcome is a
rearrangement of the input in ascending order, and what must hold for every `std::sort` is
stated for every sort that keeps that promise (`IsStdSort`). -/
def stdSort {α : Type} (comp : α → α → Bool) (l : List α) : List α :=
  l.insertionSort (fun a b => comp b a = false)

/-- The loop of `std::unique` after the first element: `last` is the element kept last. -/
def stdUniqueAux {α : Type} (pred : α → α → Bool) (last : α) : List α → List α
  | [] => []
  | b :: l => if pred last b then stdUniqueAux pred last l else b :: stdUniqueAux pred b l

/-- Modelled from the spec: `std::unique(first, last, pred)` followed by the `erase` of the
tail, of the C++ standard library: of every run of consecutive equivalent elements the
first is kept. -/
def stdUnique {α : Type} (pred : α → α → Bool) : List α → List α
  | [] => []
  | a :: l => a :: stdUniqueAux pred a l

/-- The loop of `std::lower_bound` on positions: `comp i` is `comp(*(begin+i), value)`,
the range is `[first, first+count)`; at most `fuel` halvings. -/
def lowerBoundLoop (comp : Nat → Bool) : Nat → Nat → Nat → Nat
  | 0, first, _ => first
  | fuel + 1, first, count =>
    if count = 0 then first
    else
      let half := count / 2
      let it := first + half
      if comp it then lowerBoundLoop comp fuel (it + 1) (count - (half + 1))
      else lowerBoundLoop comp fuel first half

/-- Modelled from the spec: `std::lower_bound(begin, end, value, comp)` of the C++ standard
library (the spec's "binary search over the sorted sequence"): the position it returns,
`l.length` for `end()`. The count halves at every step, so `l.length` halvings suffice. -/
def stdLowerBound {α : Type} (l : List α) (comp : α → Bool) : Nat :=
  lowerBoundLoop (fun i => match l.get? i with
    | some a => comp a
    | none => false) l.length 0 l.length

/-- Class `dpSymbolTable`: the vector `m_symbols` of symbol pointers and `m_partial_link`. -/
structure dpSymbolTable where
  m_symbols : List Nat
  m_partial_link : Bool
deriving DecidableEq, Repr

/-- A call `binary->partialLink(section)` made by `dpSymbol::partialLink`. -/
structure PartialLinkCall where
  binary : Nat
  sect : Int
deriving DecidableEq, Repr

namespace dpSymbolTable

/-- Constructor `dpSymbolTable()`. -/
def init : dpSymbolTable := ⟨[], false⟩

/-- Method `addSymbol(v)`. -/
def addSymbol (t : dpSymbolTable) (v : Nat) : dpSymbolTable :=
  { t with m_symbols := t.m_symbols ++ [v] }

/-- Method `sort()`. -/
def sort (heap : SymbolHeap) (t : dpSymbolTable) : dpSymbolTable :=
  { t with m_symbols := stdUnique (dpEQPtr heap) (stdSort (dpLTPtr heap) t.m_symbols) }

/-- Method `merge(v)`, for a table `v` that is another object than the receiver: every
entry of `v` is pushed back, then `sort()`. -/
def merge (heap : SymbolHeap) (t v : dpSymbolTable) : dpSymbolTable :=
  sort heap { t with m_symbols := v.m_symbols.foldl (fun acc sym => acc ++ [sym]) t.m_symbols }

/-- The two tables of a call `A.merge(B)` afterwards; `B` is taken by const reference. -/
def mergeInto (heap : SymbolHeap) (ab : dpSymbolTable × dpSymbolTable) :
    dpSymbolTable × dpSymbolTable :=
  (merge heap ab.1 ab.2, ab.2)

/-- Method `clear()`. -/
def clear (t : dpSymbolTable) : dpSymbolTable := { t with m_symbols := [] }

/-- Method `enablePartialLink(v)`. -/
def enablePartialLink (t : dpSymbolTable) (v : Bool) : dpSymbolTable :=
  { t with m_partial_link := v }

/-- Method `getNumSymbols()`. -/
def getNumSymbols (t : dpSymbolTable) : Nat := t.m_symbols.length

/-- Method `getSymbol(i)`, for `i` in range. -/
def getSymbol (t : dpSymbolTable) (i : Nat) : Option Nat := t.m_symbols.get? i

/-- The tail shared by both lookups: `if(m_partial_link) sym->partialLink(); return sym;`. -/
def found (heap : SymbolHeap) (t : dpSymbolTable) (sym : Nat) :
    Option Nat × List PartialLinkCall :=
  (some sym, if t.m_partial_link then [⟨(heap sym).binary, (heap sym).sect⟩] else [])

/-- Method `findSymbolByName(name)`: the symbol (`none` for `nullptr`) and the partial-link
calls made. -/
def findSymbolByName (heap : SymbolHeap) (t : dpSymbolTable) (name : List Nat) :
    Option Nat × List PartialLinkCall :=
  let p := stdLowerBound t.m_symbols (fun sym => (heap sym).ltName name)
  match t.m_symbols.get? p with
  | some sym => if (heap sym).eqName name then found heap t sym else (none, [])
  | none => (none, [])

/-- Method `findSymbolByAddress(addr)`. -/
def findSymbolByAddress (heap : SymbolHeap) (t : dpSymbolTable) (addr : Nat) :
    Option Nat × List PartialLinkCall :=
  match dpFind (fun sym => decide ((heap sym).address = addr)) t.m_symbols with
  | some i =>
    match t.m_symbols.get? i with
    | some sym => found heap t sym
    | none => (none, [])
  | none => (none, [])

/-- The table after `addSymbol` of every pointer of `syms`, in order, on a new table. -/
def ofAdded (syms : List Nat) : dpSymbolTable := syms.foldl addSymbol init

/-- The name of the symbol a pointer points to. -/
def nameOf (heap : SymbolHeap) (p : Nat) : List Nat := (heap p).name

/-- The names of the entries, in table order. -/
def names (heap : SymbolHeap) (t : dpSymbolTable) : List (List Nat) :=
  t.m_symbols.map (nameOf heap)

end dpSymbolTable

/-! ## BlockAllocator: free lists, well-formed use and the page invariant -/

namespace dpBlockAllocator

/-- The free list read from memory: `Chain mem head fl` says that following the `next`
links from `head` visits exactly the blocks `fl`, in order, and then reaches `nullptr`. -/
def Chain (mem : Nat → Nat) : Nat → List Nat → Prop
  | h, [] => h = 0
  | h, x :: xs => h = x ∧ x ≠ 0 ∧ Chain mem (load64 mem x) xs

/-- The `n = PageSize / BlockSize` slots `data + i*BlockSize` of a page, `BlockSize` bytes
each: the block addresses of the constructor when `sizeof(Block)` is `BlockSize`. -/
def slots (PageSize BlockSize data : Nat) : List Nat :=
  (List.range (PageSize / BlockSize)).map (fun i => data + i * BlockSize)

/-- The memory ranges of two pages do not overlap. -/
def pagesApart (PageSize : Nat) (p q : Page) : Prop :=
  p.m_data + PageSize ≤ q.m_data ∨ q.m_data + PageSize ≤ p.m_data

/-- What `malloc(page_size)` returns to a well-behaved program: a non-null region that
does not wrap around the address space and overlaps no page still allocated. -/
def FreshRegion (PageSize : Nat) (pages : List Page) (m : Nat) : Prop :=
  m ≠ 0 ∧ m + PageSize < 2 ^ 64 ∧
    ∀ p ∈ pages, p.m_data + PageSize ≤ m ∨ m + PageSize ≤ p.m_data

/-- A call is well-formed: a `deallocate` is given a live block or a pointer that lies in
no page, and when `allocate` has to make a new page `malloc` returns a fresh region. -/
def WellFormedOp (PageSize : Nat) (t : Tracked) : Op → Prop
  | .alloc m => allocateScan t.st.mem t.st.m_pages = none → FreshRegion PageSize t.st.m_pages m
  | .dealloc v => v ∈ t.live ∨ ∀ p ∈ t.st.m_pages, p.isInsideMemory PageSize v = false

/-- Every call of the sequence is well-formed in the state it is made in. -/
def WellFormed (PageSize BlockSize : Nat) : Tracked → List Op → Prop
  | _, [] => True
  | t, op :: ops =>
    WellFormedOp PageSize t op ∧ WellFormed PageSize BlockSize (stepOp PageSize BlockSize t op) ops

/-- The live blocks that lie in the memory of page `p`. -/
def liveIn (PageSize : Nat) (live : List Nat) (p : Page) : List Nat :=
  live.filter (fun x => p.isInsideMemory PageSize x)

/-- The partition invariant of one page: its free list together with its live blocks is a
rearrangement of its slots. -/
structure PageOK (PageSize BlockSize : Nat) (mem : Nat → Nat) (live : List Nat)
    (p : Page) : Prop where
  nonnull : p.m_data ≠ 0
  nowrap : p.m_data + PageSize < 2 ^ 64
  part : ∃ fl, Chain mem p.m_freelist fl ∧
    (fl ++ liveIn PageSize live p).Perm (slots PageSize BlockSize p.m_data)

/-- The invariant of the allocator: every page is partitioned, pages do not overlap, and
every live block lies in some page. -/
structure Inv (PageSize BlockSize : Nat) (t : Tracked) : Prop where
  pages : ∀ p ∈ t.st.m_pages, PageOK PageSize BlockSize t.st.mem t.live p
  apart : t.st.m_pages.Pairwise (pagesApart PageSize)
  owned : ∀ x ∈ t.live, ∃ p ∈ t.st.m_pages, p.isInsideMemory PageSize x = true

instance (PageSize : Nat) (pages : List Page) (m : Nat) :
    Decidable (FreshRegion PageSize pages m) := by
  unfold FreshRegion; infer_instance

instance (PageSize : Nat) (t : Tracked) : (op : Op) → Decidable (WellFormedOp PageSize t op)
  | .alloc m =>
    inferInstanceAs (Decidable (allocateScan t.st.mem t.st.m_pages = none →
      FreshRegion PageSize t.st.m_pages m))
  | .dealloc v =>
    inferInstanceAs (Decidable (v ∈ t.live ∨
      ∀ p ∈ t.st.m_pages, p.isInsideMemory PageSize v = false))

/-- Well-formedness of a sequence of calls can be checked by running it. -/
def decWellFormed (PageSize BlockSize : Nat) :
    (ops : List Op) → (t : Tracked) → Decidable (WellFormed PageSize BlockSize t ops)
  | [], _ => isTrue trivial
  | op :: ops, t =>
    @instDecidableAnd _ _ _ (decWellFormed PageSize BlockSize ops (stepOp PageSize BlockSize t op))

instance (PageSize BlockSize : Nat) (t : Tracked) (ops : List Op) :
    Decidable (WellFormed PageSize BlockSize t ops) := decWellFormed PageSize BlockSize ops t

/-- A double free followed by two allocations, on a new allocator whose first page `malloc`
places at `0x10000`. -/
def doubleFree : List Op :=
  [.alloc 0x10000, .dealloc 0x10000, .dealloc 0x10000, .alloc 0x20000, .alloc 0x20000]

/-- A well-formed sequence: two allocations, the first block freed, a `deallocate` of a
pointer that belongs to no page, two more allocations. -/
def reuseOps : List Op :=
  [.alloc 0x10000, .alloc 0x20000, .dealloc 0x10000, .dealloc 0x500, .alloc 0x20000,
    .alloc 0x20000]

end dpBlockAllocator

/-! ## Concrete inputs used by the examples -/

/-- An OS that reserves exactly where asked, at every address except `taken`. -/
def osExcept (taken : Nat) : VirtualAllocFn := exactOS (fun a => a != taken)

/-- An OS whose only free addresses are those up to `top`. -/
def osBelow (top : Nat) : VirtualAllocFn := exactOS (fun a => decide (a ≤ top))

/-- A trampoline allocator holding one page at `0x70000000` all of whose blocks are in use,
in a program whose `dpAllocateBackward` static was set by the reservation of that page. -/
def dpTrampolineAllocator.exhausted : dpTrampolineAllocator.State :=
  ⟨[⟨0x70000000, 0⟩], fun _ => 0, some 0x70000000⟩

/-- A trampoline allocator holding one page at `0x70000000` whose free list starts at its
second block. -/
def dpTrampolineAllocator.onePage : dpTrampolineAllocator.State :=
  ⟨[⟨0x70000000, 0x70000020⟩], fun a => if a = 0x70000020 then 0x70000040 else 0,
    some 0x70000000⟩

/-- Four symbol objects: `foo`@0x1000 at `0x100`, `bar`@0x2000 at `0x120`, a second object
`foo`@0x1000 at `0x140`, and a symbol `foo`@0x3000 of another module at `0x160`. -/
def exampleHeap : SymbolHeap := fun p =>
  if p = 0x100 then ⟨cstr "foo", 0x1000, 0, 0, 0⟩
  else if p = 0x120 then ⟨cstr "bar", 0x2000, 0, 0, 0⟩
  else if p = 0x140 then ⟨cstr "foo", 0x1000, 0, 0, 0⟩
  else if p = 0x160 then ⟨cstr "foo", 0x3000, 0, 1, 1⟩
  else ⟨[], 0, 0, 0, 0⟩

/-! ## Further definitions for the capacity, rejection and partition results -/

namespace dpBlockAllocator

/-- A run of consecutive `allocate()` calls; `ms` lists what `malloc` returns at each call
should that call have to make a page. -/
def allocs (ms : List Nat) : List Op := ms.map Op.alloc

/-- What `malloc(page_size)` returns when it succeeds: a non-null region that does not wrap
around the address space. -/
def GoodMalloc (PageSize m : Nat) : Prop := m ≠ 0 ∧ m + PageSize < 2 ^ 64

instance (PageSize m : Nat) : Decidable (GoodMalloc PageSize m) := by
  unfold GoodMalloc; infer_instance

/-- The free-list head of a page at `m` of which the first `i` blocks have been handed out,
for blocks of `BlockSize` bytes. -/
def nextPtr (PageSize BlockSize m i : Nat) : Nat :=
  if i < PageSize / BlockSize then m + i * BlockSize else 0

/-- The address `x` lies in the range `[base, base + PageSize)` of page `p`. -/
def inRange (PageSize : Nat) (p : Page) (x : Nat) : Prop :=
  p.m_data ≤ x ∧ x < p.m_data + PageSize

instance (PageSize : Nat) (p : Page) (x : Nat) : Decidable (inRange PageSize p x) := by
  unfold inRange; infer_instance

/-- The pages of an allocator are regions as `malloc` hands them out: non-null, not
wrapping around the address space, and not overlapping one another; and their free-list
heads are pointer values. -/
def PagesValid (PageSize : Nat) (pages : List Page) : Prop :=
  (∀ p ∈ pages, p.m_data ≠ 0 ∧ p.m_data + PageSize < 2 ^ 64 ∧ p.m_freelist < 2 ^ 64) ∧
    pages.Pairwise (pagesApart PageSize)

instance (PageSize : Nat) (p q : Page) : Decidable (pagesApart PageSize p q) := by
  unfold pagesApart; infer_instance

instance (PageSize : Nat) (pages : List Page) : Decidable (PagesValid PageSize pages) := by
  unfold PagesValid; infer_instance

/-- The malloc results of 65 calls on `dpBlockAllocator<4096, 64>`. -/
def mallocs65 : List Nat := (List.range 65).map (fun i => 0x10000 + i * 0x1000)

/-- An allocator with two pages of 4096 bytes: the first is exhausted, the free list of
the second is the block `0x20040` followed by the block `0x20080`. -/
def twoPages : State :=
  ⟨[⟨0x10000, 0⟩, ⟨0x20000, 0x20040⟩], store64 (fun _ => 0) 0x20040 0x20080⟩

/-- Whether a list is the free list that starts at a head can be checked by reading the
links. -/
def decChain (mem : Nat → Nat) : (fl : List Nat) → (h : Nat) → Decidable (Chain mem h fl)
  | [], h => inferInstanceAs (Decidable (h = 0))
  | x :: xs, _ =>
    @instDecidableAnd _ _ _ (@instDecidableAnd _ _ _ (decChain mem xs (load64 mem x)))

instance (mem : Nat → Nat) (h : Nat) (fl : List Nat) : Decidable (Chain mem h fl) :=
  decChain mem fl h

/-- In a sequence of calls, whatever they are, `malloc` returns a fresh region each time
`allocate` has to make a page. -/
def FreshMallocs (PageSize BlockSize : Nat) : Tracked → List Op → Prop
  | _, [] => True
  | t, op :: ops =>
    (∀ m, op = .alloc m → allocateScan t.st.mem t.st.m_pages = none →
      FreshRegion PageSize t.st.m_pages m) ∧
    FreshMallocs PageSize BlockSize (stepOp PageSize BlockSize t op) ops

/-- Whether `malloc` returned a fresh region at every page made can be checked by running
the calls. -/
def decFreshMallocs (PageSize BlockSize : Nat) :
    (ops : List Op) → (t : Tracked) → Decidable (FreshMallocs PageSize BlockSize t ops)
  | [], _ => isTrue trivial
  | op :: ops, t =>
    have hd : Decidable (∀ m, op = .alloc m → allocateScan t.st.mem t.st.m_pages = none →
        FreshRegion PageSize t.st.m_pages m) :=
      match op with
      | .alloc m0 =>
        if h : allocateScan t.st.mem t.st.m_pages = none →
            FreshRegion PageSize t.st.m_pages m0 then
          isTrue (fun m hm => by cases hm; exact h)
        else isFalse (fun hall => h (hall m0 rfl))
      | .dealloc _ => isTrue (fun m hm => by cases hm)
    @instDecidableAnd _ _ hd
      (decFreshMallocs PageSize BlockSize ops (stepOp PageSize BlockSize t op))

instance (PageSize BlockSize : Nat) (t : Tracked) (ops : List Op) :
    Decidable (FreshMallocs PageSize BlockSize t ops) :=
  decFreshMallocs PageSize BlockSize ops t

/-- Four consecutive `allocate()` calls; `malloc` places the page of the first at `0x10000`. -/
def fourAllocs : List Op := allocs [0x10000, 0x20000, 0x20000, 0x20000]

/-- A single `allocate()` call; `malloc` places the page at `0x10000`. -/
def oneAlloc : List Op := [.alloc 0x10000]

/-- Calls on `dpBlockAllocator<16, 8>` that leave two pages next to each other in memory:
the two blocks of the first page, at `0x10000`, are handed out; the third `allocate()`
makes a page, which `malloc` places at `0x10010`, and its block is given back. -/
def adjacentOps : List Op :=
  [.alloc 0x10000, .alloc 0x10010, .alloc 0x10010, .dealloc 0x10010]

/-- The allocator `dpBlockAllocator<16, 8>` after the calls `adjacentOps`. -/
def adjacentState : State := (runOps 16 8 ⟨State.init, []⟩ adjacentOps).st

end dpBlockAllocator

namespace dpSectionAllocator

/-- The bounds test `aligned+size <= base+m_size` of `allocate`, with its `size_t` sums. -/
def fits (a : dpSectionAllocator) (size align : Nat) : Prop :=
  wadd (a.alignedPos align) size ≤ wadd a.m_data a.m_size

instance (a : dpSectionAllocator) (size align : Nat) : Decidable (fits a size align) := by
  unfold fits; infer_instance

/-- The least multiple of `align` that is at or above `x`, for `align > 0`. -/
def roundUp (x align : Nat) : Nat := align * ((x + (align - 1)) / align)

/-- Every request of the sequence passes the bounds test in the state it is made in. -/
def allFit (a : dpSectionAllocator) : List Request → Prop
  | [] => True
  | r :: rs => fits a r.size r.align ∧ allFit (a.allocate r.size r.align).2 rs

/-- Whether every request of a sequence passes the bounds test can be checked by running it. -/
def decAllFit : (rs : List Request) → (a : dpSectionAllocator) → Decidable (allFit a rs)
  | [], _ => isTrue trivial
  | r :: rs, a => @instDecidableAnd _ _ _ (decAllFit rs (a.allocate r.size r.align).2)

instance (a : dpSectionAllocator) (rs : List Request) : Decidable (allFit a rs) :=
  decAllFit rs a

/-- The value of `getUsed()` after each call of a sequence. -/
def cursors (a : dpSectionAllocator) : List Request → List Nat
  | [] => []
  | r :: rs =>
    (a.allocate r.size r.align).2.getUsed :: cursors (a.allocate r.size r.align).2 rs

/-- The offset each call of a sequence places its range at: the cursor after the call less
the size asked for. -/
def offsets (a : dpSectionAllocator) : List Request → List Nat
  | [] => []
  | r :: rs =>
    ((a.allocate r.size r.align).2.getUsed - r.size)
      :: offsets (a.allocate r.size r.align).2 rs

/-- Three requests that fit a window of `0x20` bytes. -/
def fittingRequests : List Request := [⟨5, 16⟩, ⟨3, 1⟩, ⟨8, 8⟩]

end dpSectionAllocator

namespace dpSymbolTable

/-- Modelled from the spec: what the C++ standard library promises of
`std::sort(first, last, comp)`: the outcome is a rearrangement of the input in which no
element is below an earlier one. The order among equivalent elements is left open. -/
def IsStdSort {α : Type} (comp : α → α → Bool) (srt : List α → List α) : Prop :=
  ∀ l, (srt l).Perm l ∧ (srt l).Pairwise (fun a b => comp b a = false)

/-- Method `sort()` with the library sort as a parameter. -/
def sortWith (srt : List Nat → List Nat) (heap : SymbolHeap) (t : dpSymbolTable) :
    dpSymbolTable :=
  { t with m_symbols := stdUnique (dpEQPtr heap) (srt t.m_symbols) }

/-- Method `merge(v)` with the library sort as a parameter, for a table `v` that is another
object than the receiver. -/
def mergeWith (srt : List Nat → List Nat) (heap : SymbolHeap) (t v : dpSymbolTable) :
    dpSymbolTable :=
  sortWith srt heap
    { t with m_symbols := v.m_symbols.foldl (fun acc sym => acc ++ [sym]) t.m_symbols }

/-- Modelled from the spec: one of the functions `std::sort` of the C++ standard library may
be, since it need not be stable: ranges of up to two elements are sorted by insertion,
longer ranges by insertion from the far end, which reverses the order of equivalent
elements. -/
def lengthSort (comp : Nat → Nat → Bool) (l : List Nat) : List Nat :=
  if l.length ≤ 2 then stdSort comp l else stdSort comp l.reverse

/-- Modelled from the spec: a `std::vector` of the C++ standard library as far as
`push_back` shows its storage: the buffer the elements are in, its capacity, and the
elements. -/
structure StdVector where
  buf : Nat
  cap : Nat
  elems : List Nat
deriving DecidableEq, Repr

/-- Modelled from the spec: `std::vector::push_back`. With room left the element is added in
place; otherwise the elements move to a new buffer, of the capacity the library's growth
policy `grow` chooses, and every iterator into the old buffer becomes invalid. -/
def StdVector.push_back (grow : Nat → Nat) (v : StdVector) (x : Nat) : StdVector :=
  if v.elems.length < v.cap then { v with elems := v.elems ++ [x] }
  else ⟨v.buf + 1, grow v.cap, v.elems ++ [x]⟩

/-- Modelled from the spec: the loop of `dpEach(v.m_symbols, f)` in `merge` when `v` is the
receiver itself, `dpEach` (of `dpInternal.h`) being `std::for_each(begin, end, f)` and `f`
the `push_back` into `m_symbols`. The iterators are taken once, into the buffer `buf0`; the
positions still to visit are read through them. Reading through an iterator into a buffer
the vector has given up is undefined behaviour: `none`. -/
def mergeSelfLoop (grow : Nat → Nat) (buf0 : Nat) : List Nat → StdVector → Option StdVector
  | [], v => some v
  | i :: is, v =>
    if v.buf = buf0 then
      match v.elems.get? i with
      | some x => mergeSelfLoop grow buf0 is (v.push_back grow x)
      | none => none
    else none

/-- The call `T.merge(T)` on one object whose vector `m_symbols` has capacity `cap`: the
loop over its own entries, then `sort()`; `none` when the loop has undefined behaviour. -/
def mergeSelf (srt : List Nat → List Nat) (heap : SymbolHeap) (grow : Nat → Nat) (cap : Nat)
    (t : dpSymbolTable) : Option dpSymbolTable :=
  (mergeSelfLoop grow 0 (List.range t.m_symbols.length) ⟨0, cap, t.m_symbols⟩).map
    (fun v => sortWith srt heap { t with m_symbols := v.elems })

/-- A call `findSymbolByName(name)` as a step on the table: what it returns, the
partial-link calls it makes, and the table afterwards; the method assigns to no member. -/
def lookupByName (heap : SymbolHeap) (t : dpSymbolTable) (name : List Nat) :
    (Option Nat × List PartialLinkCall) × dpSymbolTable :=
  (findSymbolByName heap t name, t)

/-- A call `findSymbolByAddress(addr)` as a step on the table. -/
def lookupByAddress (heap : SymbolHeap) (t : dpSymbolTable) (addr : Nat) :
    (Option Nat × List PartialLinkCall) × dpSymbolTable :=
  (findSymbolByAddress heap t addr, t)

end dpSymbolTable

/-! ## Theorems: NearAddressReservation and TrampolineAllocator -/

theorem wadd_small (a b : Nat) (h : a + b < 2 ^ 64) : wadd a b = a + b := by
  unfold wadd; exact Nat.mod_eq_of_lt h

theorem wmul_small (a b : Nat) (h : a * b < 2 ^ 64) : wmul a b = a * b := by
  unfold wmul; exact Nat.mod_eq_of_lt h

theorem wsub_small (a b : Nat) (hab : b ≤ a) (ha : a < 2 ^ 64) : wsub a b = a - b := by
  unfold wsub
  rw [Nat.mod_eq_of_lt (show b < 2 ^ 64 by omega)]
  have : a + (2 ^ 64 - b) = (a - b) + 2 ^ 64 := by omega
  rw [this, Nat.add_mod_right, Nat.mod_eq_of_lt (by omega)]

/-- The backward loop returns the first non-null answer of the OS: if the probes with
counters `i .. i+k-1` fail and the one with counter `i+k` does not, any fuel above `k` gives
the pointer of that probe. -/
theorem backwardLoop_first (os : VirtualAllocFn) (base size : Nat) :
    ∀ (k fuel i : Nat), k < fuel → i + k < 2 ^ 64 →
    (∀ j, j < k → os (wsub base (wmul step (i + j))) size = 0) →
    os (wsub base (wmul step (i + k))) size ≠ 0 →
    backwardLoop os base size fuel i = some (os (wsub base (wmul step (i + k))) size) := by
  intro k
  induction k with
  | zero =>
    intro fuel i hf _ _ hacc
    obtain ⟨f, rfl⟩ : ∃ f, fuel = f + 1 := ⟨fuel - 1, by omega⟩
    simp only [Nat.add_zero] at hacc ⊢
    simp [backwardLoop, hacc]
  | succ k ih =>
    intro fuel i hf hi hrej hacc
    obtain ⟨f, rfl⟩ : ∃ f, fuel = f + 1 := ⟨fuel - 1, by omega⟩
    have h0 : os (wsub base (wmul step i)) size = 0 := by simpa using hrej 0 (by omega)
    have hi1 : wadd i 1 = i + 1 := wadd_small i 1 (by omega)
    have e : i + (k + 1) = i + 1 + k := by omega
    simp only [backwardLoop, h0, ne_eq, not_true_eq_false, if_false, hi1]
    rw [e] at hacc ⊢
    apply ih f (i + 1) (by omega) (by omega) _ hacc
    intro j hj
    have := hrej (j + 1) (by omega)
    rwa [show i + (j + 1) = i + 1 + j by omega] at this

/-- The forward loop returns the first non-null answer of the OS. -/
theorem forwardLoop_first (os : VirtualAllocFn) (base size : Nat) :
    ∀ (k fuel i : Nat), k < fuel → i + k < 2 ^ 64 →
    (∀ j, j < k → os (wadd base (wmul step (i + j))) size = 0) →
    os (wadd base (wmul step (i + k))) size ≠ 0 →
    forwardLoop os base size fuel i = some (os (wadd base (wmul step (i + k))) size) := by
  intro k
  induction k with
  | zero =>
    intro fuel i hf _ _ hacc
    obtain ⟨f, rfl⟩ : ∃ f, fuel = f + 1 := ⟨fuel - 1, by omega⟩
    simp only [Nat.add_zero] at hacc ⊢
    simp [forwardLoop, hacc]
  | succ k ih =>
    intro fuel i hf hi hrej hacc
    obtain ⟨f, rfl⟩ : ∃ f, fuel = f + 1 := ⟨fuel - 1, by omega⟩
    have h0 : os (wadd base (wmul step i)) size = 0 := by simpa using hrej 0 (by omega)
    have hi1 : wadd i 1 = i + 1 := wadd_small i 1 (by omega)
    have e : i + (k + 1) = i + 1 + k := by omega
    simp only [forwardLoop, h0, ne_eq, not_true_eq_false, if_false, hi1]
    rw [e] at hacc ⊢
    apply ih f (i + 1) (by omega) (by omega) _ hacc
    intro j hj
    have := hrej (j + 1) (by omega)
    rwa [show i + (j + 1) = i + 1 + j by omega] at this

theorem dpFind_eq_none {α : Type} (f : α → Bool) (l : List α)
    (h : ∀ a ∈ l, f a = false) : dpFind f l = none := by
  induction l with
  | nil => rfl
  | cons a l ih =>
    have ha : f a = false := h a (List.mem_cons_self _ _)
    simp [dpFind, ha, ih (fun b hb => h b (List.mem_cons_of_mem _ hb))]

namespace dpTrampolineAllocator

/-- What `allocate` does once the search has found no usable block and the reservation made
by the new page's constructor returns `data`: the page is appended and its first block,
which is `data`, is returned. -/
theorem allocate_of_reservation (page_size block_size : Nat) (os : VirtualAllocFn)
    (fuel : Nat) (st : State) (A data : Nat) (sb : Option Nat)
    (hnone : findCandidatePage st A = none)
    (hres : dpAllocateBackward os fuel st.static_base page_size A = some (data, sb))
    (hdata : data ≠ 0) :
    allocate page_size block_size os fuel st A =
      some (data, ⟨st.m_pages ++ [⟨data, linkBlocks page_size block_size data st.mem data⟩],
        linkBlocks page_size block_size data st.mem, sb⟩) := by
  unfold allocate
  simp only [hnone, ne_eq, not_true_eq_false, if_false, createPage, Page.create, hres]
  simp [allocateAt, Page.allocate, hdata]

end dpTrampolineAllocator

/-- The value `dpAllocateBackward` returns: with `base` the static (or `location` when the
static is still unset), the pointer of the first probe `base - step*k` that the OS answers
with a non-null pointer; the static is `base` afterwards. -/
theorem dpAllocateBackward_first (os : VirtualAllocFn) (fuel : Nat) (sb : Option Nat)
    (size location k : Nat) (hsize : size ≠ 0) (hfuel : k < fuel) (hk : k < 2 ^ 64)
    (hrej : ∀ j, j < k → os (wsub (sb.getD location) (wmul step j)) size = 0)
    (hacc : os (wsub (sb.getD location) (wmul step k)) size ≠ 0) :
    dpAllocateBackward os fuel sb size location =
      some (os (wsub (sb.getD location) (wmul step k)) size, some (sb.getD location)) := by
  have h := backwardLoop_first os (sb.getD location) size k fuel 0 hfuel (by omega)
    (by intro j hj; simpa using hrej j hj) (by simpa using hacc)
  simp only [Nat.zero_add] at h
  simp [dpAllocateBackward, hsize, h]

/-- The value `dpAllocateForward` returns, as for `dpAllocateBackward`. -/
theorem dpAllocateForward_first (os : VirtualAllocFn) (fuel : Nat) (sb : Option Nat)
    (size location k : Nat) (hsize : size ≠ 0) (hfuel : k < fuel) (hk : k < 2 ^ 64)
    (hrej : ∀ j, j < k → os (wadd (sb.getD location) (wmul step j)) size = 0)
    (hacc : os (wadd (sb.getD location) (wmul step k)) size ≠ 0) :
    dpAllocateForward os fuel sb size location =
      some (os (wadd (sb.getD location) (wmul step k)) size, some (sb.getD location)) := by
  have h := forwardLoop_first os (sb.getD location) size k fuel 0 hfuel (by omega)
    (by intro j hj; simpa using hrej j hj) (by simpa using hacc)
  simp only [Nat.zero_add] at h
  simp [dpAllocateForward, hsize, h]

theorem probe_back_eq (A k : Nat) (hA : A < 2 ^ 64) (hk : step * k ≤ A) :
    wsub A (wmul step k) = A - step * k := by
  rw [wmul_small step k (by omega), wsub_small A (step * k) hk hA]

namespace dpTrampolineAllocator

/-- Claim C1 (amended). New-page case of `allocate(A)`, for a first reservation or one whose
hint is the one `dpAllocateBackward` kept: when no existing page is in jump range of `A`,
the OS refuses the probes `A - i*0x10000` for `i < k` and reserves exactly at
`B = A - k*0x10000`, with `k*0x10000 < 0x7FFF0000` (and enough fuel for `k+1` probes), then
`allocate(A)` returns `B`, appends exactly one page to `m_pages`, that page has base `B`,
contains the returned block, and is in jump range of `A`. -/
theorem allocate_new_page_in_range (page_size block_size : Nat) (os : VirtualAllocFn)
    (fuel : Nat) (st : State) (A k : Nat) (hps : 0 < page_size)
    (hnone : ∀ p ∈ st.m_pages, p.isInsideJumpRange A = false)
    (hstatic : st.static_base = none ∨ st.static_base = some A)
    (hA : A < 2 ^ 64) (hk : step * k < A) (hnear : step * k < jump_range)
    (hfit : A - step * k + page_size < 2 ^ 64)
    (hrej : ∀ j, j < k → os (A - step * j) page_size = 0)
    (hacc : os (A - step * k) page_size = A - step * k)
    (hfuel : k < fuel) :
    ∃ st' p, allocate page_size block_size os fuel st A = some (A - step * k, st') ∧
      st'.m_pages = st.m_pages ++ [p] ∧ p.m_data = A - step * k ∧
      p.isInsideMemory page_size (A - step * k) = true ∧
      p.isInsideJumpRange A = true := by
  have hps' : page_size ≠ 0 := by omega
  have hbase : st.static_base.getD A = A := by
    rcases hstatic with h | h <;> simp [h]
  have hstep : step = 0x10000 := rfl
  have hrej' : ∀ j, j < k →
      os (wsub (st.static_base.getD A) (wmul step j)) page_size = 0 := by
    intro j hj
    rw [hbase, probe_back_eq A j hA (by rw [hstep] at hk ⊢; omega)]
    exact hrej j hj
  have hprobe : wsub (st.static_base.getD A) (wmul step k) = A - step * k := by
    rw [hbase, probe_back_eq A k hA (by omega)]
  have hres := dpAllocateBackward_first os fuel st.static_base page_size A k hps' hfuel
    (by rw [hstep] at hk; omega) hrej' (by rw [hprobe, hacc]; omega)
  rw [hprobe, hacc] at hres
  have hall := allocate_of_reservation page_size block_size os fuel st A (A - step * k) _
    (dpFind_eq_none _ _ hnone) hres (by omega)
  refine ⟨_, _, hall, rfl, rfl, ?_, ?_⟩
  · simp only [Page.isInsideMemory, wadd_small _ _ hfit]
    simp only [decide_eq_true_eq]
    omega
  · unfold jump_range at hnear
    simp only [Page.isInsideJumpRange, decide_eq_true_eq]
    rcases Nat.lt_or_ge (A - step * k) A with h | h
    · rw [if_pos h, wsub_small A (A - step * k) (by omega) hA]
      omega
    · rw [if_neg (by omega), wsub_small (A - step * k) A h (by omega)]
      omega

/-- Instance of C1 (amended): on the new allocator, with the OS refusing `0x70000000`
itself, `allocate(0x70000000)` makes its page at `0x6FFF0000`. -/
theorem allocate_new_page_in_range_witness :
    ∃ st' p, allocate 0x10000 32 (osExcept 0x70000000) 2 State.init 0x70000000
        = some (0x70000000 - step * 1, st') ∧
      st'.m_pages = State.init.m_pages ++ [p] ∧ p.m_data = 0x70000000 - step * 1 ∧
      p.isInsideMemory 0x10000 (0x70000000 - step * 1) = true ∧
      p.isInsideJumpRange 0x70000000 = true :=
  allocate_new_page_in_range 0x10000 32 (osExcept 0x70000000) 2 State.init 0x70000000 1
    (by decide) (by decide) (Or.inl rfl) (by decide) (by decide) (by decide)
    (by decide) (by decide) (by decide) (by decide)

end dpTrampolineAllocator

namespace dpTrampolineAllocator

/-- Claim C1 (counterexample). On the new allocator (no page, static unset) no page is in jump
range of `A = 0x80000000`; when the only free addresses are those up to `0x10000`, the
backward probing first succeeds at its 0x7FFF-th step, `allocate(A)` makes its page at
`B = 0x10000`, and `|A - B| = 0x7FFF0000` is not below the threshold: the new page is not
in jump range of `A`. -/
theorem allocate_new_page_out_of_range :
    (∀ p ∈ State.init.m_pages, p.isInsideJumpRange 0x80000000 = false) ∧
    ∃ st' p, allocate 0x10000 32 (osBelow 0x10000) 0x8000 State.init 0x80000000
        = some (0x10000, st') ∧
      st'.m_pages = State.init.m_pages ++ [p] ∧ p.m_data = 0x10000 ∧
      p.isInsideJumpRange 0x80000000 = false := by
  refine ⟨by decide, ?_⟩
  have hrej : ∀ j, j < 0x7FFF →
      osBelow 0x10000 (wsub ((none : Option Nat).getD 0x80000000) (wmul step j)) 0x10000 = 0 := by
    intro j hj
    have hp := probe_back_eq 0x80000000 j (by norm_num) (by unfold step; omega)
    simp only [Option.getD_none]
    rw [hp]
    unfold osBelow exactOS step
    rw [if_neg]
    simp only [decide_eq_true_eq]
    omega
  have hacc : osBelow 0x10000 (wsub ((none : Option Nat).getD 0x80000000) (wmul step 0x7FFF))
      0x10000 = 0x10000 := by decide
  have hres := dpAllocateBackward_first (osBelow 0x10000) 0x8000 none 0x10000 0x80000000 0x7FFF
    (by decide) (by decide) (by decide) hrej (by rw [hacc]; decide)
  rw [hacc] at hres
  have hall := allocate_of_reservation 0x10000 32 (osBelow 0x10000) 0x8000 State.init
    0x80000000 0x10000 _ rfl hres (by decide)
  exact ⟨_, _, hall, rfl, rfl, by decide⟩

end dpTrampolineAllocator

/-- Claim C10 (the code at the failing input). A first call `dpAllocateBackward(0x1000,
0x20000000)` sets the static `base`; a later call with the hint `0x70000000`, which the OS
would have accepted, probes from `0x20000000` instead and returns `0x1FFF0000`. The same
happens forward: after a first call with hint `0x20000000`, a call with hint `0x10000000`
returns `0x20010000`. -/
theorem dpAllocate_keeps_first_hint :
    dpAllocateBackward (exactOS fun _ => true) 4 none 0x1000 0x20000000
      = some (0x20000000, some 0x20000000) ∧
    osExcept 0x20000000 0x70000000 0x1000 = 0x70000000 ∧
    dpAllocateBackward (osExcept 0x20000000) 4 (some 0x20000000) 0x1000 0x70000000
      = some (0x1FFF0000, some 0x20000000) ∧
    dpAllocateForward (exactOS fun _ => true) 4 none 0x1000 0x20000000
      = some (0x20000000, some 0x20000000) ∧
    osExcept 0x20000000 0x10000000 0x1000 = 0x10000000 ∧
    dpAllocateForward (osExcept 0x20000000) 4 (some 0x20000000) 0x1000 0x10000000
      = some (0x20010000, some 0x20000000) := by
  decide

theorem dpFind_some {α : Type} (f : α → Bool) : ∀ (l : List α) (i : Nat),
    dpFind f l = some i → ∃ a, l.get? i = some a ∧ f a = true := by
  intro l
  induction l with
  | nil => intro i h; simp [dpFind] at h
  | cons b l ih =>
    intro i h
    by_cases hb : f b = true
    · simp only [dpFind, hb, if_true, Option.some.injEq] at h
      subst h
      exact ⟨b, rfl, hb⟩
    · simp only [dpFind, hb, Bool.false_eq_true, if_false, Option.map_eq_some'] at h
      obtain ⟨j, hj, rfl⟩ := h
      obtain ⟨a, ha, hfa⟩ := ih j hj
      exact ⟨a, by simpa using ha, hfa⟩

/-- Replacing an element by one on which the predicate has the same value does not change
what `dpFind` returns. -/
theorem dpFind_set {α : Type} (f : α → Bool) : ∀ (l : List α) (i : Nat) (a b : α),
    l.get? i = some a → f b = f a → dpFind f (l.set i b) = dpFind f l := by
  intro l
  induction l with
  | nil => intro i a b h _; simp at h
  | cons c l ih =>
    intro i a b h hf
    cases i with
    | zero =>
      simp only [List.get?_cons_zero, Option.some.injEq] at h
      subst h
      simp [dpFind, hf]
    | succ j =>
      simp only [List.get?_cons_succ] at h
      simp [dpFind, ih j a b h hf]

theorem set_get?_self {α : Type} : ∀ (l : List α) (i : Nat) (a : α),
    l.get? i = some a → l.set i a = l := by
  intro l
  induction l with
  | nil => intro i a h; simp at h
  | cons c l ih =>
    intro i a h
    cases i with
    | zero =>
      simp only [List.get?_cons_zero, Option.some.injEq] at h
      subst h
      rfl
    | succ j =>
      simp only [List.get?_cons_succ] at h
      simp [ih j a h]

namespace dpTrampolineAllocator

/-- When `findCandidatePage` selects a page with a free block, `allocate` hands out the head
of that page's free list and touches nothing else. -/
theorem allocate_of_candidate (page_size block_size : Nat) (os : VirtualAllocFn) (fuel : Nat)
    (st : State) (A i : Nat) (p : Page)
    (hfind : findCandidatePage st A = some i) (hp : st.m_pages.get? i = some p)
    (hfree : p.m_freelist ≠ 0) :
    allocate page_size block_size os fuel st A = some (p.m_freelist,
      { st with m_pages := st.m_pages.set i ⟨p.m_data, st.mem p.m_freelist⟩ }) := by
  have hat : allocateAt st i = (p.m_freelist,
      { st with m_pages := st.m_pages.set i ⟨p.m_data, st.mem p.m_freelist⟩ }) := by
    unfold allocateAt
    rw [hp]
    simp [Page.allocate, hfree]
  unfold allocate
  rw [hfind]
  simp only [hat]
  simp [hfree]

/-- Claim C12. LIFO reuse in the TrampolineAllocator: if `deallocate(p)` returns true, the
page `P` it released `p` to being the one `findOwnerPage(p)` finds, and `location` is an
address for which `findCandidatePage(location)` selects that same page `P`, then the
`allocate(location)` made next returns exactly `p`, whatever the OS would answer, and
creates no page: the pages are again what they were before the `deallocate`. -/
theorem deallocate_then_allocate (page_size block_size : Nat) (os : VirtualAllocFn)
    (fuel : Nat) (st : State) (p location : Nat)
    (hret : (deallocate page_size st p).1 = true)
    (hsel : findCandidatePage st location = findOwnerPage page_size st p) :
    ∃ st', allocate page_size block_size os fuel (deallocate page_size st p).2 location
        = some (p, st') ∧
      st'.m_pages = st.m_pages ∧
      st'.m_pages.length = (deallocate page_size st p).2.m_pages.length ∧
      st'.static_base = st.static_base := by
  cases hown : findOwnerPage page_size st p with
  | none => simp [deallocate, hown] at hret
  | some i =>
    obtain ⟨P, hP, hPin⟩ := dpFind_some _ _ _ hown
    have hret' : (P.deallocate page_size st.mem p).1 = true := by
      unfold deallocate at hret
      rw [hown] at hret
      simp only [hP] at hret
      exact hret
    have hp0 : p ≠ 0 := by
      intro h0
      simp [Page.deallocate, h0] at hret'
    have hdeal : P.deallocate page_size st.mem p
        = (true, Function.update st.mem p P.m_freelist, ⟨P.m_data, p⟩) := by
      simp [Page.deallocate, hp0, hPin]
    have hres : (deallocate page_size st p).2
        = { st with m_pages := st.m_pages.set i ⟨P.m_data, p⟩,
                    mem := Function.update st.mem p P.m_freelist } := by
      unfold deallocate
      rw [hown]
      simp only [hP, hdeal]
    rw [hres]
    rw [hown] at hsel
    have hi : i < st.m_pages.length := by
      rcases Nat.lt_or_ge i st.m_pages.length with h | h
      · exact h
      · rw [List.get?_eq_none.2 h] at hP; exact absurd hP (by simp)
    have hcand : findCandidatePage
        { st with m_pages := st.m_pages.set i ⟨P.m_data, p⟩,
                  mem := Function.update st.mem p P.m_freelist } location = some i := by
      unfold findCandidatePage at hsel ⊢
      simp only
      rw [dpFind_set (fun q : Page => q.isInsideJumpRange location) st.m_pages i P
        ⟨P.m_data, p⟩ hP rfl]
      exact hsel
    have hget : (st.m_pages.set i ⟨P.m_data, p⟩).get? i = some (⟨P.m_data, p⟩ : Page) := by
      rw [List.get?_eq_getElem?, List.getElem?_set_self hi]
    have hall := allocate_of_candidate page_size block_size os fuel
      { st with m_pages := st.m_pages.set i ⟨P.m_data, p⟩,
                mem := Function.update st.mem p P.m_freelist } location i ⟨P.m_data, p⟩
      hcand hget hp0
    refine ⟨_, hall, ?_, ?_, rfl⟩
    · simp only [Function.update_same, List.set_set]
      have hPe : (⟨P.m_data, P.m_freelist⟩ : Page) = P := rfl
      rw [hPe]
      exact set_get?_self st.m_pages i P hP
    · simp

/-- Instance of C12: in the allocator with one page at `0x70000000`, the block `0x70000000`
is released and handed out again by `allocate(0x70000100)`. -/
theorem deallocate_then_allocate_witness :
    (deallocate 0x10000 onePage 0x70000000).1 = true ∧
    ∃ st', allocate 0x10000 32 (osExcept 0x70000000) 0
        (deallocate 0x10000 onePage 0x70000000).2 0x70000100 = some (0x70000000, st') ∧
      st'.m_pages = onePage.m_pages ∧
      st'.m_pages.length = (deallocate 0x10000 onePage 0x70000000).2.m_pages.length ∧
      st'.static_base = onePage.static_base :=
  ⟨by decide,
    deallocate_then_allocate 0x10000 32 (osExcept 0x70000000) 0 onePage 0x70000000 0x70000100
      (by decide) (by decide)⟩

end dpTrampolineAllocator

namespace dpTrampolineAllocator

/-- The reachability predicate is a bound on the absolute difference of the two addresses. -/
theorem isInsideJumpRange_iff (P : Page) (L : Nat) (hB : P.m_data < 2 ^ 64) (hL : L < 2 ^ 64) :
    P.isInsideJumpRange L = true ↔
      (if P.m_data < L then L - P.m_data else P.m_data - L) < 0x7fff0000 := by
  unfold Page.isInsideJumpRange
  simp only [decide_eq_true_eq]
  by_cases h : P.m_data < L
  · simp only [h, if_true]
    rw [wsub_small L P.m_data (by omega) hL]
  · simp only [h, if_false]
    rw [wsub_small P.m_data L (by omega) hB]

/-- Claim C19. Jump-range headroom: if the page with base `B` satisfies `isInsideJumpRange(L)`
for an address `L` and `page_size <= 0x10000`, then every address `b` of the page (`b`
with `isInsideMemory(b)`, so `B <= b < B + page_size`) has `|b - L| < 2^31`: the
displacement `b - L` fits a signed 32-bit relative jump. The predicate is an unsigned
absolute difference: it is `|L - B| < 0x7FFF0000`, has the same value for `L = B + d` and
`L = B - d`, and the same value with the roles of `B` and `L` exchanged. -/
theorem jump_range_headroom (page_size : Nat) (P : Page) (L b : Nat)
    (hB : P.m_data < 2 ^ 64) (hL : L < 2 ^ 64) (hps : page_size ≤ 0x10000)
    (hrange : P.isInsideJumpRange L = true) (hb : P.isInsideMemory page_size b = true) :
    (P.m_data ≤ b ∧ b < P.m_data + page_size) ∧
    (if b < L then L - b else b - L) < 2 ^ 31 ∧
    (-(2 : Int) ^ 31 ≤ (b : Int) - (L : Int) ∧ (b : Int) - (L : Int) ≤ 2 ^ 31 - 1) ∧
    (if P.m_data < L then L - P.m_data else P.m_data - L) < 0x7fff0000 ∧
    (∀ d, d ≤ P.m_data → P.m_data + d < 2 ^ 64 →
      P.isInsideJumpRange (P.m_data + d) = P.isInsideJumpRange (P.m_data - d) ∧
      P.isInsideJumpRange (P.m_data + d) = decide (d < 0x7fff0000)) ∧
    Page.isInsideJumpRange ⟨L, 0⟩ P.m_data = P.isInsideJumpRange L := by
  have hdist := (isInsideJumpRange_iff P L hB hL).1 hrange
  have hbm : P.m_data ≤ b ∧ b < P.m_data + page_size := by
    simp only [Page.isInsideMemory, wadd, decide_eq_true_eq] at hb
    have := Nat.mod_le (P.m_data + page_size) (2 ^ 64)
    omega
  have habs : (if b < L then L - b else b - L) < 2 ^ 31 := by
    split_ifs at hdist ⊢ <;> omega
  refine ⟨hbm, habs, ?_, hdist, ?_, ?_⟩
  · split_ifs at habs <;> omega
  · intro d hd hsum
    have h1 : P.isInsideJumpRange (P.m_data + d) = decide (d < 0x7fff0000) := by
      rw [Bool.eq_iff_iff, isInsideJumpRange_iff P _ hB hsum, decide_eq_true_eq]
      split_ifs <;> constructor <;> intro h <;> omega
    have h2 : P.isInsideJumpRange (P.m_data - d) = decide (d < 0x7fff0000) := by
      rw [Bool.eq_iff_iff, isInsideJumpRange_iff P _ hB (by omega), decide_eq_true_eq]
      split_ifs <;> constructor <;> intro h <;> omega
    exact ⟨h1.trans h2.symm, h1⟩
  · rw [Bool.eq_iff_iff, isInsideJumpRange_iff ⟨L, 0⟩ P.m_data hL hB,
      isInsideJumpRange_iff P L hB hL]
    simp only
    split_ifs <;> constructor <;> intro h <;> omega

/-- Instance of C19: the page at `0x80000000`, the address `L = 0x10001` at distance
`0x7FFEFFFF` below it and the last byte `0x8000FFFF` of the page: the displacement is
`0x7FFFFFFE`. -/
theorem jump_range_headroom_witness :
    (0x8000FFFF : Nat) - 0x10001 = 0x7FFFFFFE ∧
    (if (0x8000FFFF : Nat) < 0x10001 then 0x10001 - 0x8000FFFF else 0x8000FFFF - 0x10001)
      < 2 ^ 31 :=
  ⟨by decide,
    (jump_range_headroom 0x10000 ⟨0x80000000, 0⟩ 0x10001 0x8000FFFF (by decide) (by decide)
      (by decide) (by decide) (by decide)).2.1⟩

end dpTrampolineAllocator

/-! ## Theorems: SectionAllocator -/

namespace dpSectionAllocator

theorem testBit_pow64_sub_pow (k i : Nat) (hk : k ≤ 64) :
    (2 ^ 64 - 2 ^ k).testBit i = (decide (k ≤ i) && decide (i < 64)) := by
  have h : 2 ^ 64 - 2 ^ k = (2 ^ (64 - k) - 1) <<< k := by
    rw [Nat.shiftLeft_eq, Nat.sub_mul, one_mul, ← pow_add, Nat.sub_add_cancel hk]
  rw [h, Nat.testBit_shiftLeft, Nat.testBit_two_pow_sub_one]
  by_cases h1 : k ≤ i
  · by_cases h2 : i < 64
    · have : i - k < 64 - k := by omega
      simp [h1, h2, this]
    · have : ¬ (i - k < 64 - k) := by omega
      simp [h1, h2, this]
  · simp [h1]

theorem and_high_mask (x k : Nat) (hx : x < 2 ^ 64) (hk : k ≤ 64) :
    x &&& (2 ^ 64 - 2 ^ k) = 2 ^ k * (x / 2 ^ k) := by
  apply Nat.eq_of_testBit_eq
  intro i
  have hr : 2 ^ k * (x / 2 ^ k) = (x >>> k) <<< k := by
    rw [Nat.shiftLeft_eq, Nat.shiftRight_eq_div_pow, Nat.mul_comm]
  rw [Nat.testBit_and, testBit_pow64_sub_pow k i hk, hr, Nat.testBit_shiftLeft,
    Nat.testBit_shiftRight]
  by_cases h1 : k ≤ i
  · have e : k + (i - k) = i := by omega
    by_cases h2 : i < 64
    · simp [h1, h2, e]
    · have hlt : x < 2 ^ i := lt_of_lt_of_le hx (Nat.pow_le_pow_right (by norm_num) (by omega))
      simp [h1, h2, e, Nat.testBit_lt_two_pow hlt]
  · simp [h1]

/-- Without wrap-around `aligned` is the least multiple of `2 ^ k` at or above the cursor. -/
theorem alignedPos_eq (a : dpSectionAllocator) (k : Nat) (hk : k < 64)
    (hw : a.m_data + a.m_used + 2 ^ k < 2 ^ 64) :
    a.alignedPos (2 ^ k) = 2 ^ k * ((a.m_data + a.m_used + (2 ^ k - 1)) / 2 ^ k) := by
  have hpos : 0 < 2 ^ k := Nat.two_pow_pos k
  have hlt : 2 ^ k < 2 ^ 64 := Nat.pow_lt_pow_right (by norm_num) hk
  have hmask : wsub (2 ^ k) 1 = 2 ^ k - 1 := by
    unfold wsub
    have : 2 ^ k + (2 ^ 64 - 1 % 2 ^ 64) = (2 ^ k - 1) + 2 ^ 64 := by
      have : (1 : Nat) % 2 ^ 64 = 1 := by norm_num
      rw [this]; omega
    rw [this, Nat.add_mod_right, Nat.mod_eq_of_lt (by omega)]
  have hnot : wnot (2 ^ k - 1) = 2 ^ 64 - 2 ^ k := by
    unfold wnot
    rw [Nat.mod_eq_of_lt (by omega)]; omega
  unfold alignedPos
  simp only [hmask, hnot]
  have h1 : wadd a.m_data a.m_used = a.m_data + a.m_used := by
    unfold wadd; exact Nat.mod_eq_of_lt (by omega)
  have h2 : wadd (a.m_data + a.m_used) (2 ^ k - 1) = a.m_data + a.m_used + (2 ^ k - 1) := by
    unfold wadd; exact Nat.mod_eq_of_lt (by omega)
  rw [h1, h2]
  exact and_high_mask _ k (by omega) (by omega)

/-- Bounds on `aligned` without wrap-around. -/
theorem alignedPos_bounds (a : dpSectionAllocator) (k : Nat) (hk : k < 64)
    (hw : a.m_data + a.m_used + 2 ^ k < 2 ^ 64) :
    2 ^ k ∣ a.alignedPos (2 ^ k) ∧ a.m_data + a.m_used ≤ a.alignedPos (2 ^ k) ∧
      a.alignedPos (2 ^ k) < a.m_data + a.m_used + 2 ^ k := by
  rw [alignedPos_eq a k hk hw]
  have hpos : 0 < 2 ^ k := Nat.two_pow_pos k
  have hdm := Nat.div_add_mod (a.m_data + a.m_used + (2 ^ k - 1)) (2 ^ k)
  have hml := Nat.mod_lt (a.m_data + a.m_used + (2 ^ k - 1)) hpos
  refine ⟨Dvd.intro _ rfl, ?_, ?_⟩ <;> omega

end dpSectionAllocator

namespace dpSectionAllocator

/-- One call without wrap-around: the window is kept, the cursor stays inside it and never
moves back, and a non-null result is aligned and lies between the old and the new cursor. -/
theorem allocate_step (a : dpSectionAllocator) (r : Request) (k : Nat) (hk : k < 64)
    (hal : r.align = 2 ^ k) (hu : a.m_used ≤ a.m_size)
    (hw : a.m_data + a.m_size + r.align + r.size < 2 ^ 64) :
    (a.allocate r.size r.align).2.m_data = a.m_data ∧
    (a.allocate r.size r.align).2.m_size = a.m_size ∧
    (a.allocate r.size r.align).2.m_used ≤ a.m_size ∧
    a.m_used ≤ (a.allocate r.size r.align).2.m_used ∧
    ((a.allocate r.size r.align).1 ≠ 0 →
      r.align ∣ (a.allocate r.size r.align).1 ∧
      a.m_data + a.m_used ≤ (a.allocate r.size r.align).1 ∧
      (a.allocate r.size r.align).1 + r.size
        = a.m_data + (a.allocate r.size r.align).2.m_used) := by
  rw [hal] at hw ⊢
  obtain ⟨hd, hlo, hhi⟩ := alignedPos_bounds a k hk (by omega)
  have e1 : wadd (a.alignedPos (2 ^ k)) r.size = a.alignedPos (2 ^ k) + r.size := by
    unfold wadd; exact Nat.mod_eq_of_lt (by omega)
  have e2 : wadd a.m_data a.m_size = a.m_data + a.m_size := by
    unfold wadd; exact Nat.mod_eq_of_lt (by omega)
  have e3 : wsub (a.alignedPos (2 ^ k) + r.size) a.m_data
      = a.alignedPos (2 ^ k) + r.size - a.m_data := by
    unfold wsub
    rw [Nat.mod_eq_of_lt (show a.m_data < 2 ^ 64 by omega)]
    have : a.alignedPos (2 ^ k) + r.size + (2 ^ 64 - a.m_data)
        = (a.alignedPos (2 ^ k) + r.size - a.m_data) + 2 ^ 64 := by omega
    rw [this, Nat.add_mod_right, Nat.mod_eq_of_lt (by omega)]
  unfold allocate
  simp only [e1, e2, e3]
  by_cases hfit : a.alignedPos (2 ^ k) + r.size ≤ a.m_data + a.m_size
  · simp only [hfit, if_true]
    refine ⟨by trivial, by trivial, by omega, by omega, ?_⟩
    by_cases h0 : a.m_data = 0
    · simp [h0]
    · simp only [h0, if_false]
      intro _
      exact ⟨hd, hlo, by omega⟩
  · simp only [hfit, if_false]
    exact ⟨by trivial, by trivial, hu, le_refl _, fun h => absurd rfl h⟩

/-- Invariant of a run without wrap-around, from any allocator whose cursor is in the window. -/
theorem run_inv (rs : List Request) : ∀ (a : dpSectionAllocator),
    a.m_used ≤ a.m_size →
    (∀ r ∈ rs, IsPow2 r.align ∧ NoWrap a.m_data a.m_size r) →
    (run a rs).2.m_data = a.m_data ∧ (run a rs).2.m_size = a.m_size ∧
    (run a rs).2.m_used ≤ a.m_size ∧ a.m_used ≤ (run a rs).2.m_used ∧
    (∀ s ∈ (run a rs).1, s.ptr ≠ 0 →
      s.align ∣ s.ptr ∧ a.m_data + a.m_used ≤ s.ptr ∧ s.ptr + s.size ≤ a.m_data + a.m_size) ∧
    (run a rs).1.Pairwise (fun s t => s.ptr ≠ 0 → t.ptr ≠ 0 → s.ptr + s.size ≤ t.ptr) := by
  induction rs with
  | nil =>
    intro a hu _
    simp [run, hu]
  | cons r rs ih =>
    intro a hu hrs
    obtain ⟨⟨k, hk, hal⟩, hnw⟩ := hrs r (List.mem_cons_self _ _)
    obtain ⟨sd, ss, su, sm, sp⟩ := allocate_step a r k hk hal hu hnw
    have hrs' : ∀ r' ∈ rs, IsPow2 r'.align ∧
        NoWrap (a.allocate r.size r.align).2.m_data (a.allocate r.size r.align).2.m_size r' := by
      intro r' hr'
      rw [sd, ss]
      exact hrs r' (List.mem_cons_of_mem _ hr')
    obtain ⟨id, is, iu, im, ip, ipw⟩ := ih (a.allocate r.size r.align).2 (by rw [ss]; exact su) hrs'
    simp only [sd, ss] at id is iu ip
    simp only [run]
    refine ⟨id, is, iu, le_trans sm im, ?_, ?_⟩
    · intro s hs hne
      rcases List.mem_cons.1 hs with rfl | hs
      · obtain ⟨h1, h2, h3⟩ := sp hne
        exact ⟨h1, h2, by simp only; omega⟩
      · obtain ⟨h1, h2, h3⟩ := ip s hs hne
        exact ⟨h1, by omega, h3⟩
    · refine List.Pairwise.cons ?_ ipw
      intro t ht hne hte
      obtain ⟨_, h2, _⟩ := ip t ht hte
      obtain ⟨_, _, h3⟩ := sp hne
      simp only
      omega

end dpSectionAllocator

namespace dpSectionAllocator

/-- Claim C4. Placement by `SectionAllocator.allocate`: in a window `(b, S)` (for every base
`b`, so in particular for `data != NULL`) and for every sequence of `allocate(size, align)`
calls with `size > 0`, `align` a power of two and no wrap-around
(`b + S + align + size < 2^64`), every non-null result `p` is a multiple of `align`, its
range `[p, p+size)` lies inside `[b, b+S)`, and the ranges of any two non-null results are
disjoint (a later one starts at or after the end of an earlier one). -/
theorem allocate_placement (b S : Nat) (rs : List Request)
    (hrs : ∀ r ∈ rs, 0 < r.size ∧ IsPow2 r.align ∧ NoWrap b S r) :
    (∀ s ∈ (run (mk0 b S) rs).1, s.ptr ≠ 0 →
      s.align ∣ s.ptr ∧ b ≤ s.ptr ∧ s.ptr + s.size ≤ b + S) ∧
    (run (mk0 b S) rs).1.Pairwise (fun s t => s.ptr ≠ 0 → t.ptr ≠ 0 →
      s.ptr + s.size ≤ t.ptr ∧ rangesDisjoint s.ptr s.size t.ptr t.size) := by
  obtain ⟨_, _, _, _, hp, hpw⟩ := run_inv rs (mk0 b S) (Nat.zero_le _)
    (fun r hr => ⟨(hrs r hr).2.1, (hrs r hr).2.2⟩)
  refine ⟨fun s hs hne => ?_, hpw.imp ?_⟩
  · obtain ⟨h1, h2, h3⟩ := hp s hs hne
    exact ⟨h1, by simp only [mk0] at h2; omega, h3⟩
  · intro s t h hs ht
    exact ⟨h hs ht, Or.inl (h hs ht)⟩

/-- Instance of C4: the window `(0x10001, 0x1000)` and the example requests; the first
three are placed at `0x10010`, `0x10015`, `0x10018`, the last does not fit. -/
theorem allocate_placement_witness :
    (run (mk0 0x10001 0x1000) exampleRequests).1.map (fun s => s.ptr)
      = [0x10010, 0x10015, 0x10018, 0] ∧
    (∀ s ∈ (run (mk0 0x10001 0x1000) exampleRequests).1, s.ptr ≠ 0 →
      s.align ∣ s.ptr ∧ 0x10001 ≤ s.ptr ∧ s.ptr + s.size ≤ 0x10001 + 0x1000) ∧
    (run (mk0 0x10001 0x1000) exampleRequests).1.Pairwise (fun s t => s.ptr ≠ 0 → t.ptr ≠ 0 →
      s.ptr + s.size ≤ t.ptr ∧ rangesDisjoint s.ptr s.size t.ptr t.size) :=
  ⟨by decide, allocate_placement 0x10001 0x1000 exampleRequests (by decide)⟩

/-- Claim C5 (counterexample). With the `size_t` arithmetic of the code, one request of
`size = 2^64 - 0x10000`, `align = 1` on the window `(0x10000, 0x1000)` passes the bounds
test, because `aligned + size` wraps to `0`, and leaves `getUsed() = 2^64 - 0x10000`, far
above the window size `0x1000`. -/
theorem getUsed_exceeds_size_on_wrap :
    0 < 2 ^ 64 - 0x10000 ∧ 2 ^ 64 - 0x10000 < 2 ^ 64 ∧ IsPow2 1 ∧
    ((mk0 0x10000 0x1000).allocate (2 ^ 64 - 0x10000) 1).1 = 0x10000 ∧
    ((mk0 0x10000 0x1000).allocate (2 ^ 64 - 0x10000) 1).2.getUsed = 2 ^ 64 - 0x10000 ∧
    ¬ ((mk0 0x10000 0x1000).allocate (2 ^ 64 - 0x10000) 1).2.getUsed ≤ 0x1000 := by
  decide

/-- Claim C5 (amended). Cursor bound: for every window `(b, S)` and every sequence of
`allocate(size, align)` calls with `size > 0`, `align` a power of two and no wrap-around
(`b + S + align + size < 2^64` for each call), `getUsed() <= S` holds after the calls;
a sequence being arbitrary, it holds after every call. -/
theorem getUsed_le_size (b S : Nat) (rs : List Request)
    (hrs : ∀ r ∈ rs, 0 < r.size ∧ IsPow2 r.align ∧ NoWrap b S r) :
    (after (mk0 b S) rs).getUsed ≤ S := by
  obtain ⟨_, _, h, _⟩ := run_inv rs (mk0 b S) (Nat.zero_le _)
    (fun r hr => ⟨(hrs r hr).2.1, (hrs r hr).2.2⟩)
  exact h

/-- Instance of C5 (amended): after the example requests on the window `(0x10001, 0x1000)`
the cursor is `0x1f`. -/
theorem getUsed_le_size_witness :
    (after (mk0 0x10001 0x1000) exampleRequests).getUsed = 0x1f ∧
    (after (mk0 0x10001 0x1000) exampleRequests).getUsed ≤ 0x1000 :=
  ⟨by decide, getUsed_le_size 0x10001 0x1000 exampleRequests (by decide)⟩

end dpSectionAllocator

namespace dpSectionAllocator

/-- The bounds test and the result of `allocate` when nothing wraps around, with
`aligned = roundUp (base + m_used) align`. -/
theorem allocate_nowrap (a : dpSectionAllocator) (size k : Nat) (hk : k < 64)
    (hu : a.m_used ≤ a.m_size) (hw : a.m_data + a.m_size + 2 ^ k + size < 2 ^ 64) :
    (fits a size (2 ^ k) ↔
      roundUp (a.m_data + a.m_used) (2 ^ k) + size ≤ a.m_data + a.m_size) ∧
    (fits a size (2 ^ k) →
      a.allocate size (2 ^ k)
        = (if a.m_data = 0 then 0 else roundUp (a.m_data + a.m_used) (2 ^ k),
            { a with m_used := roundUp (a.m_data + a.m_used) (2 ^ k) + size - a.m_data })) ∧
    (¬ fits a size (2 ^ k) → a.allocate size (2 ^ k) = (0, a)) := by
  have heq := alignedPos_eq a k hk (by omega)
  obtain ⟨_, hlo, hhi⟩ := alignedPos_bounds a k hk (by omega)
  have hr : roundUp (a.m_data + a.m_used) (2 ^ k) = a.alignedPos (2 ^ k) := by
    rw [heq]; rfl
  have e1 : wadd (a.alignedPos (2 ^ k)) size = a.alignedPos (2 ^ k) + size := by
    unfold wadd; exact Nat.mod_eq_of_lt (by omega)
  have e2 : wadd a.m_data a.m_size = a.m_data + a.m_size := by
    unfold wadd; exact Nat.mod_eq_of_lt (by omega)
  have e3 : wsub (a.alignedPos (2 ^ k) + size) a.m_data
      = a.alignedPos (2 ^ k) + size - a.m_data := by
    unfold wsub
    rw [Nat.mod_eq_of_lt (show a.m_data < 2 ^ 64 by omega)]
    have : a.alignedPos (2 ^ k) + size + (2 ^ 64 - a.m_data)
        = (a.alignedPos (2 ^ k) + size - a.m_data) + 2 ^ 64 := by omega
    rw [this, Nat.add_mod_right, Nat.mod_eq_of_lt (by omega)]
  rw [hr]
  unfold fits allocate
  simp only [e1, e2, e3]
  refine ⟨by trivial, ?_, ?_⟩
  · intro h; simp only [h, if_true]
  · intro h; simp only [h, if_false]

/-- A failed `allocate` leaves the allocator as it was, so repeating it fails again. -/
theorem run_replicate_fail (a : dpSectionAllocator) (size align : Nat)
    (h : a.allocate size align = (0, a)) : ∀ n,
    run a (List.replicate n ⟨size, align⟩) = (List.replicate n ⟨0, size, align⟩, a) := by
  intro n
  induction n with
  | zero => rfl
  | succ n ih => simp [List.replicate_succ, run, h, ih]

/-- Claim C14 (counterexample). A new allocator on the window `(0x20000, 0x100)` and the
request `allocate(2^64 - 0x20000 + 0x10, 16)`: the aligned position is `0x20000` and the
aligned position plus the size is `2^64 + 0x10`, far above the end `0x20100` of the window,
so the request does not fit. In `size_t` the sum wraps around to `0x10`, the test
`aligned+size <= base+m_size` passes, and `allocate` returns the non-null pointer `0x20000`
and moves `getUsed()` from `0` to `2^64 - 0x1fff0`. Repeating the request then returns
null: the same request does not give the same result twice. -/
theorem allocate_succeeds_past_window :
    IsPow2 16 ∧
    (mk0 0x20000 0x100).alignedPos 16 = 0x20000 ∧
    roundUp (0x20000 + (mk0 0x20000 0x100).getUsed) 16 = 0x20000 ∧
    0x20000 + 0xfffffffffffe0010 > 0x20000 + 0x100 ∧
    ((mk0 0x20000 0x100).allocate 0xfffffffffffe0010 16).1 = 0x20000 ∧
    (mk0 0x20000 0x100).getUsed = 0 ∧
    ((mk0 0x20000 0x100).allocate 0xfffffffffffe0010 16).2.getUsed = 0xfffffffffffe0010 ∧
    (((mk0 0x20000 0x100).allocate 0xfffffffffffe0010 16).2.allocate
      0xfffffffffffe0010 16).1 = 0 := by
  decide

/-- Claim C14 (amended). Exhaustion of the SectionAllocator when nothing wraps around: for
every allocator state whose cursor is inside the window (`getUsed() <= windowSize`) and
every request `(size, align)` with `align` a power of two and
`base + windowSize + align + size < 2^64`, if the least multiple of `align` at or above the
cursor position `base + getUsed()`, plus `size`, exceeds `base + windowSize`, then
`allocate` returns null and `getUsed()` is unchanged, and repeating the request any number
of times returns null every time and leaves the allocator as it was. If it does not exceed
`base + windowSize`, the request is served at that multiple of `align` and `getUsed()`
becomes the end of the range, less `base`. -/
theorem allocate_fails_when_full (a : dpSectionAllocator) (size align : Nat)
    (hal : IsPow2 align) (hu : a.m_used ≤ a.m_size)
    (hw : NoWrap a.m_data a.m_size ⟨size, align⟩) :
    (roundUp (a.m_data + a.m_used) align + size > a.m_data + a.m_size →
      (a.allocate size align).1 = 0 ∧
      (a.allocate size align).2 = a ∧
      (a.allocate size align).2.getUsed = a.getUsed ∧
      ∀ n, run a (List.replicate n ⟨size, align⟩)
        = (List.replicate n ⟨0, size, align⟩, a)) ∧
    (roundUp (a.m_data + a.m_used) align + size ≤ a.m_data + a.m_size →
      (a.allocate size align).1
        = (if a.m_data = 0 then 0 else roundUp (a.m_data + a.m_used) align) ∧
      (a.allocate size align).2.getUsed
        = roundUp (a.m_data + a.m_used) align + size - a.m_data) := by
  obtain ⟨k, hk, rfl⟩ := hal
  obtain ⟨hiff, hok, hfail⟩ :=
    allocate_nowrap a size k hk hu (by simp only [NoWrap] at hw; omega)
  constructor
  · intro hfull
    have hnot : ¬ fits a size (2 ^ k) := by
      rw [hiff]
      omega
    have h := hfail hnot
    exact ⟨by rw [h], by rw [h], by rw [h], run_replicate_fail a size (2 ^ k) h⟩
  · intro hfit
    have h := hok (hiff.2 hfit)
    exact ⟨by rw [h], by rw [h]; rfl⟩

/-- Instance of C14 (amended): the window `(0x10001, 0x1000)` with `0x1f` bytes used refuses
a request of `0x1000` bytes, three times over. -/
theorem allocate_fails_when_full_witness :
    (after (mk0 0x10001 0x1000) fittingRequests).getUsed = 0x1f ∧
    run (after (mk0 0x10001 0x1000) fittingRequests) (List.replicate 3 ⟨0x1000, 1⟩)
      = (List.replicate 3 ⟨0, 0x1000, 1⟩, after (mk0 0x10001 0x1000) fittingRequests) :=
  ⟨by decide,
    ((allocate_fails_when_full (after (mk0 0x10001 0x1000) fittingRequests) 0x1000 1
      (by decide) (by decide) (by decide)).1 (by decide)).2.2.2 3⟩

end dpSectionAllocator

namespace dpSectionAllocator

/-- A null window returns null from every call. -/
theorem allocate_null (a : dpSectionAllocator) (h : a.m_data = 0) (size align : Nat) :
    (a.allocate size align).1 = 0 ∧ (a.allocate size align).2.m_data = 0 ∧
      (a.allocate size align).2.m_size = a.m_size := by
  by_cases hc : wadd (a.alignedPos align) size ≤ wadd 0 a.m_size
  · simp [allocate, hc, h]
  · simp [allocate, hc, h]

theorem run_null : ∀ (rs : List Request) (a : dpSectionAllocator), a.m_data = 0 →
    ∀ s ∈ (run a rs).1, s.ptr = 0 := by
  intro rs
  induction rs with
  | nil => intro a _ s hs; simp [run] at hs
  | cons r rs ih =>
    intro a ha s hs
    obtain ⟨h1, h2, _⟩ := allocate_null a ha r.size r.align
    simp only [run, List.mem_cons] at hs
    rcases hs with rfl | hs
    · exact h1
    · exact ih _ h2 s hs

/-- Rounding up commutes with adding a base that is a multiple of the alignment. -/
theorem roundUp_add_base (b u k : Nat) (hb : 2 ^ k ∣ b) :
    roundUp (b + u) (2 ^ k) = b + roundUp u (2 ^ k) := by
  obtain ⟨c, rfl⟩ := hb
  unfold roundUp
  have hpos : 0 < 2 ^ k := Nat.two_pow_pos k
  have : (2 ^ k * c + u + (2 ^ k - 1)) / 2 ^ k = c + (u + (2 ^ k - 1)) / 2 ^ k := by
    rw [show 2 ^ k * c + u + (2 ^ k - 1) = (u + (2 ^ k - 1)) + 2 ^ k * c by omega,
      Nat.add_mul_div_left _ _ hpos, Nat.add_comm]
  rw [this, Nat.mul_add]

/-- The dry run and the real window in lock step: from equal cursors, a sequence that fits
in the dry run is served by the real window at the base plus the offsets of the dry run. -/
theorem replay (b S : Nat) (hb : b ≠ 0) : ∀ (rs : List Request) (a0 a : dpSectionAllocator),
    a0.m_data = 0 → a.m_data = b → a.m_size = S → a.m_used = a0.m_used →
    a0.m_used ≤ a0.m_size →
    (∀ r ∈ rs, IsPow2 r.align ∧ NoWrap 0 a0.m_size r ∧ NoWrap b S r ∧ r.align ∣ b) →
    allFit a0 rs → (run a0 rs).2.m_used ≤ S →
    allFit a rs ∧
    (∀ s ∈ (run a rs).1, s.ptr ≠ 0) ∧
    (run a rs).1.map (fun s => s.ptr) = (offsets a0 rs).map (fun o => b + o) ∧
    cursors a rs = cursors a0 rs ∧
    (run a rs).2.m_used = (run a0 rs).2.m_used := by
  intro rs
  induction rs with
  | nil =>
    intro a0 a _ _ _ hu _ _ _ _
    simp [run, allFit, offsets, cursors, hu]
  | cons r rs ih =>
    intro a0 a h0 hab haS hu hu0 hrs hfit hS
    obtain ⟨⟨k, hk, hal⟩, hw0, hw, hdvd⟩ := hrs r (List.mem_cons_self _ _)
    obtain ⟨hf0, hfrest⟩ := hfit
    rw [hal] at hf0 hdvd
    simp only [NoWrap, hal] at hw0 hw
    -- the dry step
    obtain ⟨d1, d2, _⟩ := allocate_nowrap a0 r.size k hk hu0 (by rw [h0]; omega)
    have hd := d2 hf0
    have hfd := d1.1 hf0
    rw [h0] at hd hfd
    simp only [Nat.zero_add, if_true, Nat.sub_zero] at hd hfd
    -- the cursor of the dry run only grows
    have hrest0 : ∀ r' ∈ rs, IsPow2 r'.align ∧
        NoWrap (a0.allocate r.size r.align).2.m_data (a0.allocate r.size r.align).2.m_size
          r' := by
      intro r' hr'
      rw [hal, hd]
      simp only [h0]
      exact ⟨(hrs r' (List.mem_cons_of_mem _ hr')).1, (hrs r' (List.mem_cons_of_mem _ hr')).2.1⟩
    have hused0 : (a0.allocate r.size r.align).2.m_used
        = roundUp a0.m_used (2 ^ k) + r.size := by rw [hal, hd]
    have hmono := (run_inv rs (a0.allocate r.size r.align).2
      (by rw [hal, hd]; exact hfd) hrest0).2.2.2.1
    have hS' : (run (a0.allocate r.size r.align).2 rs).2.m_used ≤ S := hS
    -- the real step
    have hge : a0.m_used ≤ roundUp a0.m_used (2 ^ k) := by
      have := (alignedPos_bounds a0 k hk (by rw [h0]; omega)).2.1
      rw [alignedPos_eq a0 k hk (by rw [h0]; omega), h0] at this
      simp only [Nat.zero_add] at this
      exact this
    have hua : a.m_used ≤ a.m_size := by rw [haS, hu]; omega
    obtain ⟨r1, r2, _⟩ := allocate_nowrap a r.size k hk hua (by rw [hab, haS]; omega)
    have hround : roundUp (a.m_data + a.m_used) (2 ^ k) = b + roundUp a0.m_used (2 ^ k) := by
      rw [hab, hu]; exact roundUp_add_base b a0.m_used k hdvd
    have hfa : fits a r.size (2 ^ k) := by
      rw [r1, hround, hab, haS]; omega
    have hr := r2 hfa
    rw [hround, hab] at hr
    simp only [hb, if_false] at hr
    have hsub : b + roundUp a0.m_used (2 ^ k) + r.size - b
        = roundUp a0.m_used (2 ^ k) + r.size := by omega
    rw [hsub] at hr
    -- the rest of the sequence
    obtain ⟨i1, i2, i3, i4, i5⟩ := ih (a0.allocate r.size r.align).2 (a.allocate r.size r.align).2
      (by rw [hal, hd]) (by rw [hal, hr]) (by rw [hal, hr]; exact haS)
      (by rw [hal, hr, hd]) (by rw [hal, hd]; exact hfd)
      (by
        intro r' hr'
        have := hrs r' (List.mem_cons_of_mem _ hr')
        rw [hal, hd]
        exact this)
      hfrest hS'
    refine ⟨⟨by rw [hal]; exact hfa, i1⟩, ?_, ?_, ?_, ?_⟩
    · intro s hs
      simp only [run, List.mem_cons] at hs
      rcases hs with rfl | hs
      · rw [hal, hr]
        simp only
        omega
      · exact i2 s hs
    · simp only [run, offsets, List.map_cons, i3]
      congr 1
      rw [hal, hr, hd]
      simp only [getUsed]
      omega
    · have e1 : cursors a (r :: rs) = (a.allocate r.size r.align).2.getUsed
          :: cursors (a.allocate r.size r.align).2 rs := rfl
      have e2 : cursors a0 (r :: rs) = (a0.allocate r.size r.align).2.getUsed
          :: cursors (a0.allocate r.size r.align).2 rs := rfl
      have hhead : (a.allocate r.size r.align).2.getUsed
          = (a0.allocate r.size r.align).2.getUsed := by
        rw [hal, hr, hd]
        simp only [getUsed]
      rw [e1, e2, i4, hhead]
    · simpa only [run] using i5

/-- Claim C20. Dry run of the SectionAllocator. An allocator constructed with `data = NULL`
returns NULL from every `allocate` call; a request that passes its bounds test moves
`getUsed()` to the least multiple of `align` at or above the cursor, plus `size`, which is
what a window at base address 0 does. For every request sequence with power-of-two
alignments that all fit in the dry run and end with `getUsed() = U`, the same sequence on a
real window whose base `b` is non-null and a multiple of every alignment and whose size is
at least `U` passes the bounds test at every request, returns `b` plus the offset the dry
run placed the request at, shows the same `getUsed()` after every call, and ends with
`getUsed() = U` (no wrap-around in either run). -/
theorem dry_run_replay (S0 b S : Nat) (rs : List Request) (hb : b ≠ 0)
    (hrs : ∀ r ∈ rs, IsPow2 r.align ∧ NoWrap 0 S0 r ∧ NoWrap b S r ∧ r.align ∣ b)
    (hfit : allFit (mk0 0 S0) rs) (hS : (after (mk0 0 S0) rs).getUsed ≤ S) :
    (∀ rs', ∀ s ∈ (run (mk0 0 S0) rs').1, s.ptr = 0) ∧
    (∀ (a : dpSectionAllocator) (size k : Nat), a.m_data = 0 → k < 64 → a.m_used ≤ a.m_size →
      a.m_size + 2 ^ k + size < 2 ^ 64 → fits a size (2 ^ k) →
      (a.allocate size (2 ^ k)).2.getUsed = roundUp a.m_used (2 ^ k) + size) ∧
    allFit (mk0 b S) rs ∧
    (∀ s ∈ (run (mk0 b S) rs).1, s.ptr ≠ 0) ∧
    (run (mk0 b S) rs).1.map (fun s => s.ptr)
      = (offsets (mk0 0 S0) rs).map (fun o => b + o) ∧
    cursors (mk0 b S) rs = cursors (mk0 0 S0) rs ∧
    (after (mk0 b S) rs).getUsed = (after (mk0 0 S0) rs).getUsed := by
  refine ⟨fun rs' => run_null rs' (mk0 0 S0) rfl, ?_, ?_⟩
  · intro a size k ha hk hu hw hf
    obtain ⟨_, d2, _⟩ := allocate_nowrap a size k hk hu (by rw [ha]; omega)
    rw [d2 hf, ha]
    simp [getUsed]
  · exact replay b S hb rs (mk0 0 S0) (mk0 b S) rfl rfl rfl rfl (Nat.zero_le _) hrs hfit hS

/-- Instance of C20: the example requests fit a dry run of `0x20` bytes, which places them
at the offsets `0`, `5`, `8` and ends at `0x10`; the window at `0x10000` of `0x10` bytes
returns `0x10000`, `0x10005`, `0x10008`. -/
theorem dry_run_replay_witness :
    offsets (mk0 0 0x20) fittingRequests = [0, 5, 8] ∧
    (after (mk0 0 0x20) fittingRequests).getUsed = 0x10 ∧
    (run (mk0 0x10000 0x10) fittingRequests).1.map (fun s => s.ptr)
      = (offsets (mk0 0 0x20) fittingRequests).map (fun o => 0x10000 + o) ∧
    (after (mk0 0x10000 0x10) fittingRequests).getUsed
      = (after (mk0 0 0x20) fittingRequests).getUsed :=
  ⟨by decide, by decide,
    (dry_run_replay 0x20 0x10000 0x10 fittingRequests (by decide) (by decide) (by decide)
      (by decide)).2.2.2.2.1,
    (dry_run_replay 0x20 0x10000 0x10 fittingRequests (by decide) (by decide) (by decide)
      (by decide)).2.2.2.2.2.2⟩

end dpSectionAllocator
/-! ## Theorems: BlockAllocator -/

namespace dpBlockAllocator

/-- For a block size that is a positive multiple of the pointer size, `sizeof(Block)` is the
block size. -/
theorem sizeofBlock_eq (BlockSize : Nat) (hbs : 0 < BlockSize) (h8 : 8 ∣ BlockSize) :
    sizeofBlock BlockSize = BlockSize := by
  obtain ⟨k, rfl⟩ := h8
  unfold sizeofBlock
  omega

theorem block_ge_8 (BlockSize : Nat) (hbs : 0 < BlockSize) (h8 : 8 ∣ BlockSize) :
    8 ≤ BlockSize := Nat.le_of_dvd hbs h8

/-- A byte of a stored pointer, read back. -/
theorem byteAt_store64_same (mem : Nat → Nat) (a v i : Nat) (hi : i < 8) :
    byteAt (store64 mem a v) a i = v / 256 ^ i % 256 := by
  have h1 : wadd a i < 2 ^ 64 := by unfold wadd; omega
  have h2 : wsub (wadd a i) a = i := by unfold wsub wadd; omega
  unfold byteAt store64
  simp only [h2]
  rw [if_pos ⟨h1, hi⟩, Nat.mod_mod]

/-- Reading a pointer back where it was stored. -/
theorem load64_store64_same (mem : Nat → Nat) (a v : Nat) :
    load64 (store64 mem a v) a = v % 2 ^ 64 := by
  unfold load64
  rw [byteAt_store64_same mem a v 0 (by omega), byteAt_store64_same mem a v 1 (by omega),
    byteAt_store64_same mem a v 2 (by omega), byteAt_store64_same mem a v 3 (by omega),
    byteAt_store64_same mem a v 4 (by omega), byteAt_store64_same mem a v 5 (by omega),
    byteAt_store64_same mem a v 6 (by omega), byteAt_store64_same mem a v 7 (by omega)]
  norm_num
  omega

/-- A store leaves every byte outside its eight bytes as it was. -/
theorem store64_outside (mem : Nat → Nat) (a v x : Nat) (ha : a + 8 ≤ 2 ^ 64)
    (hx : x < a ∨ a + 8 ≤ x) : store64 mem a v x = mem x := by
  unfold store64
  rw [if_neg]
  rintro ⟨h1, h2⟩
  unfold wsub at h2
  omega

/-- A pointer read from eight bytes that two memories agree on. -/
theorem load64_congr (mem mem' : Nat → Nat) (a : Nat) (ha : a + 8 ≤ 2 ^ 64)
    (h : ∀ x, a ≤ x → x < a + 8 → mem' x = mem x) : load64 mem' a = load64 mem a := by
  have hb : ∀ i, i < 8 → byteAt mem' a i = byteAt mem a i := by
    intro i hi
    unfold byteAt
    rw [wadd_small a i (by omega), h (a + i) (by omega) (by omega)]
  unfold load64
  rw [hb 0 (by omega), hb 1 (by omega), hb 2 (by omega), hb 3 (by omega), hb 4 (by omega),
    hb 5 (by omega), hb 6 (by omega), hb 7 (by omega)]

/-- A store does not change a pointer held in eight other bytes. -/
theorem load64_store64_apart (mem : Nat → Nat) (a b v : Nat) (ha : a + 8 ≤ 2 ^ 64)
    (hb : b + 8 ≤ 2 ^ 64) (h : a + 8 ≤ b ∨ b + 8 ≤ a) :
    load64 (store64 mem a v) b = load64 mem b := by
  apply load64_congr _ _ _ hb
  intro x h1 h2
  exact store64_outside mem a v x ha (by omega)

/-- Reading back a loop of stores `*(addr i) = val i`, `i < c`, away from the stores. -/
theorem storeLoop_outside (addr val : Nat → Nat) (mem : Nat → Nat) (x : Nat)
    (hx : x + 8 ≤ 2 ^ 64) :
    ∀ c, (∀ i, i < c → addr i + 8 ≤ 2 ^ 64 ∧ (addr i + 8 ≤ x ∨ x + 8 ≤ addr i)) →
    load64 ((List.range c).foldl (fun m i => store64 m (addr i) (val i)) mem) x
      = load64 mem x := by
  intro c
  induction c with
  | zero => intro _; rfl
  | succ c ih =>
    intro h
    rw [List.range_succ, List.foldl_append]
    simp only [List.foldl_cons, List.foldl_nil]
    rw [load64_store64_apart _ _ _ _ (h c (by omega)).1 hx (h c (by omega)).2]
    exact ih (fun i hi => h i (by omega))

/-- Reading back a loop of stores at one of the stores, the stores not overlapping. -/
theorem storeLoop_at (addr val : Nat → Nat) (mem : Nat → Nat) :
    ∀ c, (∀ i, i < c → addr i + 8 ≤ 2 ^ 64) →
    (∀ i j, i < c → j < c → i ≠ j → addr i + 8 ≤ addr j ∨ addr j + 8 ≤ addr i) →
    ∀ i, i < c →
    load64 ((List.range c).foldl (fun m i => store64 m (addr i) (val i)) mem) (addr i)
      = val i % 2 ^ 64 := by
  intro c
  induction c with
  | zero => intro _ _ i hi; omega
  | succ c ih =>
    intro hb hsep i hi
    rw [List.range_succ, List.foldl_append]
    simp only [List.foldl_cons, List.foldl_nil]
    by_cases hic : i = c
    · subst hic
      rw [load64_store64_same]
    · rw [load64_store64_apart _ _ _ _ (hb c (by omega)) (hb i (by omega))
        (hsep c i (by omega) (by omega) (fun h => hic h.symm))]
      exact ih (fun a ha => hb a (by omega))
        (fun a b ha hb' hab => hsep a b (by omega) (by omega) hab) i (by omega)

/-- Facts about the block count `n`. -/
theorem blocks_fit (PageSize BlockSize : Nat) (hbs : 0 < BlockSize)
    (hn : BlockSize ≤ PageSize) :
    1 ≤ PageSize / BlockSize ∧ PageSize / BlockSize * BlockSize ≤ PageSize ∧
      PageSize / BlockSize ≤ PageSize := by
  refine ⟨(Nat.one_le_div_iff hbs).2 hn, Nat.div_mul_le_self _ _, Nat.div_le_self _ _⟩

theorem slot_bound (PageSize BlockSize i : Nat)
    (hi : i < PageSize / BlockSize) : i * BlockSize + BlockSize ≤ PageSize := by
  have h1 : (i + 1) * BlockSize ≤ PageSize / BlockSize * BlockSize :=
    Nat.mul_le_mul_right _ hi
  have h2 := Nat.div_mul_le_self PageSize BlockSize
  have h3 : (i + 1) * BlockSize = i * BlockSize + BlockSize := by ring
  omega

/-- Two different blocks of a page are at least a block apart. -/
theorem slot_sep (BlockSize i j : Nat) (hij : i ≠ j) :
    i * BlockSize + BlockSize ≤ j * BlockSize ∨ j * BlockSize + BlockSize ≤ i * BlockSize := by
  rcases Nat.lt_or_gt_of_ne hij with h | h
  · left
    have h1 : (i + 1) * BlockSize ≤ j * BlockSize := Nat.mul_le_mul_right _ h
    have h3 : (i + 1) * BlockSize = i * BlockSize + BlockSize := by ring
    omega
  · right
    have h1 : (j + 1) * BlockSize ≤ i * BlockSize := Nat.mul_le_mul_right _ h
    have h3 : (j + 1) * BlockSize = j * BlockSize + BlockSize := by ring
    omega

/-- The address arithmetic of the constructor does not wrap. -/
theorem slot_addr (PageSize BlockSize data i : Nat) (hbs : 0 < BlockSize)
    (hw : data + PageSize < 2 ^ 64) (hi : i < PageSize / BlockSize) :
    wadd data (wmul i BlockSize) = data + i * BlockSize := by
  have := slot_bound PageSize BlockSize i hi
  rw [wmul_small _ _ (by omega), wadd_small _ _ (by omega)]

/-- After the constructor, a pointer held away from the new page reads as before. -/
theorem linkBlocks_outside (PageSize BlockSize data : Nat) (mem : Nat → Nat) (x : Nat)
    (hbs : 0 < BlockSize) (h8 : 8 ∣ BlockSize) (hn : BlockSize ≤ PageSize)
    (hw : data + PageSize < 2 ^ 64) (hx64 : x + 8 ≤ 2 ^ 64)
    (hx : x + 8 ≤ data ∨ data + PageSize ≤ x) :
    load64 (linkBlocks PageSize BlockSize data mem) x = load64 mem x := by
  obtain ⟨h1, _, h3⟩ := blocks_fit PageSize BlockSize hbs hn
  have hge := block_ge_8 BlockSize hbs h8
  have hs : wsub (PageSize / BlockSize) 1 = PageSize / BlockSize - 1 :=
    wsub_small _ _ h1 (by omega)
  have hfar : ∀ i, i < PageSize / BlockSize →
      data + i * BlockSize + 8 ≤ 2 ^ 64 ∧
        (data + i * BlockSize + 8 ≤ x ∨ x + 8 ≤ data + i * BlockSize) := by
    intro i hi
    have := slot_bound PageSize BlockSize i hi
    omega
  simp only [linkBlocks, hs, sizeofBlock_eq BlockSize hbs h8]
  rw [slot_addr PageSize BlockSize data _ hbs hw (by omega),
    load64_store64_apart _ _ _ _ (hfar _ (by omega)).1 hx64 (hfar _ (by omega)).2,
    storeLoop_outside _ _ _ _ hx64]
  intro i hi
  rw [slot_addr PageSize BlockSize data i hbs hw (by omega)]
  exact hfar i (by omega)

/-- After the constructor, slot `i` holds the address of slot `i+1`, the last one `nullptr`. -/
theorem linkBlocks_at (PageSize BlockSize data : Nat) (mem : Nat → Nat) (i : Nat)
    (hbs : 0 < BlockSize) (h8 : 8 ∣ BlockSize) (hn : BlockSize ≤ PageSize)
    (hw : data + PageSize < 2 ^ 64) (hi : i < PageSize / BlockSize) :
    load64 (linkBlocks PageSize BlockSize data mem) (data + i * BlockSize) =
      if i + 1 < PageSize / BlockSize then data + (i + 1) * BlockSize else 0 := by
  obtain ⟨h1, _, h3⟩ := blocks_fit PageSize BlockSize hbs hn
  have hge := block_ge_8 BlockSize hbs h8
  have hs : wsub (PageSize / BlockSize) 1 = PageSize / BlockSize - 1 :=
    wsub_small _ _ h1 (by omega)
  have hb64 : ∀ a, a < PageSize / BlockSize → data + a * BlockSize + 8 ≤ 2 ^ 64 := by
    intro a ha
    have := slot_bound PageSize BlockSize a ha
    omega
  have hsep : ∀ a b, a ≠ b → data + a * BlockSize + 8 ≤ data + b * BlockSize ∨
      data + b * BlockSize + 8 ≤ data + a * BlockSize := by
    intro a b hab
    have := slot_sep BlockSize a b hab
    omega
  simp only [linkBlocks, hs, sizeofBlock_eq BlockSize hbs h8]
  rw [slot_addr PageSize BlockSize data _ hbs hw (by omega)]
  by_cases hlast : i + 1 < PageSize / BlockSize
  · rw [if_pos hlast, load64_store64_apart _ _ _ _ (hb64 _ (by omega)) (hb64 i hi)
      (hsep _ _ (by omega))]
    rw [← slot_addr PageSize BlockSize data i hbs hw hi]
    rw [storeLoop_at (fun i => wadd data (wmul i BlockSize))
      (fun i => wadd data (wmul (wadd i 1) BlockSize)) mem (PageSize / BlockSize - 1) _ _ i
      (by omega)]
    · rw [wadd_small i 1 (by omega), slot_addr PageSize BlockSize data _ hbs hw hlast]
      have := slot_bound PageSize BlockSize (i + 1) hlast
      exact Nat.mod_eq_of_lt (by omega)
    · intro a ha
      simp only
      rw [slot_addr PageSize BlockSize data a hbs hw (by omega)]
      exact hb64 a (by omega)
    · intro a b ha hb hab
      simp only
      rw [slot_addr PageSize BlockSize data a hbs hw (by omega),
        slot_addr PageSize BlockSize data b hbs hw (by omega)]
      exact hsep a b hab
  · rw [if_neg hlast]
    have : i = PageSize / BlockSize - 1 := by omega
    rw [this, load64_store64_same, Nat.zero_mod]

end dpBlockAllocator

namespace dpBlockAllocator

theorem Chain.frame (mem mem' : Nat → Nat) : ∀ (fl : List Nat) (h : Nat),
    Chain mem h fl → (∀ x ∈ fl, load64 mem' x = load64 mem x) → Chain mem' h fl := by
  intro fl
  induction fl with
  | nil => intro h hc _; exact hc
  | cons x xs ih =>
    intro h hc hm
    obtain ⟨h1, h2, h3⟩ := hc
    refine ⟨h1, h2, ?_⟩
    rw [hm x (List.mem_cons_self _ _)]
    exact ih _ h3 (fun y hy => hm y (List.mem_cons_of_mem _ hy))

theorem Chain.of_ne_zero (mem : Nat → Nat) (h : Nat) (fl : List Nat) (hc : Chain mem h fl)
    (hh : h ≠ 0) : ∃ tl, fl = h :: tl ∧ Chain mem (load64 mem h) tl := by
  cases fl with
  | nil => exact absurd hc hh
  | cons x xs =>
    obtain ⟨h1, _, h3⟩ := hc
    subst h1
    exact ⟨xs, rfl, h3⟩

theorem Chain.of_zero (mem : Nat → Nat) (fl : List Nat) (hc : Chain mem 0 fl) : fl = [] := by
  cases fl with
  | nil => rfl
  | cons x xs =>
    obtain ⟨h1, h2, _⟩ := hc
    exact absurd h1.symm h2

/-- The links the constructor stores chain the slots from position `i` on. -/
theorem chain_linkBlocks (PageSize BlockSize data : Nat) (mem : Nat → Nat)
    (hbs : 0 < BlockSize) (h8 : 8 ∣ BlockSize) (hn : BlockSize ≤ PageSize) (hw : data + PageSize < 2 ^ 64)
    (hd : data ≠ 0) : ∀ k i, i + (k + 1) = PageSize / BlockSize →
    Chain (linkBlocks PageSize BlockSize data mem) (data + i * BlockSize)
      ((List.range' i (k + 1)).map (fun j => data + j * BlockSize)) := by
  intro k
  induction k with
  | zero =>
    intro i hi
    have hne : data + i * BlockSize ≠ 0 := by omega
    refine ⟨rfl, hne, ?_⟩
    rw [linkBlocks_at PageSize BlockSize data mem i hbs h8 hn hw (by omega), if_neg (by omega)]
    exact rfl
  | succ k ih =>
    intro i hi
    rw [List.range'_succ, List.map_cons]
    have hne : data + i * BlockSize ≠ 0 := by omega
    refine ⟨rfl, hne, ?_⟩
    rw [linkBlocks_at PageSize BlockSize data mem i hbs h8 hn hw (by omega), if_pos (by omega)]
    exact ih (i + 1) (by omega)

theorem slots_eq_cons (PageSize BlockSize data : Nat) (hbs : 0 < BlockSize)
    (hn : BlockSize ≤ PageSize) :
    slots PageSize BlockSize data = data ::
      (List.range' 1 (PageSize / BlockSize - 1)).map (fun j => data + j * BlockSize) := by
  obtain ⟨h1, _, _⟩ := blocks_fit PageSize BlockSize hbs hn
  obtain ⟨k, hk⟩ : ∃ k, PageSize / BlockSize = k + 1 := ⟨PageSize / BlockSize - 1, by omega⟩
  unfold slots
  rw [hk, List.range_eq_range', List.range'_succ, List.map_cons]
  simp

theorem slots_nodup (PageSize BlockSize data : Nat) (hbs : 0 < BlockSize) :
    (slots PageSize BlockSize data).Nodup := by
  unfold slots
  refine List.Nodup.map ?_ (List.nodup_range _)
  intro a b h
  simp only at h
  exact Nat.eq_of_mul_eq_mul_right hbs (by omega)

theorem slots_inside (PageSize BlockSize data x : Nat)
    (hx : x ∈ slots PageSize BlockSize data) : data ≤ x ∧ x < data + PageSize := by
  obtain ⟨i, hi, rfl⟩ := List.mem_map.1 hx
  have hi' := List.mem_range.1 hi
  have hb := slot_bound PageSize BlockSize i hi'
  have hpos : 0 < BlockSize := by
    rcases Nat.eq_zero_or_pos BlockSize with h | h
    · rw [h, Nat.div_zero] at hi'; omega
    · exact h
  omega

/-- A block of a page ends inside the page. -/
theorem slots_end (PageSize BlockSize data x : Nat)
    (hx : x ∈ slots PageSize BlockSize data) : data ≤ x ∧ x + BlockSize ≤ data + PageSize := by
  obtain ⟨i, hi, rfl⟩ := List.mem_map.1 hx
  have hb := slot_bound PageSize BlockSize i (List.mem_range.1 hi)
  omega

/-- Two different blocks of one page do not overlap. -/
theorem slots_sep (PageSize BlockSize data x y : Nat)
    (hx : x ∈ slots PageSize BlockSize data) (hy : y ∈ slots PageSize BlockSize data)
    (hxy : x ≠ y) : x + BlockSize ≤ y ∨ y + BlockSize ≤ x := by
  obtain ⟨i, _, rfl⟩ := List.mem_map.1 hx
  obtain ⟨j, _, rfl⟩ := List.mem_map.1 hy
  have hij : i ≠ j := fun h => hxy (by rw [h])
  have := slot_sep BlockSize i j hij
  omega

/-- The head of a free list made of blocks of a page is a pointer value. -/
theorem Chain.head_lt (PageSize BlockSize : Nat) (mem : Nat → Nat) (p : Page) (fl : List Nat)
    (hc : Chain mem p.m_freelist fl) (hw : p.m_data + PageSize < 2 ^ 64)
    (hsub : ∀ x ∈ fl, x ∈ slots PageSize BlockSize p.m_data) : p.m_freelist < 2 ^ 64 := by
  cases fl with
  | nil =>
    have h0 : p.m_freelist = 0 := hc
    rw [h0]
    exact Nat.two_pow_pos 64
  | cons x xs =>
    obtain ⟨h1, _, _⟩ := hc
    have := slots_end PageSize BlockSize p.m_data x (hsub x (List.mem_cons_self _ _))
    omega

theorem inside_iff (PageSize : Nat) (p : Page) (x : Nat) (hw : p.m_data + PageSize < 2 ^ 64) :
    p.isInsideMemory PageSize x = true ↔ p.m_data ≤ x ∧ x < p.m_data + PageSize := by
  simp [Page.isInsideMemory, wadd_small _ _ hw]

theorem not_inside_of_apart (PageSize : Nat) (p q : Page) (x : Nat)
    (hp : p.m_data + PageSize < 2 ^ 64) (hq : q.m_data + PageSize < 2 ^ 64)
    (ha : pagesApart PageSize p q) (hx : p.isInsideMemory PageSize x = true) :
    q.isInsideMemory PageSize x = false := by
  rw [inside_iff PageSize p x hp] at hx
  cases hqx : q.isInsideMemory PageSize x with
  | false => rfl
  | true =>
    rw [inside_iff PageSize q x hq] at hqx
    unfold pagesApart at ha
    omega

theorem liveIn_congr (PageSize : Nat) (live : List Nat) (p q : Page)
    (h : p.m_data = q.m_data) : liveIn PageSize live p = liveIn PageSize live q := by
  unfold liveIn Page.isInsideMemory
  rw [h]

theorem pagesApart_symm (PageSize : Nat) (p q : Page) (h : pagesApart PageSize p q) :
    pagesApart PageSize q p := Or.symm h

/-- In a list of pairwise separated pages, the page at a position is apart from all others. -/
theorem apart_of_pairwise (PageSize : Nat) (pre suf : List Page) (p : Page)
    (h : (pre ++ p :: suf).Pairwise (pagesApart PageSize)) :
    ∀ q, q ∈ pre ∨ q ∈ suf → pagesApart PageSize p q := by
  rw [List.pairwise_append, List.pairwise_cons] at h
  obtain ⟨_, ⟨hps, _⟩, hx⟩ := h
  intro q hq
  rcases hq with hq | hq
  · exact pagesApart_symm _ _ _ (hx q hq p (List.mem_cons_self _ _))
  · exact hps q hq

/-- Replacing the free-list head of one page keeps the pages pairwise separated. -/
theorem pairwise_replace (PageSize : Nat) (pre suf : List Page) (p p' : Page)
    (hd : p'.m_data = p.m_data)
    (h : (pre ++ p :: suf).Pairwise (pagesApart PageSize)) :
    (pre ++ p' :: suf).Pairwise (pagesApart PageSize) := by
  have key : ∀ l : List Page, l.Pairwise (pagesApart PageSize) ↔
      (l.map Page.m_data).Pairwise (fun d e => d + PageSize ≤ e ∨ e + PageSize ≤ d) := by
    intro l
    rw [List.pairwise_map]
    exact Iff.rfl
  rw [key] at h ⊢
  simpa [hd] using h

theorem allocateScan_some (mem : Nat → Nat) : ∀ (ps : List Page) (r : Nat) (ps' : List Page),
    allocateScan mem ps = some (r, ps') →
    ∃ pre p suf, ps = pre ++ p :: suf ∧ p.m_freelist = r ∧ r ≠ 0 ∧
      ps' = pre ++ ⟨p.m_data, load64 mem r⟩ :: suf := by
  intro ps
  induction ps with
  | nil => intro r ps' h; simp [allocateScan] at h
  | cons p ps ih =>
    intro r ps' h
    by_cases hf : p.m_freelist = 0
    · have hpa : p.allocate mem = (0, p) := by simp [Page.allocate, hf]
      simp only [allocateScan, hpa, ne_eq, not_true_eq_false, if_false] at h
      cases hs : allocateScan mem ps with
      | none => simp [hs] at h
      | some res =>
        obtain ⟨r1, ps1⟩ := res
        simp only [hs, Option.map_some', Option.some.injEq, Prod.mk.injEq] at h
        obtain ⟨pre, q, suf, e1, e2, e3, e4⟩ := ih r1 ps1 hs
        refine ⟨p :: pre, q, suf, by simp [e1], by rw [e2]; exact h.1, by rw [← h.1]; exact e3, ?_⟩
        rw [← h.2, e4, ← h.1]
        rfl
    · have hpa : p.allocate mem = (p.m_freelist, ⟨p.m_data, load64 mem p.m_freelist⟩) := by
        simp [Page.allocate, hf]
      simp only [allocateScan, hpa, ne_eq, hf, not_false_eq_true, if_true, Option.some.injEq,
        Prod.mk.injEq] at h
      refine ⟨[], p, ps, rfl, h.1, by rw [← h.1]; exact hf, ?_⟩
      rw [← h.2, ← h.1]
      rfl

theorem deallocateScan_some (PageSize : Nat) (mem : Nat → Nat) (v : Nat) :
    ∀ (ps : List Page), (∃ p ∈ ps, p.isInsideMemory PageSize v = true) →
    ∃ pre p suf, ps = pre ++ p :: suf ∧ p.isInsideMemory PageSize v = true ∧
      deallocateScan PageSize mem v ps =
        some ((p.deallocate PageSize mem v).2.1, pre ++ (p.deallocate PageSize mem v).2.2 :: suf) := by
  intro ps
  induction ps with
  | nil => intro h; obtain ⟨p, hp, _⟩ := h; simp at hp
  | cons p ps ih =>
    intro h
    by_cases hin : p.isInsideMemory PageSize v = true
    · exact ⟨[], p, ps, rfl, hin, by simp [deallocateScan, hin]⟩
    · have hex : ∃ q ∈ ps, q.isInsideMemory PageSize v = true := by
        obtain ⟨q, hq, hqv⟩ := h
        rcases List.mem_cons.1 hq with rfl | hq
        · exact absurd hqv hin
        · exact ⟨q, hq, hqv⟩
      obtain ⟨pre, q, suf, e1, e2, e3⟩ := ih hex
      refine ⟨p :: pre, q, suf, by simp [e1], e2, ?_⟩
      simp [deallocateScan, hin, e3]

theorem deallocateScan_none (PageSize : Nat) (mem : Nat → Nat) (v : Nat) :
    ∀ (ps : List Page), (∀ p ∈ ps, p.isInsideMemory PageSize v = false) →
    deallocateScan PageSize mem v ps = none := by
  intro ps
  induction ps with
  | nil => intro _; rfl
  | cons p ps ih =>
    intro h
    simp [deallocateScan, h p (List.mem_cons_self _ _),
      ih (fun q hq => h q (List.mem_cons_of_mem _ hq))]

end dpBlockAllocator

namespace dpBlockAllocator

theorem liveIn_cons_inside (PageSize : Nat) (live : List Nat) (p : Page) (x : Nat)
    (h : p.isInsideMemory PageSize x = true) :
    liveIn PageSize (x :: live) p = x :: liveIn PageSize live p := by
  simp [liveIn, h]

theorem liveIn_cons_outside (PageSize : Nat) (live : List Nat) (p : Page) (x : Nat)
    (h : p.isInsideMemory PageSize x = false) :
    liveIn PageSize (x :: live) p = liveIn PageSize live p := by
  simp [liveIn, h]

theorem liveIn_filter (PageSize : Nat) (live : List Nat) (p : Page) (v : Nat) :
    liveIn PageSize (live.filter (fun x => x != v)) p
      = (liveIn PageSize live p).filter (fun x => x != v) := by
  simp only [liveIn, List.filter_filter]
  congr 1
  funext x
  exact Bool.and_comm _ _

/-- Blocks of a page's free list lie in the page. -/
theorem free_inside {PageSize BlockSize : Nat} {live : List Nat} {p : Page} {fl : List Nat}
    (hperm : (fl ++ liveIn PageSize live p).Perm (slots PageSize BlockSize p.m_data))
    (hw : p.m_data + PageSize < 2 ^ 64) :
    ∀ x ∈ fl, p.isInsideMemory PageSize x = true := by
  intro x hx
  have hs : x ∈ slots PageSize BlockSize p.m_data :=
    hperm.subset (List.mem_append_left _ hx)
  exact (inside_iff PageSize p x hw).2 (slots_inside PageSize BlockSize p.m_data x hs)

/-- The invariant survives an `allocate()` served by an existing page. -/
theorem inv_alloc_scan (PageSize BlockSize : Nat) (t : Tracked) (r : Nat) (ps' : List Page)
    (hinv : Inv PageSize BlockSize t)
    (hs : allocateScan t.st.mem t.st.m_pages = some (r, ps')) :
    Inv PageSize BlockSize ⟨{ t.st with m_pages := ps' }, r :: t.live⟩ := by
  obtain ⟨pre, p, suf, e1, e2, e3, e4⟩ := allocateScan_some _ _ _ _ hs
  have hpmem : p ∈ t.st.m_pages := by rw [e1]; simp
  have hpok := hinv.pages p hpmem
  obtain ⟨fl, hch, hperm⟩ := hpok.part
  rw [e2] at hch
  obtain ⟨tl, hfl, htl⟩ := Chain.of_ne_zero _ _ _ hch e3
  have hrin : p.isInsideMemory PageSize r = true :=
    free_inside hperm hpok.nowrap r (by rw [hfl]; exact List.mem_cons_self _ _)
  have hap := apart_of_pairwise PageSize pre suf p (by rw [← e1]; exact hinv.apart)
  have hother : ∀ q, q ∈ pre ∨ q ∈ suf →
      PageOK PageSize BlockSize t.st.mem (r :: t.live) q := by
    intro q hq
    have hqmem : q ∈ t.st.m_pages := by
      rw [e1]; rcases hq with h | h <;> simp [h]
    have hqok := hinv.pages q hqmem
    have hout := not_inside_of_apart PageSize p q r hpok.nowrap hqok.nowrap (hap q hq) hrin
    refine ⟨hqok.nonnull, hqok.nowrap, ?_⟩
    rw [liveIn_cons_outside PageSize t.live q r hout]
    exact hqok.part
  have hnew : PageOK PageSize BlockSize t.st.mem (r :: t.live) ⟨p.m_data, load64 t.st.mem r⟩ := by
    refine ⟨hpok.nonnull, hpok.nowrap, tl, htl, ?_⟩
    have hc : liveIn PageSize (r :: t.live) ⟨p.m_data, load64 t.st.mem r⟩
        = r :: liveIn PageSize t.live p := by
      rw [liveIn_congr PageSize (r :: t.live) ⟨p.m_data, load64 t.st.mem r⟩ p rfl]
      exact liveIn_cons_inside PageSize t.live p r hrin
    rw [hc]
    rw [hfl] at hperm
    exact (List.perm_middle).trans hperm
  refine ⟨?_, ?_, ?_⟩
  · intro q hq
    simp only [e4, List.mem_append, List.mem_cons] at hq
    rcases hq with h | h | h
    · exact hother q (Or.inl h)
    · rw [h]; exact hnew
    · exact hother q (Or.inr h)
  · simp only [e4]
    exact pairwise_replace PageSize pre suf p ⟨p.m_data, load64 t.st.mem r⟩ rfl
      (by rw [← e1]; exact hinv.apart)
  · intro x hx
    simp only [e4]
    rcases List.mem_cons.1 hx with rfl | hx
    · exact ⟨⟨p.m_data, load64 t.st.mem x⟩, by simp, hrin⟩
    · obtain ⟨q, hq, hqx⟩ := hinv.owned x hx
      rw [e1] at hq
      simp only [List.mem_append, List.mem_cons] at hq
      rcases hq with h | h | h
      · exact ⟨q, by simp [h], hqx⟩
      · refine ⟨⟨p.m_data, load64 t.st.mem r⟩, by simp, ?_⟩
        rw [h] at hqx
        exact hqx
      · exact ⟨q, by simp [h], hqx⟩

/-- The invariant survives an `allocate()` that has to make a page, `malloc` returning a
fresh region. -/
theorem inv_alloc_new (PageSize BlockSize : Nat) (t : Tracked) (m : Nat)
    (hbs : 0 < BlockSize) (h8 : 8 ∣ BlockSize) (hn : BlockSize ≤ PageSize)
    (hinv : Inv PageSize BlockSize t) (hfresh : FreshRegion PageSize t.st.m_pages m) :
    Inv PageSize BlockSize
      ⟨⟨t.st.m_pages ++ [⟨m, load64 (linkBlocks PageSize BlockSize m t.st.mem) m⟩],
        linkBlocks PageSize BlockSize m t.st.mem⟩, m :: t.live⟩ := by
  obtain ⟨hm0, hmw, hmap⟩ := hfresh
  have hmin : ∀ f, Page.isInsideMemory PageSize ⟨m, f⟩ m = true := by
    intro f
    rw [inside_iff PageSize ⟨m, f⟩ m hmw]
    simp only
    omega
  have hold : ∀ q ∈ t.st.m_pages, ∀ f, pagesApart PageSize q ⟨m, f⟩ := by
    intro q hq f
    exact hmap q hq
  have hpages_old : ∀ q ∈ t.st.m_pages, PageOK PageSize BlockSize
      (linkBlocks PageSize BlockSize m t.st.mem) (m :: t.live) q := by
    intro q hq
    have hqok := hinv.pages q hq
    obtain ⟨fl, hch, hperm⟩ := hqok.part
    have hout : q.isInsideMemory PageSize m = false :=
      not_inside_of_apart PageSize ⟨m, 0⟩ q m hmw hqok.nowrap
        (pagesApart_symm _ _ _ (hold q hq 0)) (hmin 0)
    refine ⟨hqok.nonnull, hqok.nowrap, fl, ?_, ?_⟩
    · apply Chain.frame t.st.mem _ fl _ hch
      intro x hx
      have hxs := slots_end PageSize BlockSize q.m_data x
        (hperm.subset (List.mem_append_left _ hx))
      have hge := block_ge_8 BlockSize hbs h8
      have hqw := hqok.nowrap
      have hqm := hmap q hq
      exact linkBlocks_outside PageSize BlockSize m t.st.mem x hbs h8 hn hmw (by omega)
        (by omega)
    · rw [liveIn_cons_outside PageSize t.live q m hout]
      exact hperm
  have hlive_new : ∀ f, liveIn PageSize t.live ⟨m, f⟩ = [] := by
    intro f
    unfold liveIn
    rw [List.filter_eq_nil_iff]
    intro x hx hin
    obtain ⟨q, hq, hqx⟩ := hinv.owned x hx
    have := not_inside_of_apart PageSize q ⟨m, f⟩ x (hinv.pages q hq).nowrap hmw
      (hold q hq f) hqx
    rw [hin] at this
    exact absurd this (by decide)
  have hnewpage : PageOK PageSize BlockSize (linkBlocks PageSize BlockSize m t.st.mem)
      (m :: t.live) ⟨m, load64 (linkBlocks PageSize BlockSize m t.st.mem) m⟩ := by
    obtain ⟨h1, _, _⟩ := blocks_fit PageSize BlockSize hbs hn
    obtain ⟨k, hk⟩ : ∃ k, PageSize / BlockSize = k + 1 :=
      ⟨PageSize / BlockSize - 1, by omega⟩
    have hchain := chain_linkBlocks PageSize BlockSize m t.st.mem hbs h8 hn hmw hm0 k 0
      (by omega)
    have hsl : slots PageSize BlockSize m
        = (List.range' 0 (k + 1)).map (fun j => m + j * BlockSize) := by
      unfold slots
      rw [hk, List.range_eq_range']
    rw [← hsl] at hchain
    simp only [Nat.zero_mul, Nat.add_zero] at hchain
    obtain ⟨tl, htl, hctl⟩ := Chain.of_ne_zero _ _ _ hchain hm0
    refine ⟨hm0, hmw, tl, hctl, ?_⟩
    rw [liveIn_cons_inside PageSize t.live _ m (hmin _), hlive_new]
    show (tl ++ [m]).Perm (slots PageSize BlockSize m)
    rw [htl]
    exact List.perm_append_comm
  refine ⟨?_, ?_, ?_⟩
  · intro q hq
    simp only [List.mem_append, List.mem_singleton] at hq
    rcases hq with h | h
    · exact hpages_old q h
    · rw [h]; exact hnewpage
  · show (t.st.m_pages ++ [_]).Pairwise (pagesApart PageSize)
    rw [List.pairwise_append]
    refine ⟨hinv.apart, List.pairwise_singleton _ _, ?_⟩
    intro a ha b hb
    rw [List.mem_singleton.1 hb]
    exact hold a ha _
  · intro x hx
    rcases List.mem_cons.1 hx with rfl | hx
    · exact ⟨⟨x, load64 (linkBlocks PageSize BlockSize x t.st.mem) x⟩, by simp, hmin _⟩
    · obtain ⟨q, hq, hqx⟩ := hinv.owned x hx
      exact ⟨q, by simp [hq], hqx⟩

end dpBlockAllocator

namespace dpBlockAllocator

/-- A `deallocate(v)` of a pointer that lies in no page changes nothing. -/
theorem inv_dealloc_foreign (PageSize BlockSize : Nat) (t : Tracked) (v : Nat)
    (hinv : Inv PageSize BlockSize t)
    (hv : ∀ p ∈ t.st.m_pages, p.isInsideMemory PageSize v = false) :
    Inv PageSize BlockSize (stepOp PageSize BlockSize t (.dealloc v)) := by
  have hscan := deallocateScan_none PageSize t.st.mem v t.st.m_pages hv
  have hlive : t.live.filter (fun x => x != v) = t.live := by
    rw [List.filter_eq_self]
    intro x hx
    obtain ⟨p, hp, hpx⟩ := hinv.owned x hx
    have hxv : x ≠ v := by
      intro h
      rw [h, hv p hp] at hpx
      exact absurd hpx (by decide)
    simpa using hxv
  have hstep : stepOp PageSize BlockSize t (.dealloc v) = t := by
    simp [stepOp, deallocate, hscan, hlive]
  rw [hstep]
  exact hinv

/-- The invariant survives a `deallocate(v)` of a live block. -/
theorem inv_dealloc (PageSize BlockSize : Nat) (t : Tracked) (v : Nat)
    (hbs : 0 < BlockSize) (h8 : 8 ∣ BlockSize) (hinv : Inv PageSize BlockSize t) (hv : v ∈ t.live) :
    Inv PageSize BlockSize (stepOp PageSize BlockSize t (.dealloc v)) := by
  obtain ⟨pre, p, suf, e1, hin, hscan⟩ :=
    deallocateScan_some PageSize t.st.mem v t.st.m_pages (hinv.owned v hv)
  have hpmem : p ∈ t.st.m_pages := by rw [e1]; simp
  have hpok := hinv.pages p hpmem
  have hv0 : v ≠ 0 := by
    have := (inside_iff PageSize p v hpok.nowrap).1 hin
    have := hpok.nonnull
    omega
  have hdeal : p.deallocate PageSize t.st.mem v
      = (true, store64 t.st.mem v p.m_freelist, ⟨p.m_data, v⟩) := by
    simp [Page.deallocate, hv0, hin]
  rw [hdeal] at hscan
  have hstep : stepOp PageSize BlockSize t (.dealloc v)
      = ⟨⟨pre ++ ⟨p.m_data, v⟩ :: suf, store64 t.st.mem v p.m_freelist⟩,
          t.live.filter (fun x => x != v)⟩ := by
    simp [stepOp, deallocate, hscan]
  rw [hstep]
  obtain ⟨fl, hch, hperm⟩ := hpok.part
  have hvlive : v ∈ liveIn PageSize t.live p := by
    unfold liveIn
    exact List.mem_filter.2 ⟨hv, hin⟩
  have hnd : (fl ++ liveIn PageSize t.live p).Nodup :=
    hperm.nodup_iff.2 (slots_nodup PageSize BlockSize p.m_data hbs)
  have hvfl : v ∉ fl := fun h => (List.nodup_append.1 hnd).2.2 h hvlive
  have hge := block_ge_8 BlockSize hbs h8
  have hpw := hpok.nowrap
  have hvs := slots_end PageSize BlockSize p.m_data v
    (hperm.subset (List.mem_append_right _ hvlive))
  have hap := apart_of_pairwise PageSize pre suf p (by rw [← e1]; exact hinv.apart)
  have hother : ∀ q, q ∈ pre ∨ q ∈ suf →
      PageOK PageSize BlockSize (store64 t.st.mem v p.m_freelist)
        (t.live.filter (fun x => x != v)) q := by
    intro q hq
    have hqmem : q ∈ t.st.m_pages := by
      rw [e1]; rcases hq with h | h <;> simp [h]
    have hqok := hinv.pages q hqmem
    have hout := not_inside_of_apart PageSize p q v hpok.nowrap hqok.nowrap (hap q hq) hin
    obtain ⟨flq, hchq, hpermq⟩ := hqok.part
    refine ⟨hqok.nonnull, hqok.nowrap, flq, ?_, ?_⟩
    · apply Chain.frame t.st.mem _ flq _ hchq
      intro x hx
      have hxs := slots_end PageSize BlockSize q.m_data x
        (hpermq.subset (List.mem_append_left _ hx))
      have hqw := hqok.nowrap
      have hpq : pagesApart PageSize p q := hap q hq
      unfold pagesApart at hpq
      exact load64_store64_apart _ _ _ _ (by omega) (by omega) (by omega)
    · rw [liveIn_filter]
      have : (liveIn PageSize t.live q).filter (fun x => x != v) = liveIn PageSize t.live q := by
        rw [List.filter_eq_self]
        intro x hx
        have hxin : q.isInsideMemory PageSize x = true := (List.mem_filter.1 hx).2
        have hxv : x ≠ v := by
          intro h
          rw [h, hout] at hxin
          exact absurd hxin (by decide)
        simpa using hxv
      rw [this]
      exact hpermq
  have hnew : PageOK PageSize BlockSize (store64 t.st.mem v p.m_freelist)
      (t.live.filter (fun x => x != v)) ⟨p.m_data, v⟩ := by
    refine ⟨hpok.nonnull, hpok.nowrap, v :: fl, ⟨rfl, hv0, ?_⟩, ?_⟩
    · rw [load64_store64_same, Nat.mod_eq_of_lt (Chain.head_lt PageSize BlockSize _ p fl hch
        hpw (fun x hx => hperm.subset (List.mem_append_left _ hx)))]
      apply Chain.frame t.st.mem _ fl _ hch
      intro x hx
      have hxv : x ≠ v := by
        intro h
        rw [h] at hx
        exact hvfl hx
      have hxs := slots_end PageSize BlockSize p.m_data x
        (hperm.subset (List.mem_append_left _ hx))
      have hsep := slots_sep PageSize BlockSize p.m_data x v
        (hperm.subset (List.mem_append_left _ hx))
        (hperm.subset (List.mem_append_right _ hvlive)) hxv
      exact load64_store64_apart _ _ _ _ (by omega) (by omega) (by omega)
    · rw [liveIn_filter, liveIn_congr PageSize t.live ⟨p.m_data, v⟩ p rfl]
      have hlnd : (liveIn PageSize t.live p).Nodup := (List.nodup_append.1 hnd).2.1
      have he : (liveIn PageSize t.live p).filter (fun x => x != v)
          = (liveIn PageSize t.live p).erase v := (List.Nodup.erase_eq_filter hlnd v).symm
      rw [he]
      have h1 : (liveIn PageSize t.live p).Perm (v :: (liveIn PageSize t.live p).erase v) :=
        List.perm_cons_erase hvlive
      have h2 : (fl ++ v :: (liveIn PageSize t.live p).erase v).Perm
          (fl ++ liveIn PageSize t.live p) := (List.Perm.append_left fl h1).symm
      exact ((List.perm_middle).symm.trans h2).trans hperm
  refine ⟨?_, ?_, ?_⟩
  · intro q hq
    simp only [List.mem_append, List.mem_cons] at hq
    rcases hq with h | h | h
    · exact hother q (Or.inl h)
    · rw [h]; exact hnew
    · exact hother q (Or.inr h)
  · exact pairwise_replace PageSize pre suf p ⟨p.m_data, v⟩ rfl
      (by rw [← e1]; exact hinv.apart)
  · intro x hx
    have hx' : x ∈ t.live := (List.mem_filter.1 hx).1
    obtain ⟨q, hq, hqx⟩ := hinv.owned x hx'
    rw [e1] at hq
    simp only [List.mem_append, List.mem_cons] at hq
    rcases hq with h | h | h
    · exact ⟨q, by simp [h], hqx⟩
    · refine ⟨⟨p.m_data, v⟩, by simp, ?_⟩
      rw [h] at hqx
      exact hqx
    · exact ⟨q, by simp [h], hqx⟩

/-- The invariant survives every well-formed call. -/
theorem inv_step (PageSize BlockSize : Nat) (t : Tracked) (op : Op)
    (hbs : 0 < BlockSize) (h8 : 8 ∣ BlockSize) (hn : BlockSize ≤ PageSize)
    (hinv : Inv PageSize BlockSize t) (hwf : WellFormedOp PageSize t op) :
    Inv PageSize BlockSize (stepOp PageSize BlockSize t op) := by
  cases op with
  | dealloc v =>
    rcases hwf with h | h
    · exact inv_dealloc PageSize BlockSize t v hbs h8 hinv h
    · exact inv_dealloc_foreign PageSize BlockSize t v hinv h
  | alloc m =>
    cases hs : allocateScan t.st.mem t.st.m_pages with
    | some res =>
      obtain ⟨r, ps'⟩ := res
      have := inv_alloc_scan PageSize BlockSize t r ps' hinv hs
      simpa [stepOp, allocate, hs] using this
    | none =>
      have hfresh : FreshRegion PageSize t.st.m_pages m := hwf hs
      have := inv_alloc_new PageSize BlockSize t m hbs h8 hn hinv hfresh
      simpa [stepOp, allocate, hs, Page.create, Page.allocate, hfresh.1] using this

theorem inv_init (PageSize BlockSize : Nat) (mem0 : Nat → Nat) :
    Inv PageSize BlockSize ⟨⟨[], mem0⟩, []⟩ :=
  ⟨fun _ h => by simp at h, List.Pairwise.nil, fun _ h => by simp at h⟩

/-- The invariant holds after every well-formed sequence of calls. -/
theorem inv_run (PageSize BlockSize : Nat) (hbs : 0 < BlockSize) (h8 : 8 ∣ BlockSize)
    (hn : BlockSize ≤ PageSize) :
    ∀ (ops : List Op) (t : Tracked), Inv PageSize BlockSize t →
    WellFormed PageSize BlockSize t ops → Inv PageSize BlockSize (runOps PageSize BlockSize t ops) := by
  intro ops
  induction ops with
  | nil => intro t h _; exact h
  | cons op ops ih =>
    intro t h hwf
    exact ih _ (inv_step PageSize BlockSize t op hbs h8 hn h hwf.1) hwf.2

/-- Under the invariant no live block occurs twice. -/
theorem live_nodup_of_inv (PageSize BlockSize : Nat) (t : Tracked) (hbs : 0 < BlockSize)
    (hinv : Inv PageSize BlockSize t) : t.live.Nodup := by
  rw [List.nodup_iff_count_le_one]
  intro x
  by_cases hx : x ∈ t.live
  · obtain ⟨p, hp, hpx⟩ := hinv.owned x hx
    obtain ⟨fl, _, hperm⟩ := (hinv.pages p hp).part
    have hnd : (fl ++ liveIn PageSize t.live p).Nodup :=
      hperm.nodup_iff.2 (slots_nodup PageSize BlockSize p.m_data hbs)
    have hlnd : (liveIn PageSize t.live p).Nodup := (List.nodup_append.1 hnd).2.1
    have hc := List.nodup_iff_count_le_one.1 hlnd x
    have : List.count x (liveIn PageSize t.live p) = List.count x t.live := by
      unfold liveIn
      exact List.count_filter hpx
    omega
  · rw [List.count_eq_zero_of_not_mem hx]
    omega

end dpBlockAllocator

namespace dpBlockAllocator

/-- Claim C3 (counterexample). On a new `dpBlockAllocator<4096, 64>`: `allocate()` returns
`0x10000`; it is deallocated twice, which makes the block its own successor in the free
list; the next two `allocate()` calls both return `0x10000`. The two live blocks are the
same address, and the last call returned a block that was live. -/
theorem double_free_aliases :
    (runOps 4096 64 ⟨State.init, []⟩ doubleFree).live = [0x10000, 0x10000] ∧
    ¬ (runOps 4096 64 ⟨State.init, []⟩ doubleFree).live.Nodup ∧
    nextBlock 4096 64 (doubleFree.take 4) 0x20000
      ∈ (runOps 4096 64 ⟨State.init, []⟩ (doubleFree.take 4)).live := by
  decide

/-- Claim C3 (amended). No aliasing under well-formed use: for every block size that is a
positive multiple of the pointer size (8 bytes, so that `sizeof(Block)` is the block size)
and every page size with at least one block per page, whatever the memory holds to begin
with, and every finite sequence of `allocate()` and `deallocate(ptr)` calls on a new
BlockAllocator in which each `deallocate` is given a block that is live at that moment or a
pointer that lies in no page (and `malloc` returns fresh memory for each new page), the
live blocks are pairwise distinct addresses, and an `allocate()` made next returns a block
that is not live. -/
theorem live_blocks_distinct (PageSize BlockSize : Nat) (hbs : 0 < BlockSize)
    (h8 : 8 ∣ BlockSize) (hn : BlockSize ≤ PageSize) (mem0 : Nat → Nat) (ops : List Op)
    (hwf : WellFormed PageSize BlockSize ⟨⟨[], mem0⟩, []⟩ ops) :
    (runOps PageSize BlockSize ⟨⟨[], mem0⟩, []⟩ ops).live.Nodup ∧
    ∀ m, WellFormedOp PageSize (runOps PageSize BlockSize ⟨⟨[], mem0⟩, []⟩ ops) (.alloc m) →
      (allocate PageSize BlockSize m (runOps PageSize BlockSize ⟨⟨[], mem0⟩, []⟩ ops).st).1
        ∉ (runOps PageSize BlockSize ⟨⟨[], mem0⟩, []⟩ ops).live := by
  have hinv := inv_run PageSize BlockSize hbs h8 hn ops _ (inv_init PageSize BlockSize mem0) hwf
  refine ⟨live_nodup_of_inv PageSize BlockSize _ hbs hinv, ?_⟩
  intro m hm
  have hnext := inv_step PageSize BlockSize _ (.alloc m) hbs h8 hn hinv hm
  have hnd := live_nodup_of_inv PageSize BlockSize _ hbs hnext
  exact (List.nodup_cons.1 hnd).1

set_option maxRecDepth 20000 in
/-- Instance of C3 (amended): on `dpBlockAllocator<4096, 64>`, two allocations, the first
block freed, a rejected `deallocate`, two more allocations; the live blocks are `0x10080`,
`0x10000`, `0x10040`. -/
theorem live_blocks_distinct_witness :
    (runOps 4096 64 ⟨State.init, []⟩ reuseOps).live = [0x10080, 0x10000, 0x10040] ∧
    ((runOps 4096 64 ⟨State.init, []⟩ reuseOps).live.Nodup ∧
    ∀ m, WellFormedOp 4096 (runOps 4096 64 ⟨State.init, []⟩ reuseOps) (.alloc m) →
      nextBlock 4096 64 reuseOps m ∉ (runOps 4096 64 ⟨State.init, []⟩ reuseOps).live) :=
  ⟨by decide,
    live_blocks_distinct 4096 64 (by decide) (by decide) (by decide) (fun _ => 0) reuseOps
      (by decide)⟩

end dpBlockAllocator

namespace dpBlockAllocator

theorem runOps_append (PageSize BlockSize : Nat) (t : Tracked) (ops1 ops2 : List Op) :
    runOps PageSize BlockSize t (ops1 ++ ops2)
      = runOps PageSize BlockSize (runOps PageSize BlockSize t ops1) ops2 := by
  simp [runOps, List.foldl_append]

theorem allocateScan_full (mem : Nat → Nat) : ∀ (ps : List Page),
    (∀ p ∈ ps, p.m_freelist = 0) → allocateScan mem ps = none := by
  intro ps
  induction ps with
  | nil => intro _; rfl
  | cons p ps ih =>
    intro h
    have hp : p.m_freelist = 0 := h p (List.mem_cons_self _ _)
    simp [allocateScan, Page.allocate, hp, ih (fun q hq => h q (List.mem_cons_of_mem _ hq))]

theorem allocateScan_last (mem : Nat → Nat) (q : Page) (hq : q.m_freelist ≠ 0) :
    ∀ (ps : List Page), (∀ p ∈ ps, p.m_freelist = 0) →
    allocateScan mem (ps ++ [q])
      = some (q.m_freelist, ps ++ [⟨q.m_data, load64 mem q.m_freelist⟩]) := by
  intro ps
  induction ps with
  | nil => intro _; simp [allocateScan, Page.allocate, hq]
  | cons p ps ih =>
    intro h
    have hp : p.m_freelist = 0 := h p (List.mem_cons_self _ _)
    simp [allocateScan, Page.allocate, hp, ih (fun q hq => h q (List.mem_cons_of_mem _ hq))]

/-- One more `allocate()` from a last page that has handed out `i` of its blocks, `0 < i < n`,
all earlier pages being exhausted. -/
theorem alloc_from_last (PageSize BlockSize : Nat) (hbs : 0 < BlockSize)
    (h8 : 8 ∣ BlockSize) (hn : BlockSize ≤ PageSize) (full : List Page) (mem0 : Nat → Nat)
    (live : List Nat)
    (m i x : Nat) (hm : GoodMalloc PageSize m) (hfull : ∀ p ∈ full, p.m_freelist = 0)
    (hi : i < PageSize / BlockSize) :
    stepOp PageSize BlockSize
        ⟨⟨full ++ [⟨m, nextPtr PageSize BlockSize m i⟩], linkBlocks PageSize BlockSize m mem0⟩,
          live⟩ (.alloc x)
      = ⟨⟨full ++ [⟨m, nextPtr PageSize BlockSize m (i + 1)⟩],
          linkBlocks PageSize BlockSize m mem0⟩, (m + i * BlockSize) :: live⟩ := by
  have hnp : nextPtr PageSize BlockSize m i = m + i * BlockSize := by
    simp [nextPtr, hi]
  have hne : m + i * BlockSize ≠ 0 := by
    have := hm.1
    omega
  have hscan := allocateScan_last (linkBlocks PageSize BlockSize m mem0)
    ⟨m, m + i * BlockSize⟩ hne full hfull
  have hat := linkBlocks_at PageSize BlockSize m mem0 i hbs h8 hn hm.2 hi
  simp only [stepOp, allocate, hnp, hscan]
  simp only [hat, nextPtr]

/-- An `allocate()` when every page is exhausted makes a page at the address `malloc`
returns and hands out its first block. -/
theorem alloc_new_page (PageSize BlockSize : Nat) (hbs : 0 < BlockSize)
    (h8 : 8 ∣ BlockSize) (hn : BlockSize ≤ PageSize) (st : State) (live : List Nat) (m : Nat)
    (hm : GoodMalloc PageSize m) (hfull : ∀ p ∈ st.m_pages, p.m_freelist = 0) :
    stepOp PageSize BlockSize ⟨st, live⟩ (.alloc m)
      = ⟨⟨st.m_pages ++ [⟨m, nextPtr PageSize BlockSize m 1⟩],
          linkBlocks PageSize BlockSize m st.mem⟩, m :: live⟩ := by
  obtain ⟨h1, _, _⟩ := blocks_fit PageSize BlockSize hbs hn
  have hscan := allocateScan_full st.mem st.m_pages hfull
  have hat := linkBlocks_at PageSize BlockSize m st.mem 0 hbs h8 hn hm.2 (by omega)
  simp only [Nat.zero_mul, Nat.add_zero, Nat.zero_add] at hat
  simp only [stepOp, allocate, hscan, Page.create, Page.allocate, ne_eq, hm.1,
    not_false_eq_true, if_true, hat, nextPtr]

/-- Consecutive allocations from the last page: `c` more calls hand out the blocks
`i, .., i+c-1` of that page, newest first in the list of live blocks. -/
theorem allocs_from_last (PageSize BlockSize : Nat) (hbs : 0 < BlockSize)
    (h8 : 8 ∣ BlockSize) (hn : BlockSize ≤ PageSize) (full : List Page) (mem0 : Nat → Nat)
    (m : Nat)
    (hm : GoodMalloc PageSize m) (hfull : ∀ p ∈ full, p.m_freelist = 0) :
    ∀ (ms : List Nat) (i : Nat) (live : List Nat), i + ms.length ≤ PageSize / BlockSize →
    runOps PageSize BlockSize
        ⟨⟨full ++ [⟨m, nextPtr PageSize BlockSize m i⟩], linkBlocks PageSize BlockSize m mem0⟩,
          live⟩ (allocs ms)
      = ⟨⟨full ++ [⟨m, nextPtr PageSize BlockSize m (i + ms.length)⟩],
          linkBlocks PageSize BlockSize m mem0⟩,
          ((List.range' i ms.length).map (fun j => m + j * BlockSize)).reverse ++ live⟩ := by
  intro ms
  induction ms with
  | nil => intro i live _; simp [allocs, runOps]
  | cons x ms ih =>
    intro i live hi
    simp only [List.length_cons] at hi
    have hstep := alloc_from_last PageSize BlockSize hbs h8 hn full mem0 live m i x hm hfull
      (by omega)
    have hrun : runOps PageSize BlockSize
        ⟨⟨full ++ [⟨m, nextPtr PageSize BlockSize m i⟩],
          linkBlocks PageSize BlockSize m mem0⟩, live⟩ (allocs (x :: ms))
        = runOps PageSize BlockSize (stepOp PageSize BlockSize
          ⟨⟨full ++ [⟨m, nextPtr PageSize BlockSize m i⟩],
            linkBlocks PageSize BlockSize m mem0⟩, live⟩ (.alloc x)) (allocs ms) := by
      simp [allocs, runOps]
    rw [hrun, hstep, ih (i + 1) _ (by omega)]
    simp only [List.length_cons, List.range'_succ, List.map_cons, List.reverse_cons,
      List.append_assoc, List.singleton_append]
    rw [show i + 1 + ms.length = i + (ms.length + 1) by omega]

/-- Filling a page: from a state in which every page is exhausted, up to `n` consecutive
allocations make exactly one page, at the address `malloc` returns first, and hand out its
blocks in address order. -/
theorem allocs_chunk (PageSize BlockSize : Nat) (hbs : 0 < BlockSize)
    (h8 : 8 ∣ BlockSize) (hn : BlockSize ≤ PageSize) (st : State) (live : List Nat) (m : Nat)
    (ms : List Nat)
    (hm : GoodMalloc PageSize m) (hfull : ∀ p ∈ st.m_pages, p.m_freelist = 0)
    (hlen : 1 + ms.length ≤ PageSize / BlockSize) :
    runOps PageSize BlockSize ⟨st, live⟩ (allocs (m :: ms))
      = ⟨⟨st.m_pages ++ [⟨m, nextPtr PageSize BlockSize m (1 + ms.length)⟩],
          linkBlocks PageSize BlockSize m st.mem⟩,
          ((List.range (1 + ms.length)).map (fun j => m + j * BlockSize)).reverse ++ live⟩ := by
  have hrun : runOps PageSize BlockSize ⟨st, live⟩ (allocs (m :: ms))
      = runOps PageSize BlockSize (stepOp PageSize BlockSize ⟨st, live⟩ (.alloc m))
          (allocs ms) := by
    simp [allocs, runOps]
  rw [hrun, alloc_new_page PageSize BlockSize hbs h8 hn st live m hm hfull,
    allocs_from_last PageSize BlockSize hbs h8 hn st.m_pages st.mem m hm hfull ms 1 _ hlen]
  have hr : List.range (1 + ms.length) = 0 :: List.range' 1 ms.length := by
    rw [List.range_eq_range', Nat.add_comm, List.range'_succ]
  rw [hr]
  simp

end dpBlockAllocator

namespace dpBlockAllocator

theorem nextPtr_full (PageSize BlockSize m : Nat) :
    nextPtr PageSize BlockSize m (PageSize / BlockSize) = 0 := by
  simp [nextPtr]

/-- Page count of a run of allocations from a state in which every page is exhausted:
`k` calls add `ceil(k / n)` pages. -/
theorem allocs_page_count (PageSize BlockSize : Nat) (hbs : 0 < BlockSize)
    (h8 : 8 ∣ BlockSize) (hn : BlockSize ≤ PageSize) :
    ∀ (k : Nat) (ms : List Nat) (st : State) (live : List Nat),
    ms.length = k → (∀ m ∈ ms, GoodMalloc PageSize m) →
    (∀ p ∈ st.m_pages, p.m_freelist = 0) →
    (runOps PageSize BlockSize ⟨st, live⟩ (allocs ms)).st.m_pages.length
      = st.m_pages.length + (k + PageSize / BlockSize - 1) / (PageSize / BlockSize) := by
  obtain ⟨h1, _, _⟩ := blocks_fit PageSize BlockSize hbs hn
  intro k
  induction k using Nat.strong_induction_on with
  | _ k ih =>
    intro ms st live hlen hgood hfull
    rcases Nat.eq_zero_or_pos k with hk | hk
    · subst hk
      have : ms = [] := List.length_eq_zero.1 hlen
      subst this
      have hz : (PageSize / BlockSize - 1) / (PageSize / BlockSize) = 0 :=
        Nat.div_eq_of_lt (by omega)
      simp [allocs, runOps, hz]
    · rcases Nat.lt_or_ge (PageSize / BlockSize) k with hbig | hsmall
      · have hsplit : ms = ms.take (PageSize / BlockSize) ++ ms.drop (PageSize / BlockSize) :=
          (List.take_append_drop _ _).symm
        have hl1 : (ms.take (PageSize / BlockSize)).length = PageSize / BlockSize := by
          rw [List.length_take]; omega
        have hl2 : (ms.drop (PageSize / BlockSize)).length = k - PageSize / BlockSize := by
          rw [List.length_drop]; omega
        obtain ⟨m, ms1, hm1⟩ : ∃ m ms1, ms.take (PageSize / BlockSize) = m :: ms1 := by
          cases h : ms.take (PageSize / BlockSize) with
          | nil => rw [h] at hl1; simp at hl1; omega
          | cons m ms1 => exact ⟨m, ms1, rfl⟩
        have hml : 1 + ms1.length = PageSize / BlockSize := by
          rw [hm1] at hl1; simp only [List.length_cons] at hl1; omega
        have hmg : GoodMalloc PageSize m :=
          hgood m (List.mem_of_mem_take (by rw [hm1]; exact List.mem_cons_self _ _))
        have hchunk := allocs_chunk PageSize BlockSize hbs h8 hn st live m ms1 hmg hfull
          (by omega)
        rw [hml, nextPtr_full] at hchunk
        have hrun : runOps PageSize BlockSize ⟨st, live⟩ (allocs ms)
            = runOps PageSize BlockSize
                (runOps PageSize BlockSize ⟨st, live⟩ (allocs (m :: ms1)))
                (allocs (ms.drop (PageSize / BlockSize))) := by
          rw [← runOps_append, ← hm1]
          unfold allocs
          rw [← List.map_append, ← hsplit]
        rw [hrun, hchunk]
        have hfull' : ∀ p ∈ st.m_pages ++ [(⟨m, 0⟩ : Page)], p.m_freelist = 0 := by
          intro p hp
          rcases List.mem_append.1 hp with h | h
          · exact hfull p h
          · rw [List.mem_singleton.1 h]
        have := ih (k - PageSize / BlockSize) (by omega) (ms.drop (PageSize / BlockSize))
          ⟨st.m_pages ++ [⟨m, 0⟩], linkBlocks PageSize BlockSize m st.mem⟩
          (((List.range (PageSize / BlockSize)).map (fun j => m + j * BlockSize)).reverse
            ++ live) hl2
          (fun x hx => hgood x (List.mem_of_mem_drop hx)) hfull'
        rw [this]
        simp only [List.length_append, List.length_singleton]
        have e : k + PageSize / BlockSize - 1 = (k - 1) + PageSize / BlockSize := by omega
        have e2 : k - PageSize / BlockSize + PageSize / BlockSize - 1 = k - 1 := by omega
        rw [e, e2, Nat.add_div_right _ (by omega)]
        omega
      · obtain ⟨m, ms1, hm1⟩ : ∃ m ms1, ms = m :: ms1 := by
          cases ms with
          | nil => simp at hlen; omega
          | cons m ms1 => exact ⟨m, ms1, rfl⟩
        subst hm1
        simp only [List.length_cons] at hlen
        have hchunk := allocs_chunk PageSize BlockSize hbs h8 hn st live m ms1
          (hgood m (List.mem_cons_self _ _)) hfull (by omega)
        rw [hchunk]
        simp only [List.length_append, List.length_singleton]
        have e : k + PageSize / BlockSize - 1 = (k - 1) + PageSize / BlockSize := by omega
        have hz : (k - 1) / (PageSize / BlockSize) = 0 := Nat.div_eq_of_lt (by omega)
        rw [e, Nat.add_div_right _ (by omega), hz]

/-- Claim C11 (counterexample). On a new `dpBlockAllocator<48, 12>`, where
`n = 48 / 12 = 4` and `sizeof(Block) = 16`, `malloc` placing the page at `0x10000`: the
first four `allocate()` calls return `0x10000`, `0x10010`, `0x10020` and `0x10030`, and one
page exists afterwards, but the fourth block starts where the 48 bytes of that page end: it
is not inside the page, nor inside any page. -/
theorem small_block_leaves_page :
    48 / 12 = 4 ∧ sizeofBlock 12 = 16 ∧
    (runOps 48 12 ⟨State.init, []⟩ fourAllocs).live = [0x10030, 0x10020, 0x10010, 0x10000] ∧
    (runOps 48 12 ⟨State.init, []⟩ fourAllocs).st.m_pages.map (fun p => p.m_data)
      = [0x10000] ∧
    Page.isInsideMemory 48 ⟨0x10000, 0⟩ 0x10030 = false ∧
    ∀ p ∈ (runOps 48 12 ⟨State.init, []⟩ fourAllocs).st.m_pages,
      p.isInsideMemory 48 0x10030 = false := by
  decide

/-- Claim C11 (amended). Page capacity of the BlockAllocator for a block size that is a
positive multiple of the pointer size (8 bytes, so that `sizeof(Block)` is the block size),
with `n = PageSize / BlockSize >= 1` and `malloc` returning a non-null region at every call
that makes a page, whatever the memory holds to begin with: `k` consecutive `allocate()`
calls on a new allocator leave exactly `ceil(k / n)` pages; up to `n` calls return the
blocks `m, m + BlockSize, ..` of the single page made at the first `malloc` result `m`,
pairwise distinct and all inside that page; and the `(n+1)`-th call makes a second page, at
the `malloc` result `m2` of that call, and returns its first block. -/
theorem page_capacity (PageSize BlockSize : Nat) (hbs : 0 < BlockSize)
    (h8 : 8 ∣ BlockSize) (hn : BlockSize ≤ PageSize) (mem0 : Nat → Nat) (ms : List Nat)
    (hgood : ∀ m ∈ ms, GoodMalloc PageSize m) :
    (runOps PageSize BlockSize ⟨⟨[], mem0⟩, []⟩ (allocs ms)).st.m_pages.length
      = (ms.length + PageSize / BlockSize - 1) / (PageSize / BlockSize) ∧
    (∀ m rest, ms = m :: rest → ms.length ≤ PageSize / BlockSize →
      (runOps PageSize BlockSize ⟨⟨[], mem0⟩, []⟩ (allocs ms)).st.m_pages.map
          (fun p => p.m_data) = [m] ∧
      (runOps PageSize BlockSize ⟨⟨[], mem0⟩, []⟩ (allocs ms)).live.reverse
        = (List.range ms.length).map (fun j => m + j * BlockSize) ∧
      (runOps PageSize BlockSize ⟨⟨[], mem0⟩, []⟩ (allocs ms)).live.Nodup ∧
      ∀ x ∈ (runOps PageSize BlockSize ⟨⟨[], mem0⟩, []⟩ (allocs ms)).live,
        Page.isInsideMemory PageSize ⟨m, 0⟩ x = true) ∧
    (∀ m rest m2, ms = m :: rest ++ [m2] → ms.length = PageSize / BlockSize + 1 →
      (runOps PageSize BlockSize ⟨⟨[], mem0⟩, []⟩ (allocs ms)).st.m_pages.map
          (fun p => p.m_data) = [m, m2] ∧
      (runOps PageSize BlockSize ⟨⟨[], mem0⟩, []⟩ (allocs ms)).live.head? = some m2 ∧
      Page.isInsideMemory PageSize ⟨m2, 0⟩ m2 = true) := by
  have hinitfull : ∀ p ∈ (⟨[], mem0⟩ : State).m_pages, p.m_freelist = 0 := by
    intro p hp; simp at hp
  refine ⟨?_, ?_, ?_⟩
  · have := allocs_page_count PageSize BlockSize hbs h8 hn ms.length ms ⟨[], mem0⟩ [] rfl hgood
      hinitfull
    simpa using this
  · intro m rest hms hlen
    subst hms
    simp only [List.length_cons] at hlen
    have hmg := hgood m (List.mem_cons_self _ _)
    have hchunk := allocs_chunk PageSize BlockSize hbs h8 hn ⟨[], mem0⟩ [] m rest hmg hinitfull
      (by omega)
    rw [hchunk]
    have hlen' : (m :: rest).length = 1 + rest.length := by
      simp only [List.length_cons]; omega
    rw [hlen']
    refine ⟨by simp, by simp, ?_, ?_⟩
    · simp only [List.append_nil, List.nodup_reverse]
      refine List.Nodup.map ?_ (List.nodup_range _)
      intro a b h
      simp only at h
      exact Nat.eq_of_mul_eq_mul_right hbs (by omega)
    · intro x hx
      simp only [List.append_nil, List.mem_reverse, List.mem_map, List.mem_range] at hx
      obtain ⟨j, hj, rfl⟩ := hx
      have hb := slot_bound PageSize BlockSize j (by omega)
      rw [inside_iff PageSize ⟨m, 0⟩ _ hmg.2]
      simp only
      omega
  · intro m rest m2 hms hlen
    subst hms
    simp only [List.length_cons, List.length_append, List.length_singleton,
      List.length_nil] at hlen
    have hmg := hgood m (List.mem_cons_self _ _)
    have hm2g : GoodMalloc PageSize m2 := hgood m2 (by simp)
    have hchunk := allocs_chunk PageSize BlockSize hbs h8 hn ⟨[], mem0⟩ [] m rest hmg hinitfull
      (by omega)
    rw [show 1 + rest.length = PageSize / BlockSize by omega, nextPtr_full] at hchunk
    have hrun : runOps PageSize BlockSize ⟨⟨[], mem0⟩, []⟩ (allocs (m :: rest ++ [m2]))
        = stepOp PageSize BlockSize
            (runOps PageSize BlockSize ⟨⟨[], mem0⟩, []⟩ (allocs (m :: rest))) (.alloc m2) := by
      have : allocs (m :: rest ++ [m2]) = allocs (m :: rest) ++ [.alloc m2] := by
        simp [allocs]
      rw [this, runOps_append]
      simp [runOps]
    have hfull' : ∀ p ∈ (⟨[], mem0⟩ : State).m_pages ++ [(⟨m, 0⟩ : Page)],
        p.m_freelist = 0 := by
      intro p hp
      simp only [List.nil_append, List.mem_singleton] at hp
      rw [hp]
    rw [hrun, hchunk, alloc_new_page PageSize BlockSize hbs h8 hn _ _ m2 hm2g hfull']
    refine ⟨by simp, by simp, ?_⟩
    rw [inside_iff PageSize ⟨m2, 0⟩ _ hm2g.2]
    have := blocks_fit PageSize BlockSize hbs hn
    simp only
    omega

/-- Instance of C11 (amended): `dpBlockAllocator<4096, 64>`; 64 allocations leave one page,
the 65th makes the second. -/
theorem page_capacity_witness :
    (runOps 4096 64 ⟨⟨[], fun _ => 0⟩, []⟩ (allocs (mallocs65.take 64))).st.m_pages.length
      = 1 ∧
    (runOps 4096 64 ⟨⟨[], fun _ => 0⟩, []⟩ (allocs mallocs65)).st.m_pages.length = 2 :=
  ⟨(page_capacity 4096 64 (by decide) (by decide) (by decide) (fun _ => 0)
      (mallocs65.take 64) (by decide)).1.trans
      (by decide),
    (page_capacity 4096 64 (by decide) (by decide) (by decide) (fun _ => 0) mallocs65
      (by decide)).1.trans (by decide)⟩

end dpBlockAllocator
namespace dpBlockAllocator

/-- A pointer read from memory is a pointer value. -/
theorem load64_lt (mem : Nat → Nat) (a : Nat) : load64 mem a < 2 ^ 64 := by
  unfold load64 byteAt
  omega

/-- One call keeps the pages valid, whatever the call, when `malloc` returns a fresh region
for a page that has to be made. -/
theorem pagesValid_step (PageSize BlockSize : Nat) (t : Tracked) (op : Op)
    (hv : PagesValid PageSize t.st.m_pages)
    (hm : ∀ m, op = .alloc m → allocateScan t.st.mem t.st.m_pages = none →
      FreshRegion PageSize t.st.m_pages m) :
    PagesValid PageSize (stepOp PageSize BlockSize t op).st.m_pages := by
  obtain ⟨hpages, hapart⟩ := hv
  cases op with
  | alloc m =>
    cases hs : allocateScan t.st.mem t.st.m_pages with
    | some res =>
      obtain ⟨r, ps'⟩ := res
      obtain ⟨pre, p, suf, e1, _, _, e4⟩ := allocateScan_some _ _ _ _ hs
      have hp := hpages p (by rw [e1]; simp)
      have hst : (stepOp PageSize BlockSize t (.alloc m)).st.m_pages = ps' := by
        simp [stepOp, allocate, hs]
      rw [hst, e4]
      refine ⟨?_, pairwise_replace PageSize pre suf p _ rfl (by rw [← e1]; exact hapart)⟩
      intro q hq
      simp only [List.mem_append, List.mem_cons] at hq
      rcases hq with h | h | h
      · exact hpages q (by rw [e1]; simp [h])
      · rw [h]; exact ⟨hp.1, hp.2.1, load64_lt _ _⟩
      · exact hpages q (by rw [e1]; simp [h])
    | none =>
      obtain ⟨hm0, hmw, hmap⟩ := hm m rfl hs
      have hst : (stepOp PageSize BlockSize t (.alloc m)).st.m_pages
          = t.st.m_pages ++ [⟨m, load64 (linkBlocks PageSize BlockSize m t.st.mem) m⟩] := by
        simp [stepOp, allocate, hs, Page.create, Page.allocate, hm0]
      rw [hst]
      refine ⟨?_, ?_⟩
      · intro q hq
        simp only [List.mem_append, List.mem_singleton] at hq
        rcases hq with h | h
        · exact hpages q h
        · rw [h]; exact ⟨hm0, hmw, load64_lt _ _⟩
      · rw [List.pairwise_append]
        refine ⟨hapart, List.pairwise_singleton _ _, ?_⟩
        intro a ha b hb
        rw [List.mem_singleton.1 hb]
        exact hmap a ha
  | dealloc v =>
    by_cases hex : ∃ p ∈ t.st.m_pages, p.isInsideMemory PageSize v = true
    · obtain ⟨pre, P, suf, e1, hP, hscan⟩ :=
        deallocateScan_some PageSize t.st.mem v t.st.m_pages hex
      have hPv := hpages P (by rw [e1]; simp)
      have hvr := (inside_iff PageSize P v hPv.2.1).1 hP
      have hv0 : v ≠ 0 := by
        have := hPv.1
        omega
      have hdeal : P.deallocate PageSize t.st.mem v
          = (true, store64 t.st.mem v P.m_freelist, ⟨P.m_data, v⟩) := by
        simp [Page.deallocate, hv0, hP]
      rw [hdeal] at hscan
      have hst : (stepOp PageSize BlockSize t (.dealloc v)).st.m_pages
          = pre ++ ⟨P.m_data, v⟩ :: suf := by
        simp [stepOp, deallocate, hscan]
      rw [hst]
      refine ⟨?_, pairwise_replace PageSize pre suf P _ rfl (by rw [← e1]; exact hapart)⟩
      intro q hq
      simp only [List.mem_append, List.mem_cons] at hq
      rcases hq with h | h | h
      · exact hpages q (by rw [e1]; simp [h])
      · rw [h]; exact ⟨hPv.1, hPv.2.1, by simp only; omega⟩
      · exact hpages q (by rw [e1]; simp [h])
    · have hall : ∀ p ∈ t.st.m_pages, p.isInsideMemory PageSize v = false := by
        intro p hp
        cases h : p.isInsideMemory PageSize v with
        | false => rfl
        | true => exact absurd ⟨p, hp, h⟩ hex
      have hscan := deallocateScan_none PageSize t.st.mem v t.st.m_pages hall
      have hst : (stepOp PageSize BlockSize t (.dealloc v)).st.m_pages = t.st.m_pages := by
        simp [stepOp, deallocate, hscan]
      rw [hst]
      exact ⟨hpages, hapart⟩

/-- Every state reached from a new allocator has valid pages, whatever the calls were, when
`malloc` returned a fresh region for every page made. -/
theorem pagesValid_run (PageSize BlockSize : Nat) : ∀ (ops : List Op) (t : Tracked),
    PagesValid PageSize t.st.m_pages → FreshMallocs PageSize BlockSize t ops →
    PagesValid PageSize (runOps PageSize BlockSize t ops).st.m_pages := by
  intro ops
  induction ops with
  | nil => intro t h _; exact h
  | cons op ops ih =>
    intro t h hf
    exact ih _ (pagesValid_step PageSize BlockSize t op h hf.1) hf.2

/-- Claim C18 (counterexample). On a new `dpBlockAllocator<40, 20>`, where `n = 40 / 20 = 2`
and `sizeof(Block) = 24`, after the single well-formed call `allocate()`, which returns
`0x10000`: the free list of the page, read from memory, is the one block `0x10018`, which
is none of the slots `0x10000`, `0x10014` of the page; and the slot `0x10014` is neither
in the free list nor live. -/
theorem free_list_off_slots :
    40 / 20 = 2 ∧ sizeofBlock 20 = 24 ∧
    WellFormed 40 20 ⟨State.init, []⟩ oneAlloc ∧
    (runOps 40 20 ⟨State.init, []⟩ oneAlloc).live = [0x10000] ∧
    (runOps 40 20 ⟨State.init, []⟩ oneAlloc).st.m_pages = [⟨0x10000, 0x10018⟩] ∧
    Chain (runOps 40 20 ⟨State.init, []⟩ oneAlloc).st.mem 0x10018 [0x10018] ∧
    slots 40 20 0x10000 = [0x10000, 0x10014] ∧
    0x10018 ∉ slots 40 20 0x10000 ∧
    0x10014 ∉ [0x10018] ∧
    0x10014 ∉ (runOps 40 20 ⟨State.init, []⟩ oneAlloc).live := by
  decide

/-- Claim C18 (amended). Page partition invariant under well-formed use, for a block size
that is a positive multiple of the pointer size (8 bytes, so that `sizeof(Block)` is the
block size) and at least one block per page, whatever the memory holds to begin with:
after every sequence of `allocate()` / `deallocate(ptr)` calls on a new BlockAllocator in
which each `deallocate` is given a block returned by `allocate` and not deallocated since
(or a pointer that lies in no page), `malloc` returning fresh memory for each new page,
every page's free list, read from memory by following the links from `m_freelist` to
`nullptr`, contains no block twice and only slots `base + i*blockSize`, `i < n`, of the
page; the free slots and the live blocks of the page are disjoint and together are exactly
its `n` slots; every live block lies in exactly one page; and no two live blocks
coincide. -/
theorem page_partition (PageSize BlockSize : Nat) (hbs : 0 < BlockSize)
    (h8 : 8 ∣ BlockSize) (hn : BlockSize ≤ PageSize) (mem0 : Nat → Nat) (ops : List Op)
    (hwf : WellFormed PageSize BlockSize ⟨⟨[], mem0⟩, []⟩ ops) :
    (∀ p ∈ (runOps PageSize BlockSize ⟨⟨[], mem0⟩, []⟩ ops).st.m_pages,
      ∃ fl, Chain (runOps PageSize BlockSize ⟨⟨[], mem0⟩, []⟩ ops).st.mem p.m_freelist fl ∧
        fl.Nodup ∧
        (∀ x ∈ fl, ∃ i, i < PageSize / BlockSize ∧ x = p.m_data + i * BlockSize) ∧
        (∀ x ∈ fl, x ∉ (runOps PageSize BlockSize ⟨⟨[], mem0⟩, []⟩ ops).live) ∧
        (∀ i, i < PageSize / BlockSize →
          (p.m_data + i * BlockSize ∈ fl ∨
            p.m_data + i * BlockSize ∈ (runOps PageSize BlockSize ⟨⟨[], mem0⟩, []⟩ ops).live)) ∧
        (∀ x ∈ (runOps PageSize BlockSize ⟨⟨[], mem0⟩, []⟩ ops).live,
          p.isInsideMemory PageSize x = true →
            ∃ i, i < PageSize / BlockSize ∧ x = p.m_data + i * BlockSize)) ∧
    (∀ x ∈ (runOps PageSize BlockSize ⟨⟨[], mem0⟩, []⟩ ops).live,
      ∃ p ∈ (runOps PageSize BlockSize ⟨⟨[], mem0⟩, []⟩ ops).st.m_pages,
        p.isInsideMemory PageSize x = true ∧
        ∀ q ∈ (runOps PageSize BlockSize ⟨⟨[], mem0⟩, []⟩ ops).st.m_pages,
          q.isInsideMemory PageSize x = true → q = p) ∧
    (runOps PageSize BlockSize ⟨⟨[], mem0⟩, []⟩ ops).live.Nodup := by
  have hinv := inv_run PageSize BlockSize hbs h8 hn ops _ (inv_init PageSize BlockSize mem0) hwf
  have hslot : ∀ d x, x ∈ slots PageSize BlockSize d ↔
      ∃ i, i < PageSize / BlockSize ∧ x = d + i * BlockSize := by
    intro d x
    unfold slots
    simp only [List.mem_map, List.mem_range]
    constructor
    · rintro ⟨i, hi, rfl⟩; exact ⟨i, hi, rfl⟩
    · rintro ⟨i, hi, rfl⟩; exact ⟨i, hi, rfl⟩
  refine ⟨?_, ?_, live_nodup_of_inv PageSize BlockSize _ hbs hinv⟩
  · intro p hp
    have hpok := hinv.pages p hp
    obtain ⟨fl, hch, hperm⟩ := hpok.part
    have hnd : (fl ++ liveIn PageSize
        (runOps PageSize BlockSize ⟨⟨[], mem0⟩, []⟩ ops).live p).Nodup :=
      hperm.nodup_iff.2 (slots_nodup PageSize BlockSize p.m_data hbs)
    obtain ⟨hfn, _, hdisj⟩ := List.nodup_append.1 hnd
    refine ⟨fl, hch, hfn, ?_, ?_, ?_, ?_⟩
    · intro x hx
      exact (hslot _ _).1 (hperm.subset (List.mem_append_left _ hx))
    · intro x hx hxl
      have hin := free_inside hperm hpok.nowrap x hx
      exact hdisj hx (List.mem_filter.2 ⟨hxl, hin⟩)
    · intro i hi
      have hs : p.m_data + i * BlockSize ∈ slots PageSize BlockSize p.m_data :=
        (hslot _ _).2 ⟨i, hi, rfl⟩
      rcases List.mem_append.1 (hperm.symm.subset hs) with h | h
      · exact Or.inl h
      · exact Or.inr (List.mem_filter.1 h).1
    · intro x hx hin
      exact (hslot _ _).1 (hperm.subset (List.mem_append_right _ (List.mem_filter.2 ⟨hx, hin⟩)))
  · intro x hx
    obtain ⟨p, hp, hpx⟩ := hinv.owned x hx
    refine ⟨p, hp, hpx, ?_⟩
    intro q hq hqx
    by_contra hne
    have hsym : ∀ a b : Page, pagesApart PageSize a b → pagesApart PageSize b a :=
      fun a b h => pagesApart_symm PageSize a b h
    have hap : pagesApart PageSize p q :=
      hinv.apart.forall hsym hp hq (fun h => hne h.symm)
    have := not_inside_of_apart PageSize p q x (hinv.pages p hp).nowrap
      (hinv.pages q hq).nowrap hap hpx
    rw [hqx] at this
    exact absurd this (by decide)

set_option maxRecDepth 20000 in
/-- Instance of C18 (amended): the partition holds after the calls of `reuseOps` on
`dpBlockAllocator<4096, 64>`. -/
theorem page_partition_witness :
    (runOps 4096 64 ⟨State.init, []⟩ reuseOps).st.m_pages.map (fun p => p.m_data) = [0x10000] ∧
    (runOps 4096 64 ⟨State.init, []⟩ reuseOps).live.Nodup :=
  ⟨by decide, (page_partition 4096 64 (by decide) (by decide) (by decide) (fun _ => 0) reuseOps
      (by decide)).2.2⟩

end dpBlockAllocator

/-! ## Theorems: SymbolTable -/

theorem strcmp_lt_iff_lex : ∀ (a b : List Nat),
    strcmp a b < 0 ↔ List.Lex (fun x y : Nat => x < y) a b := by
  intro a
  induction a with
  | nil =>
    intro b
    cases b with
    | nil => simp [strcmp, List.Lex.not_nil_right]
    | cons y ys => simp [strcmp, List.Lex.nil]
  | cons x xs ih =>
    intro b
    cases b with
    | nil => simp [strcmp, List.Lex.not_nil_right]
    | cons y ys =>
      unfold strcmp
      by_cases h1 : x < y
      · simp [h1, List.Lex.rel h1]
      · by_cases h2 : y < x
        · simp only [h1, h2, if_false, if_true]
          constructor
          · intro h; omega
          · intro h
            cases h with
            | cons h' => omega
            | rel h' => omega
        · have hxy : x = y := by omega
          subst hxy
          simp only [h1, if_false]
          rw [ih ys, List.Lex.cons_iff]

theorem strcmp_lt_iff (a b : List Nat) : strcmp a b < 0 ↔ a < b :=
  strcmp_lt_iff_lex a b

theorem strcmp_eq_iff : ∀ (a b : List Nat), strcmp a b = 0 ↔ a = b := by
  intro a
  induction a with
  | nil =>
    intro b
    cases b with
    | nil => simp [strcmp]
    | cons y ys => simp [strcmp]
  | cons x xs ih =>
    intro b
    cases b with
    | nil => simp [strcmp]
    | cons y ys =>
      unfold strcmp
      by_cases h1 : x < y
      · have : x ≠ y := by omega
        simp [h1, this]
      · by_cases h2 : y < x
        · have : x ≠ y := by omega
          simp [h1, h2, this]
        · have hxy : x = y := by omega
          subst hxy
          simp [ih ys]

namespace dpSymbolTable

theorem dpLTPtr_iff (heap : SymbolHeap) (a b : Nat) :
    dpLTPtr heap a b = true ↔ nameOf heap a < nameOf heap b := by
  simp [dpLTPtr, dpSymbol.lt, nameOf, strcmp_lt_iff]

theorem dpEQPtr_iff (heap : SymbolHeap) (a b : Nat) :
    dpEQPtr heap a b = true ↔ nameOf heap a = nameOf heap b := by
  simp [dpEQPtr, dpSymbol.eq, nameOf, strcmp_eq_iff]

theorem ltName_iff (heap : SymbolHeap) (a : Nat) (n : List Nat) :
    (heap a).ltName n = true ↔ nameOf heap a < n := by
  simp [dpSymbol.ltName, nameOf, strcmp_lt_iff]

theorem eqName_iff (heap : SymbolHeap) (a : Nat) (n : List Nat) :
    (heap a).eqName n = true ↔ nameOf heap a = n := by
  simp [dpSymbol.eqName, nameOf, strcmp_eq_iff]

/-- The sort orders the pointers by name, weakly. -/
theorem stdSort_sorted (heap : SymbolHeap) (l : List Nat) :
    (stdSort (dpLTPtr heap) l).Pairwise (fun a b => nameOf heap a ≤ nameOf heap b) := by
  have hr : ∀ a b, (dpLTPtr heap b a = false) ↔ nameOf heap a ≤ nameOf heap b := by
    intro a b
    rw [← not_lt, ← dpLTPtr_iff]
    simp
  haveI : IsTotal Nat (fun a b => dpLTPtr heap b a = false) :=
    ⟨fun a b => by
      simp only [hr]
      exact le_total _ _⟩
  haveI : IsTrans Nat (fun a b => dpLTPtr heap b a = false) :=
    ⟨fun a b c h1 h2 => by
      simp only [hr] at h1 h2 ⊢
      exact le_trans h1 h2⟩
  have hs := List.sorted_insertionSort (fun a b => dpLTPtr heap b a = false) l
  unfold stdSort
  exact List.Pairwise.imp (fun {a b} h => (hr a b).1 h) hs

theorem stdSort_perm (heap : SymbolHeap) (l : List Nat) : (stdSort (dpLTPtr heap) l).Perm l :=
  List.perm_insertionSort _ l

/-- The loop of `std::unique` on a list sorted by name, all of whose names are at or above
that of `last`: what is kept is strictly increasing and strictly above `last`, comes from
the list, and covers every name of the list other than that of `last`. -/
theorem stdUniqueAux_spec (heap : SymbolHeap) : ∀ (l : List Nat) (last : Nat),
    (∀ x ∈ l, nameOf heap last ≤ nameOf heap x) →
    l.Pairwise (fun a b => nameOf heap a ≤ nameOf heap b) →
    (stdUniqueAux (dpEQPtr heap) last l).Pairwise (fun a b => nameOf heap a < nameOf heap b) ∧
    (∀ x ∈ stdUniqueAux (dpEQPtr heap) last l, x ∈ l ∧ nameOf heap last < nameOf heap x) ∧
    (∀ x ∈ l, nameOf heap x = nameOf heap last ∨
      ∃ y ∈ stdUniqueAux (dpEQPtr heap) last l, nameOf heap y = nameOf heap x) := by
  intro l
  induction l with
  | nil => intro last _ _; simp [stdUniqueAux]
  | cons b l ih =>
    intro last hlast hsorted
    rw [List.pairwise_cons] at hsorted
    obtain ⟨hb, hl⟩ := hsorted
    by_cases heq : nameOf heap last = nameOf heap b
    · have hp : dpEQPtr heap last b = true := (dpEQPtr_iff heap last b).2 heq
      obtain ⟨i1, i2, i3⟩ := ih last (fun x hx => hlast x (List.mem_cons_of_mem _ hx)) hl
      simp only [stdUniqueAux, hp, if_true]
      refine ⟨i1, fun x hx => ⟨List.mem_cons_of_mem _ (i2 x hx).1, (i2 x hx).2⟩, ?_⟩
      intro x hx
      rcases List.mem_cons.1 hx with rfl | hx
      · exact Or.inl heq.symm
      · exact i3 x hx
    · have hp : dpEQPtr heap last b = false := by
        rw [← Bool.not_eq_true, dpEQPtr_iff]; exact heq
      have hlt : nameOf heap last < nameOf heap b :=
        lt_of_le_of_ne (hlast b (List.mem_cons_self _ _)) heq
      obtain ⟨i1, i2, i3⟩ := ih b hb hl
      simp only [stdUniqueAux, hp, Bool.false_eq_true, if_false]
      refine ⟨List.Pairwise.cons (fun x hx => (i2 x hx).2) i1, ?_, ?_⟩
      · intro x hx
        rcases List.mem_cons.1 hx with rfl | hx
        · exact ⟨List.mem_cons_self _ _, hlt⟩
        · exact ⟨List.mem_cons_of_mem _ (i2 x hx).1, lt_trans hlt (i2 x hx).2⟩
      · intro x hx
        rcases List.mem_cons.1 hx with rfl | hx
        · exact Or.inr ⟨x, List.mem_cons_self _ _, rfl⟩
        · rcases i3 x hx with h | ⟨y, hy, hyx⟩
          · exact Or.inr ⟨b, List.mem_cons_self _ _, h.symm⟩
          · exact Or.inr ⟨y, List.mem_cons_of_mem _ hy, hyx⟩

/-- Behaviour of `std::unique` on a list sorted by name. -/
theorem stdUnique_spec (heap : SymbolHeap) (l : List Nat)
    (hsorted : l.Pairwise (fun a b => nameOf heap a ≤ nameOf heap b)) :
    (stdUnique (dpEQPtr heap) l).Pairwise (fun a b => nameOf heap a < nameOf heap b) ∧
    (∀ x ∈ stdUnique (dpEQPtr heap) l, x ∈ l) ∧
    (∀ x ∈ l, ∃ y ∈ stdUnique (dpEQPtr heap) l, nameOf heap y = nameOf heap x) := by
  cases l with
  | nil => simp [stdUnique]
  | cons a l =>
    rw [List.pairwise_cons] at hsorted
    obtain ⟨ha, hl⟩ := hsorted
    obtain ⟨i1, i2, i3⟩ := stdUniqueAux_spec heap l a ha hl
    simp only [stdUnique]
    refine ⟨List.Pairwise.cons (fun x hx => (i2 x hx).2) i1, ?_, ?_⟩
    · intro x hx
      rcases List.mem_cons.1 hx with rfl | hx
      · exact List.mem_cons_self _ _
      · exact List.mem_cons_of_mem _ (i2 x hx).1
    · intro x hx
      rcases List.mem_cons.1 hx with rfl | hx
      · exact ⟨x, List.mem_cons_self _ _, rfl⟩
      · rcases i3 x hx with h | ⟨y, hy, hyx⟩
        · exact ⟨a, List.mem_cons_self _ _, h.symm⟩
        · exact ⟨y, List.mem_cons_of_mem _ hy, hyx⟩

/-- What `sort()` leaves in `m_symbols`, for any pointers `syms` it starts from. -/
theorem sort_spec (heap : SymbolHeap) (syms : List Nat) (pl : Bool) :
    (sort heap ⟨syms, pl⟩).m_symbols.Pairwise (fun a b => nameOf heap a < nameOf heap b) ∧
    (∀ x ∈ (sort heap ⟨syms, pl⟩).m_symbols, x ∈ syms) ∧
    (∀ x ∈ syms, ∃ y ∈ (sort heap ⟨syms, pl⟩).m_symbols, nameOf heap y = nameOf heap x) := by
  obtain ⟨h1, h2, h3⟩ := stdUnique_spec heap _ (stdSort_sorted heap syms)
  refine ⟨h1, fun x hx => (stdSort_perm heap syms).subset (h2 x hx), ?_⟩
  intro x hx
  exact h3 x ((stdSort_perm heap syms).symm.subset hx)

end dpSymbolTable

namespace dpSymbolTable

theorem ofAdded_symbols (syms : List Nat) : (ofAdded syms).m_symbols = syms := by
  have h : ∀ (l : List Nat) (t : dpSymbolTable),
      (l.foldl addSymbol t).m_symbols = t.m_symbols ++ l := by
    intro l
    induction l with
    | nil => intro t; simp
    | cons a l ih => intro t; simp [List.foldl_cons, ih, addSymbol]
  simpa [ofAdded, init] using h syms init

theorem ofAdded_eq (syms : List Nat) : ofAdded syms = ⟨syms, false⟩ := by
  have h1 := ofAdded_symbols syms
  have h2 : ∀ (l : List Nat) (t : dpSymbolTable),
      (l.foldl addSymbol t).m_partial_link = t.m_partial_link := by
    intro l
    induction l with
    | nil => intro t; rfl
    | cons a l ih => intro t; simp [List.foldl_cons, ih, addSymbol]
  have h3 : (ofAdded syms).m_partial_link = false := h2 syms init
  cases h : ofAdded syms with
  | mk s b =>
    rw [h] at h1 h3
    simp only at h1 h3
    rw [h1, h3]

/-- A list strictly increasing by name has no two entries of one name. -/
theorem names_nodup_of_sorted (heap : SymbolHeap) (l : List Nat)
    (h : l.Pairwise (fun a b => nameOf heap a < nameOf heap b)) :
    (l.map (nameOf heap)).Nodup := by
  rw [List.Nodup, List.pairwise_map]
  exact h.imp (fun hab => ne_of_lt hab)

/-- Claim C6. Postcondition of `sort()`: for every sequence `syms` of symbols added with
`addSymbol`, after `sort()` the entries are strictly increasing by name (under the
comparator `dpLTPtr`), so no two entries carry the same name or are the same symbol; every
entry is one of the added symbols; every added name still occurs; and `getNumSymbols()` is
the number of distinct names added. Example: adding `foo`@0x1000, `bar`@0x2000,
`foo`@0x1000 and sorting leaves 2 symbols, in the order `bar`, `foo`. -/
theorem sort_postcondition (heap : SymbolHeap) (syms : List Nat) :
    (sort heap (ofAdded syms)).m_symbols.Pairwise (fun a b => dpLTPtr heap a b = true) ∧
    ((sort heap (ofAdded syms)).m_symbols.map (nameOf heap)).Nodup ∧
    (sort heap (ofAdded syms)).m_symbols.Nodup ∧
    (∀ p ∈ (sort heap (ofAdded syms)).m_symbols, p ∈ syms) ∧
    (∀ p ∈ syms, nameOf heap p ∈ names heap (sort heap (ofAdded syms))) ∧
    (sort heap (ofAdded syms)).getNumSymbols = ((syms.map (nameOf heap)).dedup).length ∧
    (sort exampleHeap (ofAdded [0x100, 0x120, 0x140])).getNumSymbols = 2 ∧
    names exampleHeap (sort exampleHeap (ofAdded [0x100, 0x120, 0x140]))
      = [cstr "bar", cstr "foo"] := by
  rw [ofAdded_eq]
  obtain ⟨h1, h2, h3⟩ := sort_spec heap syms false
  have hnd := names_nodup_of_sorted heap _ h1
  refine ⟨h1.imp (fun hab => (dpLTPtr_iff heap _ _).2 hab), hnd, List.Nodup.of_map _ hnd, h2,
    ?_, ?_, by decide, by decide⟩
  · intro p hp
    obtain ⟨y, hy, hyp⟩ := h3 p hp
    exact List.mem_map.2 ⟨y, hy, hyp⟩
  · have hperm : ((sort heap ⟨syms, false⟩).m_symbols.map (nameOf heap)).Perm
        ((syms.map (nameOf heap)).dedup) := by
      rw [List.perm_ext_iff_of_nodup hnd (List.nodup_dedup _)]
      intro n
      rw [List.mem_dedup]
      constructor
      · intro hn
        obtain ⟨y, hy, hyn⟩ := List.mem_map.1 hn
        exact List.mem_map.2 ⟨y, h2 y hy, hyn⟩
      · intro hn
        obtain ⟨x, hx, hxn⟩ := List.mem_map.1 hn
        obtain ⟨y, hy, hyx⟩ := h3 x hx
        exact List.mem_map.2 ⟨y, hy, hyx.trans hxn⟩
    have := hperm.length_eq
    rw [List.length_map] at this
    exact this

/-- The loop of `std::lower_bound` finds the partition point `s` of a predicate that holds
exactly on the positions below `s`. -/
theorem lowerBoundLoop_eq (comp : Nat → Bool) (n s : Nat)
    (hlo : ∀ i, i < s → comp i = true) (hhi : ∀ i, s ≤ i → i < n → comp i = false) :
    ∀ (fuel first count : Nat), count ≤ fuel → first ≤ s → s ≤ first + count →
    first + count ≤ n → lowerBoundLoop comp fuel first count = s := by
  intro fuel
  induction fuel with
  | zero =>
    intro first count hc h1 h2 _
    simp only [lowerBoundLoop]
    omega
  | succ fuel ih =>
    intro first count hc h1 h2 h3
    simp only [lowerBoundLoop]
    by_cases h0 : count = 0
    · simp only [h0, if_true]
      omega
    · simp only [h0, if_false]
      have hhalf : count / 2 < count := Nat.div_lt_self (by omega) (by norm_num)
      by_cases hcomp : comp (first + count / 2) = true
      · simp only [hcomp, if_true]
        have hlt : first + count / 2 < s := by
          by_contra hge
          have := hhi (first + count / 2) (by omega) (by omega)
          rw [hcomp] at this
          exact absurd this (by decide)
        exact ih _ _ (by omega) (by omega) (by omega) (by omega)
      · simp only [hcomp, if_false]
        have hge : s ≤ first + count / 2 := by
          by_contra hlt
          exact hcomp (hlo _ (by omega))
        exact ih _ _ (by omega) h1 hge (by omega)

/-- In a list sorted by name the entries with a name below `n` are exactly those at the
positions below some `s`. -/
theorem partition_point (heap : SymbolHeap) (n : List Nat) : ∀ (l : List Nat),
    l.Pairwise (fun a b => nameOf heap a ≤ nameOf heap b) →
    ∃ s, s ≤ l.length ∧ ∀ i a, l.get? i = some a → (i < s ↔ nameOf heap a < n) := by
  intro l
  induction l with
  | nil => intro _; exact ⟨0, le_refl _, fun i a h => by simp at h⟩
  | cons b l ih =>
    intro hs
    rw [List.pairwise_cons] at hs
    obtain ⟨hb, hl⟩ := hs
    by_cases hbn : nameOf heap b < n
    · obtain ⟨s, hs1, hs2⟩ := ih hl
      refine ⟨s + 1, by simp only [List.length_cons]; omega, ?_⟩
      intro i a hia
      cases i with
      | zero =>
        simp only [List.get?_cons_zero, Option.some.injEq] at hia
        rw [← hia]
        exact ⟨fun _ => hbn, fun _ => by omega⟩
      | succ j =>
        simp only [List.get?_cons_succ] at hia
        have := hs2 j a hia
        constructor
        · intro h; exact this.1 (by omega)
        · intro h; have := this.2 h; omega
    · refine ⟨0, Nat.zero_le _, ?_⟩
      intro i a hia
      have hmem : a ∈ b :: l := List.get?_mem hia
      have hba : nameOf heap b ≤ nameOf heap a := by
        rcases List.mem_cons.1 hmem with rfl | h
        · exact le_refl _
        · exact hb a h
      constructor
      · intro h; omega
      · intro h; exact absurd (lt_of_le_of_lt hba h) hbn

end dpSymbolTable

namespace dpSymbolTable

/-- On a list sorted by name `std::lower_bound` returns the partition point. -/
theorem stdLowerBound_sorted (heap : SymbolHeap) (n : List Nat) (l : List Nat) (s : Nat)
    (hs : s ≤ l.length)
    (hpart : ∀ i a, l.get? i = some a → (i < s ↔ nameOf heap a < n)) :
    stdLowerBound l (fun sym => (heap sym).ltName n) = s := by
  unfold stdLowerBound
  apply lowerBoundLoop_eq _ l.length s _ _ l.length 0 l.length (le_refl _) (Nat.zero_le _)
    (by omega) (by omega)
  · intro i hi
    have hlt : i < l.length := by omega
    have hget : l.get? i = some (l.get ⟨i, hlt⟩) := List.get?_eq_get hlt
    simp only [hget]
    exact (ltName_iff heap _ n).2 ((hpart i _ hget).1 hi)
  · intro i hsi hlt
    have hget : l.get? i = some (l.get ⟨i, hlt⟩) := List.get?_eq_get hlt
    simp only [hget]
    rw [← Bool.not_eq_true, ltName_iff]
    intro h
    have := (hpart i _ hget).2 h
    omega

/-- Lookup by name in a table whose entries are strictly increasing by name. -/
theorem find_in_sorted (heap : SymbolHeap) (l : List Nat) (pl : Bool) (n : List Nat)
    (hsorted : l.Pairwise (fun a b => nameOf heap a < nameOf heap b)) :
    (∀ q ∈ l, nameOf heap q = n → (findSymbolByName heap ⟨l, pl⟩ n).1 = some q) ∧
    ((∀ q ∈ l, nameOf heap q ≠ n) → (findSymbolByName heap ⟨l, pl⟩ n).1 = none) := by
  have hle : l.Pairwise (fun a b => nameOf heap a ≤ nameOf heap b) :=
    hsorted.imp (fun h => le_of_lt h)
  obtain ⟨s, hs, hpart⟩ := partition_point heap n l hle
  have hlb := stdLowerBound_sorted heap n l s hs hpart
  constructor
  · intro q hq hqn
    obtain ⟨j, hj⟩ := List.get?_of_mem hq
    have hjlt : j < l.length := by
      rcases Nat.lt_or_ge j l.length with h | h
      · exact h
      · rw [List.get?_eq_none.2 h] at hj; exact absurd hj (by simp)
    have hsj : s ≤ j := by
      by_contra h
      have := (hpart j q hj).1 (by omega)
      rw [hqn] at this
      exact lt_irrefl _ this
    have hslt : s < l.length := by omega
    have hgets : l.get? s = some (l.get ⟨s, hslt⟩) := List.get?_eq_get hslt
    have hnlt : ¬ nameOf heap (l.get ⟨s, hslt⟩) < n := by
      intro h
      have := (hpart s _ hgets).2 h
      omega
    have hqj : l.get ⟨j, hjlt⟩ = q := by
      rw [List.get?_eq_get hjlt] at hj
      exact Option.some.inj hj
    have hsq : l.get ⟨s, hslt⟩ = q := by
      rcases Nat.lt_or_ge s j with h | h
      · have hrel := (List.pairwise_iff_get.1 hsorted) ⟨s, hslt⟩ ⟨j, hjlt⟩ h
        rw [hqj, hqn] at hrel
        exact absurd hrel hnlt
      · have : s = j := by omega
        subst this
        exact hqj
    have heq : (heap q).eqName n = true := (eqName_iff heap q n).2 hqn
    simp only [findSymbolByName, hlb, hgets, hsq, heq, if_true, found]
  · intro hnone
    simp only [findSymbolByName, hlb]
    cases hget : l.get? s with
    | none => rfl
    | some sym =>
      have hmem : sym ∈ l := List.get?_mem hget
      have hne : (heap sym).eqName n = false := by
        rw [← Bool.not_eq_true, eqName_iff]
        exact hnone sym hmem
      simp [hne]

/-- Lookup by name after `sort()`, in terms of the pointers the table held before it. -/
theorem find_after_sort (heap : SymbolHeap) (l : List Nat) (pl : Bool) (n : List Nat) :
    (∀ q ∈ (sort heap ⟨l, pl⟩).m_symbols, nameOf heap q = n →
      (findSymbolByName heap (sort heap ⟨l, pl⟩) n).1 = some q) ∧
    ((∀ q ∈ l, nameOf heap q ≠ n) → (findSymbolByName heap (sort heap ⟨l, pl⟩) n).1 = none) ∧
    (∀ p ∈ l, nameOf heap p = n → (∀ q ∈ l, nameOf heap q = n → q = p) →
      (findSymbolByName heap (sort heap ⟨l, pl⟩) n).1 = some p) := by
  obtain ⟨h1, h2, h3⟩ := sort_spec heap l pl
  have hf := find_in_sorted heap (sort heap ⟨l, pl⟩).m_symbols pl n h1
  have hst : (sort heap ⟨l, pl⟩) = ⟨(sort heap ⟨l, pl⟩).m_symbols, pl⟩ := rfl
  rw [← hst] at hf
  refine ⟨hf.1, fun hnone => hf.2 (fun q hq => hnone q (h2 q hq)), ?_⟩
  intro p hp hpn huniq
  obtain ⟨y, hy, hyp⟩ := h3 p hp
  have hyp' : y = p := huniq y (h2 y hy) (hyp.trans hpn)
  rw [hyp'] at hy
  exact hf.1 p hy hpn

theorem merge_eq_sort (heap : SymbolHeap) (t v : dpSymbolTable) :
    merge heap t v = sort heap ⟨t.m_symbols ++ v.m_symbols, t.m_partial_link⟩ := by
  have h : ∀ (l2 l1 : List Nat), l2.foldl (fun acc sym => acc ++ [sym]) l1 = l1 ++ l2 := by
    intro l2
    induction l2 with
    | nil => intro l1; simp
    | cons a l2 ih => intro l1; simp [List.foldl_cons, ih]
  simp [merge, h]

/-- Claim C7. `findSymbolByName` on a sorted table: in a table produced by `sort()` (from any
table `t0`) or by `merge()` (of any tables `t0` and `v`), for every query `n`: the lookup
returns the table's entry whose name is `n` when there is one; it returns not-found when no
symbol that was put in has name `n`; it returns exactly the inserted symbol when that is
the only one inserted with the name `n`. After `clear()` it returns not-found. Example: in
the sorted table made of `foo`@0x1000 and `bar`@0x2000 the lookup of `bar` returns the
entry whose address is 0x2000 and the lookup of `baz` returns not-found. -/
theorem findSymbolByName_correct (heap : SymbolHeap) (t0 v : dpSymbolTable) (n : List Nat) :
    ((∀ q ∈ (sort heap t0).m_symbols, nameOf heap q = n →
        (findSymbolByName heap (sort heap t0) n).1 = some q) ∧
      ((∀ q ∈ t0.m_symbols, nameOf heap q ≠ n) →
        (findSymbolByName heap (sort heap t0) n).1 = none) ∧
      (∀ p ∈ t0.m_symbols, nameOf heap p = n →
        (∀ q ∈ t0.m_symbols, nameOf heap q = n → q = p) →
        (findSymbolByName heap (sort heap t0) n).1 = some p)) ∧
    ((∀ q ∈ (merge heap t0 v).m_symbols, nameOf heap q = n →
        (findSymbolByName heap (merge heap t0 v) n).1 = some q) ∧
      ((∀ q ∈ t0.m_symbols ++ v.m_symbols, nameOf heap q ≠ n) →
        (findSymbolByName heap (merge heap t0 v) n).1 = none) ∧
      (∀ p ∈ t0.m_symbols ++ v.m_symbols, nameOf heap p = n →
        (∀ q ∈ t0.m_symbols ++ v.m_symbols, nameOf heap q = n → q = p) →
        (findSymbolByName heap (merge heap t0 v) n).1 = some p)) ∧
    (findSymbolByName heap (clear t0) n).1 = none ∧
    (findSymbolByName heap (clear (sort heap t0)) n).1 = none ∧
    (findSymbolByName heap (clear (merge heap t0 v)) n).1 = none ∧
    ((findSymbolByName exampleHeap (sort exampleHeap (ofAdded [0x100, 0x120, 0x140]))
        (cstr "bar")).1.map (fun p => (exampleHeap p).address) = some 0x2000 ∧
      (findSymbolByName exampleHeap (sort exampleHeap (ofAdded [0x100, 0x120, 0x140]))
        (cstr "baz")).1 = none) := by
  refine ⟨?_, ?_, rfl, rfl, rfl, by decide, by decide⟩
  · exact find_after_sort heap t0.m_symbols t0.m_partial_link n
  · rw [merge_eq_sort]
    exact find_after_sort heap (t0.m_symbols ++ v.m_symbols) t0.m_partial_link n

end dpSymbolTable

namespace dpSymbolTable

theorem names_after_sort (heap : SymbolHeap) (l : List Nat) (pl : Bool) (n : List Nat) :
    n ∈ names heap (sort heap ⟨l, pl⟩) ↔ n ∈ l.map (nameOf heap) := by
  obtain ⟨_, h2, h3⟩ := sort_spec heap l pl
  unfold names
  constructor
  · intro hn
    obtain ⟨y, hy, hyn⟩ := List.mem_map.1 hn
    exact List.mem_map.2 ⟨y, h2 y hy, hyn⟩
  · intro hn
    obtain ⟨x, hx, hxn⟩ := List.mem_map.1 hn
    obtain ⟨y, hy, hyx⟩ := h3 x hx
    exact List.mem_map.2 ⟨y, hy, hyx.trans hxn⟩

theorem names_sorted (heap : SymbolHeap) (l : List Nat) (pl : Bool) :
    (names heap (sort heap ⟨l, pl⟩)).Pairwise (fun a b => a < b) := by
  obtain ⟨h1, _, _⟩ := sort_spec heap l pl
  unfold names
  rw [List.pairwise_map]
  exact h1

/-- Claim C8. Result of `A.merge(B)`, for all tables `A` and `B`, sorted or not: the entries
of `A` afterwards are strictly increasing by name, each of them was an entry of `A` or of
`B` before the call, the names in `A` are exactly the names that were in `A` or in `B`,
and `B` is unchanged. -/
theorem merge_result (heap : SymbolHeap) (A B : dpSymbolTable) :
    (mergeInto heap (A, B)).1.m_symbols.Pairwise (fun a b => dpLTPtr heap a b = true) ∧
    (∀ p ∈ (mergeInto heap (A, B)).1.m_symbols, p ∈ A.m_symbols ∨ p ∈ B.m_symbols) ∧
    (∀ n, n ∈ names heap (mergeInto heap (A, B)).1 ↔ n ∈ names heap A ∨ n ∈ names heap B) ∧
    (mergeInto heap (A, B)).2 = B := by
  simp only [mergeInto, merge_eq_sort]
  obtain ⟨h1, h2, _⟩ := sort_spec heap (A.m_symbols ++ B.m_symbols) A.m_partial_link
  refine ⟨h1.imp (fun hab => (dpLTPtr_iff heap _ _).2 hab), ?_, ?_, trivial⟩
  · intro p hp
    exact List.mem_append.1 (h2 p hp)
  · intro n
    rw [names_after_sort]
    simp [names, List.mem_append]

/-- Two lists with the same image under a map that is injective on them are equal. -/
theorem eq_of_map_eq {α β : Type} (f : α → β) : ∀ (l1 l2 : List α),
    l1.map f = l2.map f → (∀ x ∈ l1, ∀ y ∈ l2, f x = f y → x = y) → l1 = l2 := by
  intro l1
  induction l1 with
  | nil =>
    intro l2 h _
    cases l2 with
    | nil => rfl
    | cons b l2 => simp at h
  | cons a l1 ih =>
    intro l2 h hinj
    cases l2 with
    | nil => simp at h
    | cons b l2 =>
      simp only [List.map_cons, List.cons.injEq] at h
      have hab : a = b := hinj a (List.mem_cons_self _ _) b (List.mem_cons_self _ _) h.1
      have := ih l2 h.2 (fun x hx y hy => hinj x (List.mem_cons_of_mem _ hx) y
        (List.mem_cons_of_mem _ hy))
      rw [hab, this]

/-- Claim C9 (counterexample). Table `A` holds the symbol `foo`@0x1000, table `B` a different
symbol object `foo`@0x3000. `A.merge(B)` keeps the entry of `A` and `B.merge(A)` keeps the
entry of `B`: the two results hold different symbols, and looking up `foo` gives the
address 0x1000 in one and 0x3000 in the other. -/
theorem merge_not_commutative :
    (merge exampleHeap (ofAdded [0x100]) (ofAdded [0x160])).m_symbols = [0x100] ∧
    (merge exampleHeap (ofAdded [0x160]) (ofAdded [0x100])).m_symbols = [0x160] ∧
    (merge exampleHeap (ofAdded [0x100]) (ofAdded [0x160])).m_symbols
      ≠ (merge exampleHeap (ofAdded [0x160]) (ofAdded [0x100])).m_symbols ∧
    (findSymbolByName exampleHeap (merge exampleHeap (ofAdded [0x100]) (ofAdded [0x160]))
      (cstr "foo")).1.map (fun p => (exampleHeap p).address) = some 0x1000 ∧
    (findSymbolByName exampleHeap (merge exampleHeap (ofAdded [0x160]) (ofAdded [0x100]))
      (cstr "foo")).1.map (fun p => (exampleHeap p).address) = some 0x3000 := by
  decide

/-- Claim C9 (amended). Commutativity of `merge` up to the choice among equal names: for all
tables `A` and `B` the tables obtained by `A.merge(B)` and by `B.merge(A)` carry the same
names in the same order (hence have the same number of entries), and they contain the same
symbol entries, in the same order, whenever no name is carried by two different symbol
objects among the entries of `A` and `B`. -/
theorem merge_commutative_names (heap : SymbolHeap) (A B : dpSymbolTable) :
    names heap (merge heap A B) = names heap (merge heap B A) ∧
    ((∀ p ∈ A.m_symbols ++ B.m_symbols, ∀ q ∈ A.m_symbols ++ B.m_symbols,
        nameOf heap p = nameOf heap q → p = q) →
      (merge heap A B).m_symbols = (merge heap B A).m_symbols) := by
  have hnames : names heap (merge heap A B) = names heap (merge heap B A) := by
    rw [merge_eq_sort, merge_eq_sort]
    have s1 := names_sorted heap (A.m_symbols ++ B.m_symbols) A.m_partial_link
    have s2 := names_sorted heap (B.m_symbols ++ A.m_symbols) B.m_partial_link
    have n1 : (names heap (sort heap ⟨A.m_symbols ++ B.m_symbols, A.m_partial_link⟩)).Nodup :=
      s1.imp (fun h => ne_of_lt h)
    have n2 : (names heap (sort heap ⟨B.m_symbols ++ A.m_symbols, B.m_partial_link⟩)).Nodup :=
      s2.imp (fun h => ne_of_lt h)
    have hperm : (names heap (sort heap ⟨A.m_symbols ++ B.m_symbols, A.m_partial_link⟩)).Perm
        (names heap (sort heap ⟨B.m_symbols ++ A.m_symbols, B.m_partial_link⟩)) := by
      rw [List.perm_ext_iff_of_nodup n1 n2]
      intro n
      rw [names_after_sort, names_after_sort]
      simp only [List.map_append, List.mem_append]
      exact Or.comm
    exact List.eq_of_perm_of_sorted hperm s1 s2
  refine ⟨hnames, ?_⟩
  intro hinj
  apply eq_of_map_eq (nameOf heap) _ _ hnames
  intro x hx y hy hxy
  have hx' : x ∈ A.m_symbols ++ B.m_symbols := by
    rw [merge_eq_sort] at hx
    exact (sort_spec heap _ _).2.1 x hx
  have hy' : y ∈ A.m_symbols ++ B.m_symbols := by
    rw [merge_eq_sort] at hy
    have := (sort_spec heap _ _).2.1 y hy
    rcases List.mem_append.1 this with h | h
    · exact List.mem_append_right _ h
    · exact List.mem_append_left _ h
  exact hinj x hx' y hy' hxy

/-- Instance of C9 (amended): merging the tables `{foo}` and `{bar}` of distinct names in
either order gives the entries `bar`, `foo`. -/
theorem merge_commutative_names_witness :
    (merge exampleHeap (ofAdded [0x100]) (ofAdded [0x120])).m_symbols = [0x120, 0x100] ∧
    (merge exampleHeap (ofAdded [0x100]) (ofAdded [0x120])).m_symbols
      = (merge exampleHeap (ofAdded [0x120]) (ofAdded [0x100])).m_symbols :=
  ⟨by decide,
    (merge_commutative_names exampleHeap (ofAdded [0x100]) (ofAdded [0x120])).2 (by decide)⟩

end dpSymbolTable

namespace dpSymbolTable

/-- The partial-link calls of a lookup: one call, for the symbol returned, when the mode is
on and a symbol is returned; none otherwise. -/
theorem findSymbolByName_calls (heap : SymbolHeap) (t : dpSymbolTable) (name : List Nat) :
    (∀ sym, (findSymbolByName heap t name).1 = some sym →
      (findSymbolByName heap t name).2
        = if t.m_partial_link then [⟨(heap sym).binary, (heap sym).sect⟩] else []) ∧
    ((findSymbolByName heap t name).1 = none → (findSymbolByName heap t name).2 = []) := by
  unfold findSymbolByName
  simp only
  cases hget : t.m_symbols.get? (stdLowerBound t.m_symbols fun sym => (heap sym).ltName name) with
  | none => simp
  | some s =>
    by_cases he : (heap s).eqName name = true
    · simp only [he, if_true, found]
      refine ⟨?_, fun h => by simp at h⟩
      intro sym hs
      simp only [Option.some.injEq] at hs
      rw [hs]
    · simp [he]

theorem findSymbolByAddress_calls (heap : SymbolHeap) (t : dpSymbolTable) (addr : Nat) :
    (∀ sym, (findSymbolByAddress heap t addr).1 = some sym →
      (findSymbolByAddress heap t addr).2
        = if t.m_partial_link then [⟨(heap sym).binary, (heap sym).sect⟩] else []) ∧
    ((findSymbolByAddress heap t addr).1 = none → (findSymbolByAddress heap t addr).2 = []) := by
  unfold findSymbolByAddress
  cases hfind : dpFind (fun sym => decide ((heap sym).address = addr)) t.m_symbols with
  | none => simp
  | some i =>
    simp only
    cases hget : t.m_symbols.get? i with
    | none => simp
    | some s =>
      simp only [found]
      refine ⟨?_, fun h => by simp at h⟩
      intro sym hs
      simp only [Option.some.injEq] at hs
      rw [hs]

/-- Claim C15. Partial-link trigger. With partial-link mode enabled, a `findSymbolByName` or
`findSymbolByAddress` call that returns a symbol makes exactly one call
`binary->partialLink(section)`, on that symbol's binary and with that symbol's section; a
lookup that misses makes none; with the mode disabled (a new table, or after
`enablePartialLink(false)`) no lookup makes any. The mode does not change what a lookup
returns, and neither lookup changes the table. Example: in the table of `foo`@0x3000
(binary 1, section 1) and `bar`, with the mode on, looking up `foo` or the address 0x3000
calls `partialLink(1)` on binary 1 once, looking up `baz` calls nothing. -/
theorem partial_link_trigger (heap : SymbolHeap) (t : dpSymbolTable) (name : List Nat)
    (addr : Nat) :
    (∀ sym, (findSymbolByName heap (enablePartialLink t true) name).1 = some sym →
      (findSymbolByName heap (enablePartialLink t true) name).2
        = [⟨(heap sym).binary, (heap sym).sect⟩]) ∧
    (∀ sym, (findSymbolByAddress heap (enablePartialLink t true) addr).1 = some sym →
      (findSymbolByAddress heap (enablePartialLink t true) addr).2
        = [⟨(heap sym).binary, (heap sym).sect⟩]) ∧
    ((findSymbolByName heap (enablePartialLink t true) name).1 = none →
      (findSymbolByName heap (enablePartialLink t true) name).2 = []) ∧
    ((findSymbolByAddress heap (enablePartialLink t true) addr).1 = none →
      (findSymbolByAddress heap (enablePartialLink t true) addr).2 = []) ∧
    (findSymbolByName heap (enablePartialLink t false) name).2 = [] ∧
    (findSymbolByAddress heap (enablePartialLink t false) addr).2 = [] ∧
    (t.m_partial_link = false →
      (findSymbolByName heap t name).2 = [] ∧ (findSymbolByAddress heap t addr).2 = []) ∧
    (init.m_partial_link = false ∧ ∀ syms, (sort heap (ofAdded syms)).m_partial_link = false) ∧
    (∀ b, (findSymbolByName heap (enablePartialLink t b) name).1
        = (findSymbolByName heap t name).1 ∧
      (findSymbolByAddress heap (enablePartialLink t b) addr).1
        = (findSymbolByAddress heap t addr).1) ∧
    ((lookupByName heap t name).2 = t ∧ (lookupByAddress heap t addr).2 = t) ∧
    (findSymbolByName exampleHeap
        (enablePartialLink (sort exampleHeap (ofAdded [0x160, 0x120])) true) (cstr "foo")
      = (some 0x160, [⟨1, 1⟩]) ∧
    findSymbolByAddress exampleHeap
        (enablePartialLink (sort exampleHeap (ofAdded [0x160, 0x120])) true) 0x3000
      = (some 0x160, [⟨1, 1⟩]) ∧
    findSymbolByName exampleHeap
        (enablePartialLink (sort exampleHeap (ofAdded [0x160, 0x120])) true) (cstr "baz")
      = (none, [])) := by
  have hoff : ∀ u : dpSymbolTable, u.m_partial_link = false →
      (findSymbolByName heap u name).2 = [] ∧ (findSymbolByAddress heap u addr).2 = [] := by
    intro u hu
    constructor
    · cases h : (findSymbolByName heap u name).1 with
      | none => exact (findSymbolByName_calls heap u name).2 h
      | some sym =>
        rw [(findSymbolByName_calls heap u name).1 sym h, hu]
        rfl
    · cases h : (findSymbolByAddress heap u addr).1 with
      | none => exact (findSymbolByAddress_calls heap u addr).2 h
      | some sym =>
        rw [(findSymbolByAddress_calls heap u addr).1 sym h, hu]
        rfl
  refine ⟨?_, ?_, (findSymbolByName_calls heap _ name).2,
    (findSymbolByAddress_calls heap _ addr).2, (hoff _ rfl).1, (hoff _ rfl).2, hoff t,
    ⟨rfl, fun syms => ?_⟩, ?_, ⟨rfl, rfl⟩, by decide⟩
  · intro sym h
    rw [(findSymbolByName_calls heap _ name).1 sym h]
    rfl
  · intro sym h
    rw [(findSymbolByAddress_calls heap _ addr).1 sym h]
    rfl
  · rw [ofAdded_eq]
    rfl
  · intro b
    constructor
    · simp only [findSymbolByName, enablePartialLink, found]
      cases t.m_symbols.get? (stdLowerBound t.m_symbols fun sym => (heap sym).ltName name) with
      | none => rfl
      | some s => by_cases he : (heap s).eqName name = true <;> simp [he]
    · simp only [findSymbolByAddress, enablePartialLink, found]
      cases dpFind (fun sym => decide ((heap sym).address = addr)) t.m_symbols with
      | none => rfl
      | some i =>
        simp only
        cases t.m_symbols.get? i <;> rfl

/-- The entry `dpFind` stops at is the first one the predicate holds for. -/
theorem dpFind_first {α : Type} (f : α → Bool) : ∀ (l : List α),
    (∀ i, dpFind f l = some i →
      ∃ pre a suf, l = pre ++ a :: suf ∧ pre.length = i ∧ l.get? i = some a ∧ f a = true ∧
        ∀ x ∈ pre, f x = false) ∧
    (dpFind f l = none ↔ ∀ x ∈ l, f x = false) := by
  intro l
  induction l with
  | nil => simp [dpFind]
  | cons b l ih =>
    by_cases hb : f b = true
    · constructor
      · intro i hi
        simp only [dpFind, hb, if_true, Option.some.injEq] at hi
        subst hi
        exact ⟨[], b, l, rfl, rfl, rfl, hb, fun x hx => by simp at hx⟩
      · simp [dpFind, hb]
    · have hb' : f b = false := by simpa using hb
      constructor
      · intro i hi
        simp only [dpFind, hb', Bool.false_eq_true, if_false, Option.map_eq_some'] at hi
        obtain ⟨j, hj, rfl⟩ := hi
        obtain ⟨pre, a, suf, e, hlen, hget, hfa, hpre⟩ := ih.1 j hj
        refine ⟨b :: pre, a, suf, by rw [e]; rfl, by simp [hlen], by simpa using hget, hfa, ?_⟩
        intro x hx
        rcases List.mem_cons.1 hx with rfl | hx
        · exact hb'
        · exact hpre x hx
      · simp only [dpFind, hb', Bool.false_eq_true, if_false, Option.map_eq_none',
          List.mem_cons, forall_eq_or_imp, true_and]
        exact ih.2

/-- Claim C17. `findSymbolByAddress`, for every table (sorted or not) and every address `a`:
when it returns a symbol, that symbol is an entry whose address is `a` and no entry before
it in table order has the address `a`; it returns not-found exactly when no entry of the
table has the address `a`. Example: in the unsorted table `bar`@0x2000, `foo`@0x1000 (object
at `0x140`), `foo`@0x1000 (object at `0x100`) the address 0x1000 finds the object at `0x140`
and the address 0x5000 finds nothing. -/
theorem findSymbolByAddress_first (heap : SymbolHeap) (t : dpSymbolTable) (a : Nat) :
    (∀ sym, (findSymbolByAddress heap t a).1 = some sym →
      ∃ pre suf, t.m_symbols = pre ++ sym :: suf ∧ (heap sym).address = a ∧
        ∀ x ∈ pre, (heap x).address ≠ a) ∧
    ((∃ x ∈ t.m_symbols, (heap x).address = a) →
      ∃ sym, (findSymbolByAddress heap t a).1 = some sym) ∧
    ((findSymbolByAddress heap t a).1 = none ↔ ∀ x ∈ t.m_symbols, (heap x).address ≠ a) ∧
    (findSymbolByAddress heap t a).1
      = t.m_symbols.find? (fun sym => decide ((heap sym).address = a)) ∧
    ((findSymbolByAddress exampleHeap (ofAdded [0x120, 0x140, 0x100]) 0x1000).1 = some 0x140 ∧
      (findSymbolByAddress exampleHeap (ofAdded [0x120, 0x140, 0x100]) 0x5000).1 = none) := by
  obtain ⟨hsome, hnone⟩ := dpFind_first (fun sym => decide ((heap sym).address = a)) t.m_symbols
  have hres : (findSymbolByAddress heap t a).1 = none ↔
      ∀ x ∈ t.m_symbols, (heap x).address ≠ a := by
    unfold findSymbolByAddress
    cases hfind : dpFind (fun sym => decide ((heap sym).address = a)) t.m_symbols with
    | none =>
      simp only [true_iff]
      intro x hx
      have := hnone.1 hfind x hx
      simpa using this
    | some i =>
      obtain ⟨pre, s, suf, e, _, hget, hfs, _⟩ := hsome i hfind
      simp only [hget, found]
      constructor
      · intro h; simp at h
      · intro h
        have hs : s ∈ t.m_symbols := by rw [e]; simp
        have := h s hs
        simp only [decide_eq_true_eq] at hfs
        exact absurd hfs this
  have hfirst : ∀ sym, (findSymbolByAddress heap t a).1 = some sym →
      ∃ pre suf, t.m_symbols = pre ++ sym :: suf ∧ (heap sym).address = a ∧
        ∀ x ∈ pre, (heap x).address ≠ a := by
    intro sym h
    unfold findSymbolByAddress at h
    cases hfind : dpFind (fun sym => decide ((heap sym).address = a)) t.m_symbols with
    | none => simp [hfind] at h
    | some i =>
      obtain ⟨pre, s, suf, e, _, hget, hfs, hpre⟩ := hsome i hfind
      simp only [hfind, hget, found, Option.some.injEq] at h
      subst h
      refine ⟨pre, suf, e, by simpa using hfs, ?_⟩
      intro x hx
      have := hpre x hx
      simpa using this
  refine ⟨hfirst, ?_, hres, ?_, by decide⟩
  · rintro ⟨x, hx, hxa⟩
    cases h : (findSymbolByAddress heap t a).1 with
    | none => exact absurd hxa (hres.1 h x hx)
    | some sym => exact ⟨sym, rfl⟩
  · cases h : (findSymbolByAddress heap t a).1 with
    | none =>
      symm
      rw [List.find?_eq_none]
      intro x hx
      have := hres.1 h x hx
      simpa using this
    | some sym =>
      obtain ⟨pre, suf, e, hs, hpre⟩ := hfirst sym h
      rw [e, List.find?_append]
      have hp : pre.find? (fun sym => decide ((heap sym).address = a)) = none := by
        rw [List.find?_eq_none]
        intro x hx
        have := hpre x hx
        simpa using this
      simp [hp, hs]

end dpSymbolTable

namespace dpSymbolTable

/-- The comparator of `sort()` says "not below" exactly when the names are in order. -/
theorem notBelow_iff (heap : SymbolHeap) (a b : Nat) :
    (dpLTPtr heap b a = false) ↔ nameOf heap a ≤ nameOf heap b := by
  rw [← not_lt, ← dpLTPtr_iff]
  simp

/-- The insertion sort of the model keeps the promise of `std::sort`. -/
theorem stdSort_isStdSort (heap : SymbolHeap) :
    IsStdSort (dpLTPtr heap) (stdSort (dpLTPtr heap)) := by
  intro l
  refine ⟨List.perm_insertionSort _ l, ?_⟩
  exact (stdSort_sorted heap l).imp (fun {a b} h => (notBelow_iff heap a b).2 h)

/-- The sort `lengthSort` keeps the promise of `std::sort` as well. -/
theorem lengthSort_isStdSort (heap : SymbolHeap) :
    IsStdSort (dpLTPtr heap) (lengthSort (dpLTPtr heap)) := by
  intro l
  unfold lengthSort
  by_cases h : l.length ≤ 2
  · rw [if_pos h]
    exact stdSort_isStdSort heap l
  · rw [if_neg h]
    obtain ⟨h1, h2⟩ := stdSort_isStdSort heap l.reverse
    exact ⟨h1.trans (List.reverse_perm l), h2⟩

/-- The model of `sort()` is `sortWith` at the insertion sort. -/
theorem sort_eq_sortWith (heap : SymbolHeap) (t : dpSymbolTable) :
    sort heap t = sortWith (stdSort (dpLTPtr heap)) heap t := rfl

/-- The model of `merge()` is `mergeWith` at the insertion sort. -/
theorem merge_eq_mergeWith (heap : SymbolHeap) (t v : dpSymbolTable) :
    merge heap t v = mergeWith (stdSort (dpLTPtr heap)) heap t v := rfl

theorem mergeWith_eq (srt : List Nat → List Nat) (heap : SymbolHeap) (t v : dpSymbolTable) :
    mergeWith srt heap t v
      = sortWith srt heap ⟨t.m_symbols ++ v.m_symbols, t.m_partial_link⟩ := by
  have h : ∀ (l2 l1 : List Nat), l2.foldl (fun acc sym => acc ++ [sym]) l1 = l1 ++ l2 := by
    intro l2
    induction l2 with
    | nil => intro l1; simp
    | cons a l2 ih => intro l1; simp [List.foldl_cons, ih]
  simp [mergeWith, h]

/-- What `sort()` leaves in `m_symbols` whatever sort the library provides. -/
theorem sortWith_spec (srt : List Nat → List Nat) (heap : SymbolHeap)
    (hs : IsStdSort (dpLTPtr heap) srt) (syms : List Nat) (pl : Bool) :
    (sortWith srt heap ⟨syms, pl⟩).m_symbols.Pairwise
      (fun a b => nameOf heap a < nameOf heap b) ∧
    (∀ x ∈ (sortWith srt heap ⟨syms, pl⟩).m_symbols, x ∈ syms) ∧
    (∀ x ∈ syms, ∃ y ∈ (sortWith srt heap ⟨syms, pl⟩).m_symbols,
      nameOf heap y = nameOf heap x) := by
  obtain ⟨hperm, hsorted⟩ := hs syms
  have hsorted' : (srt syms).Pairwise (fun a b => nameOf heap a ≤ nameOf heap b) :=
    hsorted.imp (fun {a b} h => (notBelow_iff heap a b).1 h)
  obtain ⟨h1, h2, h3⟩ := stdUnique_spec heap _ hsorted'
  refine ⟨h1, fun x hx => hperm.subset (h2 x hx), ?_⟩
  intro x hx
  exact h3 x (hperm.symm.subset hx)

theorem names_sortWith_mem (srt : List Nat → List Nat) (heap : SymbolHeap)
    (hs : IsStdSort (dpLTPtr heap) srt) (l : List Nat) (pl : Bool) (n : List Nat) :
    n ∈ names heap (sortWith srt heap ⟨l, pl⟩) ↔ n ∈ l.map (nameOf heap) := by
  obtain ⟨_, h2, h3⟩ := sortWith_spec srt heap hs l pl
  unfold names
  constructor
  · intro hn
    obtain ⟨y, hy, hyn⟩ := List.mem_map.1 hn
    exact List.mem_map.2 ⟨y, h2 y hy, hyn⟩
  · intro hn
    obtain ⟨x, hx, hxn⟩ := List.mem_map.1 hn
    obtain ⟨y, hy, hyx⟩ := h3 x hx
    exact List.mem_map.2 ⟨y, hy, hyx.trans hxn⟩

theorem names_sortWith_sorted (srt : List Nat → List Nat) (heap : SymbolHeap)
    (hs : IsStdSort (dpLTPtr heap) srt) (l : List Nat) (pl : Bool) :
    (names heap (sortWith srt heap ⟨l, pl⟩)).Pairwise (fun a b => a < b) := by
  obtain ⟨h1, _, _⟩ := sortWith_spec srt heap hs l pl
  unfold names
  rw [List.pairwise_map]
  exact h1

/-- Two sorted tables made from lists that carry the same names carry them in the same
order. -/
theorem names_sortWith_eq (srt : List Nat → List Nat) (heap : SymbolHeap)
    (hs : IsStdSort (dpLTPtr heap) srt) (l1 l2 : List Nat) (pl1 pl2 : Bool)
    (h : ∀ n, n ∈ l1.map (nameOf heap) ↔ n ∈ l2.map (nameOf heap)) :
    names heap (sortWith srt heap ⟨l1, pl1⟩) = names heap (sortWith srt heap ⟨l2, pl2⟩) := by
  have s1 := names_sortWith_sorted srt heap hs l1 pl1
  have s2 := names_sortWith_sorted srt heap hs l2 pl2
  have n1 := s1.imp (fun h => ne_of_lt h)
  have n2 := s2.imp (fun h => ne_of_lt h)
  have hperm : (names heap (sortWith srt heap ⟨l1, pl1⟩)).Perm
      (names heap (sortWith srt heap ⟨l2, pl2⟩)) := by
    rw [List.perm_ext_iff_of_nodup n1 n2]
    intro n
    rw [names_sortWith_mem srt heap hs, names_sortWith_mem srt heap hs]
    exact h n
  exact List.eq_of_perm_of_sorted hperm s1 s2

/-- Sorting a table whose entries are already strictly increasing by name changes nothing,
whatever sort the library provides. -/
theorem sortWith_of_sorted (srt : List Nat → List Nat) (heap : SymbolHeap)
    (hs : IsStdSort (dpLTPtr heap) srt) (l l0 : List Nat) (pl : Bool)
    (hsorted : l0.Pairwise (fun a b => nameOf heap a < nameOf heap b))
    (hsub : ∀ x ∈ l, x ∈ l0) (hsup : ∀ x ∈ l0, x ∈ l) :
    (sortWith srt heap ⟨l, pl⟩).m_symbols = l0 := by
  obtain ⟨_, h2, _⟩ := sortWith_spec srt heap hs l pl
  have s1 := names_sortWith_sorted srt heap hs l pl
  have s2 : (l0.map (nameOf heap)).Pairwise (fun a b => a < b) := by
    rw [List.pairwise_map]; exact hsorted
  have n1 : (names heap (sortWith srt heap ⟨l, pl⟩)).Nodup := s1.imp (fun h => ne_of_lt h)
  have n2 : (l0.map (nameOf heap)).Nodup := s2.imp (fun h => ne_of_lt h)
  have hperm : (names heap (sortWith srt heap ⟨l, pl⟩)).Perm (l0.map (nameOf heap)) := by
    rw [List.perm_ext_iff_of_nodup n1 n2]
    intro n
    rw [names_sortWith_mem srt heap hs]
    simp only [List.mem_map]
    constructor
    · rintro ⟨x, hx, hxn⟩; exact ⟨x, hsub x hx, hxn⟩
    · rintro ⟨x, hx, hxn⟩; exact ⟨x, hsup x hx, hxn⟩
  have hnames : (sortWith srt heap ⟨l, pl⟩).m_symbols.map (nameOf heap)
      = l0.map (nameOf heap) := List.eq_of_perm_of_sorted hperm s1 s2
  apply eq_of_map_eq (nameOf heap) _ _ hnames
  intro x hx y hy hxy
  exact List.inj_on_of_nodup_map n2 (hsub x (h2 x hx)) hy hxy

/-- The loop of `T.merge(T)` on one object while the vector has room: every position is
read through a valid iterator and its entry is appended in place. -/
theorem mergeSelfLoop_room (grow : Nat → Nat) (buf0 cap : Nat) (T : List Nat) :
    ∀ (k i : Nat), i + k ≤ T.length → T.length + i + k ≤ cap →
    mergeSelfLoop grow buf0 (List.range' i k) ⟨buf0, cap, T ++ T.take i⟩
      = some ⟨buf0, cap, T ++ T.take (i + k)⟩ := by
  intro k
  induction k with
  | zero => intro i _ _; rfl
  | succ k ih =>
    intro i hi hcap
    have hlt : i < T.length := by omega
    have hget : (T ++ T.take i).get? i = some (T.get ⟨i, hlt⟩) := by
      rw [List.get?_eq_getElem?, List.getElem?_append_left hlt, List.getElem?_eq_getElem hlt]
      rfl
    have hlen : (T ++ T.take i).length = T.length + i := by
      rw [List.length_append, List.length_take]
      omega
    have hpush : StdVector.push_back grow ⟨buf0, cap, T ++ T.take i⟩ (T.get ⟨i, hlt⟩)
        = ⟨buf0, cap, T ++ T.take (i + 1)⟩ := by
      unfold StdVector.push_back
      simp only [hlen]
      rw [if_pos (by omega)]
      simp only [List.append_assoc, StdVector.mk.injEq, true_and]
      congr 1
      rw [List.take_succ, List.getElem?_eq_getElem hlt]
      rfl
    rw [List.range'_succ]
    simp only [mergeSelfLoop, if_true, hget, hpush]
    rw [ih (i + 1) (by omega) (by omega)]
    rw [show i + 1 + k = i + (k + 1) by omega]

/-- Claim C16 (counterexample). The table `T` with the entries `bar`, `foo`, as two
`addSymbol` calls and `sort()` leave it, is sorted, and its vector `m_symbols` is full: the
capacity is its size 2. In `T.merge(T)` the loop runs over the vector it appends to: the
first `push_back` finds no room and moves the elements to a new buffer, and the loop then
reads the second entry through its iterator into the buffer given up. This is undefined
behaviour whatever the growth policy of the library and whatever its sort; the call does
not leave the entries of `T` unchanged. With room for four entries the same call is
defined and leaves `bar`, `foo`. -/
theorem merge_self_invalid_iterator :
    (sort exampleHeap (ofAdded [0x100, 0x120])).m_symbols = [0x120, 0x100] ∧
    [0x120, 0x100].Pairwise (fun a b => dpLTPtr exampleHeap a b = true) ∧
    (∀ srt grow, mergeSelf srt exampleHeap grow 2 ⟨[0x120, 0x100], false⟩ = none) ∧
    (∀ grow, StdVector.push_back grow ⟨0, 2, [0x120, 0x100]⟩ 0x120
      = ⟨1, grow 2, [0x120, 0x100, 0x120]⟩) ∧
    (∀ grow, mergeSelf (stdSort (dpLTPtr exampleHeap)) exampleHeap grow 4
      ⟨[0x120, 0x100], false⟩ = some ⟨[0x120, 0x100], false⟩) := by
  refine ⟨by decide, by decide, ?_, ?_, ?_⟩
  · intro srt grow
    simp [mergeSelf, mergeSelfLoop, StdVector.push_back, List.range, List.range.loop]
  · intro grow
    simp [StdVector.push_back]
  · intro grow
    have h : mergeSelfLoop grow 0 (List.range 2) ⟨0, 4, [0x120, 0x100]⟩
        = some ⟨0, 4, [0x120, 0x100, 0x120, 0x100]⟩ := by
      simp [mergeSelfLoop, StdVector.push_back, List.range, List.range.loop]
    have hs : sortWith (stdSort (dpLTPtr exampleHeap)) exampleHeap
        ⟨[0x120, 0x100, 0x120, 0x100], false⟩ = ⟨[0x120, 0x100], false⟩ := by
      decide
    simp only [mergeSelf, List.length_cons, List.length_nil, h, Option.map_some', hs]

/-- A sort that keeps the promise of `std::sort` may keep another object than `sort()` does
when a table is merged with a copy of itself: with the two objects `0x100` and `0x140`,
both named `foo`, and the sort `lengthSort`, `sort()` keeps `0x100` and the merge with a
copy keeps `0x140`. -/
theorem merge_copy_unstable :
    IsStdSort (dpLTPtr exampleHeap) (lengthSort (dpLTPtr exampleHeap)) ∧
    (sortWith (lengthSort (dpLTPtr exampleHeap)) exampleHeap
      ⟨[0x100, 0x140], false⟩).m_symbols = [0x100] ∧
    (mergeWith (lengthSort (dpLTPtr exampleHeap)) exampleHeap ⟨[0x100, 0x140], false⟩
      ⟨[0x100, 0x140], false⟩).m_symbols = [0x140] :=
  ⟨lengthSort_isStdSort exampleHeap, by decide, by decide⟩

/-- Claim C16 (amended). `merge` of a table with a copy of itself, for every sort that keeps
the promise of `std::sort` (a rearrangement in ascending order, stable or not). For every
table `T` and a separate table object holding the entries of `T`: the merge leaves the same
names, in the same order, as `T.sort()`; it leaves the same entries as `T.sort()` when no
name is carried by two different symbol objects of `T`; for a table `T` that is sorted (its
entries strictly increasing by name, as after `sort()` or `merge()`) it leaves the sequence
of entries of `T` unchanged. `T.merge(T)` on the one object does the same when the vector
of `T` has room for twice its entries, so that no `push_back` moves it. -/
theorem merge_copy (heap : SymbolHeap) (srt : List Nat → List Nat)
    (hs : IsStdSort (dpLTPtr heap) srt) (T : dpSymbolTable) :
    names heap (mergeWith srt heap T T) = names heap (sortWith srt heap T) ∧
    ((∀ p ∈ T.m_symbols, ∀ q ∈ T.m_symbols, nameOf heap p = nameOf heap q → p = q) →
      (mergeWith srt heap T T).m_symbols = (sortWith srt heap T).m_symbols) ∧
    (T.m_symbols.Pairwise (fun a b => dpLTPtr heap a b = true) →
      (mergeWith srt heap T T).m_symbols = T.m_symbols) ∧
    (mergeWith srt heap (sortWith srt heap T) (sortWith srt heap T)).m_symbols
      = (sortWith srt heap T).m_symbols ∧
    (∀ grow cap, 2 * T.m_symbols.length ≤ cap →
      mergeSelf srt heap grow cap T = some (mergeWith srt heap T T)) := by
  have hnames : ∀ U : dpSymbolTable,
      names heap (mergeWith srt heap U U) = names heap (sortWith srt heap U) := by
    intro U
    rw [mergeWith_eq]
    exact names_sortWith_eq srt heap hs _ _ _ _ (by intro n; simp)
  have hsorted : ∀ U : dpSymbolTable,
      U.m_symbols.Pairwise (fun a b => nameOf heap a < nameOf heap b) →
      (mergeWith srt heap U U).m_symbols = U.m_symbols := by
    intro U hU
    rw [mergeWith_eq]
    exact sortWith_of_sorted srt heap hs _ _ _ hU (by intro x hx; simpa using hx)
      (by intro x hx; simp [hx])
  refine ⟨hnames T, ?_, ?_, ?_, ?_⟩
  · intro hinj
    apply eq_of_map_eq (nameOf heap) _ _ (hnames T)
    intro x hx y hy hxy
    have hx' : x ∈ T.m_symbols := by
      rw [mergeWith_eq] at hx
      have := (sortWith_spec srt heap hs _ _).2.1 x hx
      simpa using this
    have hy' : y ∈ T.m_symbols := (sortWith_spec srt heap hs _ _).2.1 y hy
    exact hinj x hx' y hy' hxy
  · intro h
    exact hsorted T (h.imp (fun hab => (dpLTPtr_iff heap _ _).1 hab))
  · exact hsorted (sortWith srt heap T) (sortWith_spec srt heap hs T.m_symbols _).1
  · intro grow cap hcap
    have hloop := mergeSelfLoop_room grow 0 cap T.m_symbols T.m_symbols.length 0
      (by omega) (by omega)
    rw [← List.range_eq_range'] at hloop
    simp only [List.take_zero, List.append_nil, Nat.zero_add, List.take_length] at hloop
    simp only [mergeSelf, hloop, Option.map_some', mergeWith_eq]

/-- Instance of C16 (amended): with the insertion sort of the model, merging the table
`foo`, `bar` with a copy of itself leaves `bar`, `foo`, as `sort()` does. -/
theorem merge_copy_witness :
    (merge exampleHeap (ofAdded [0x100, 0x120]) (ofAdded [0x100, 0x120])).m_symbols
      = [0x120, 0x100] ∧
    (mergeWith (stdSort (dpLTPtr exampleHeap)) exampleHeap (ofAdded [0x100, 0x120])
      (ofAdded [0x100, 0x120])).m_symbols
      = (sortWith (stdSort (dpLTPtr exampleHeap)) exampleHeap
          (ofAdded [0x100, 0x120])).m_symbols :=
  ⟨by decide,
    (merge_copy exampleHeap (stdSort (dpLTPtr exampleHeap)) (stdSort_isStdSort exampleHeap)
      (ofAdded [0x100, 0x120])).2.1 (by decide)⟩

end dpSymbolTable
